import Mathlib

/-! The request router of pitcher.

A shallow embedding of `router/route.go`, `router/router.go` and the sealing
guard of `app.go`.  Go strings are lists of characters, Go maps are
association lists that keep one entry per key, handlers are functions from a
request to the trace of effects they have on the response.

The router hands every pattern to Go's `regexp` package.  The first part of
this file models the fragment of that package the router can reach: the
syntax accepted by `regexp.MustCompile` (literals, `.`, bracket expressions,
groups, `*`, `+`, `?`, `|`, `^`, `$`, `\b` and the usual escapes) and the
leftmost-first submatch search of `FindStringSubmatch`.

The router installs its entries in an `http.ServeMux`.  `HandleFunc` is
modelled on the patterns every version of the mux reads as a plain path;
which other patterns it takes depends on the pattern syntax of its version.
-/

namespace Pitcher

/-- Text: a Go string, as the list of its characters. -/
abbrev Str := List Char

/-! ## Character classes -/

/-- ASCII decimal digit. -/
def isDigit (c : Char) : Bool := decide (48 ≤ c.toNat) && decide (c.toNat ≤ 57)

/-- ASCII upper-case letter. -/
def isUpper (c : Char) : Bool := decide (65 ≤ c.toNat) && decide (c.toNat ≤ 90)

/-- ASCII lower-case letter. -/
def isLower (c : Char) : Bool := decide (97 ≤ c.toNat) && decide (c.toNat ≤ 122)

/-- Member of `[[:alpha:]]`. -/
def isAlpha (c : Char) : Bool := isUpper c || isLower c

/-- Member of `[[:alnum:]]`: `[0-9A-Za-z]`. -/
def isAlnum (c : Char) : Bool := isDigit c || isAlpha c

/-- Word character of `\b` and `\w`: `[0-9A-Za-z_]`. -/
def isWordChar (c : Char) : Bool := isAlnum c || c == '_'

/-- Member of `\s`: `[\t\n\f\r ]`. -/
def isPerlSpace (c : Char) : Bool :=
  c == '\t' || c == '\n' || c.toNat == 12 || c == '\r' || c == ' '

/-- Member of `[[:space:]]`: `[\t\n\v\f\r ]`. -/
def isSpace (c : Char) : Bool := isPerlSpace c || c.toNat == 11

/-- One item of a bracket expression. -/
inductive ClassItem where
  | chr (c : Char)
  | range (lo hi : Char)
  | alnum
  | alpha
  | digit
  | lower
  | upper
  | space
  | perlSpace
  | word
  deriving DecidableEq, Repr

/-- Does the character belong to the item? -/
def ClassItem.test : ClassItem → Char → Bool
  | .chr c, d => d == c
  | .range lo hi, d => decide (lo.toNat ≤ d.toNat) && decide (d.toNat ≤ hi.toNat)
  | .alnum, d => isAlnum d
  | .alpha, d => isAlpha d
  | .digit, d => isDigit d
  | .lower, d => isLower d
  | .upper, d => isUpper d
  | .space, d => isSpace d
  | .perlSpace, d => isPerlSpace d
  | .word, d => isWordChar d

/-! ## Regular expressions -/

/-- Abstract syntax of the modelled expressions.  `cap i r` is the `i`-th
capturing group, numbered from 1 by its opening parenthesis. -/
inductive Re where
  | empty
  | lit (c : Char)
  | any
  | cls (neg : Bool) (items : List ClassItem)
  | bol
  | eol
  | wordB
  | noWordB
  | cat (a b : Re)
  | alt (a b : Re)
  | star (r : Re)
  | plus (r : Re)
  | opt (r : Re)
  | cap (i : Nat) (r : Re)
  deriving DecidableEq, Repr

/-- Concatenation of a list of expressions. -/
def mkCat : List Re → Re
  | [] => .empty
  | r :: rs => .cat r (mkCat rs)

/-- Closes the alternative being read: `alts` are the finished alternatives
and `acc` the items of the current one, both most recent first. -/
def finishAlt (alts acc : List Re) : Re :=
  alts.foldl (fun r a => Re.alt a r) (mkCat acc.reverse)

/-- Applies the repetition operator `c` (one of `*`, `+`, `?`). -/
def applyRep (c : Char) (r : Re) : Re :=
  if c = '*' then .star r else if c = '+' then .plus r else .opt r

/-- Removes a fixed leading text. -/
def dropLit : Str → Str → Option Str
  | [], cs => some cs
  | _ :: _, [] => none
  | p :: ps, c :: cs => if p = c then dropLit ps cs else none

/-- The named classes `[:name:]` of the fragment, each with the text that
follows the opening bracket. -/
def posixNames : List (Str × ClassItem) :=
  [ (":alnum:]".toList, .alnum), (":alpha:]".toList, .alpha),
    (":digit:]".toList, .digit), (":lower:]".toList, .lower),
    (":upper:]".toList, .upper), (":space:]".toList, .space),
    (":word:]".toList, .word) ]

/-- Reads a named class after the bracket that opens it. -/
def parsePosix (cs : Str) : Option (ClassItem × Str) :=
  posixNames.findSome? (fun e => (dropLit e.1 cs).map (fun r => (e.2, r)))

/-- Escape `\c` for a class of characters. -/
def perlClass (c : Char) : Option (Bool × ClassItem) :=
  if c = 'd' then some (false, .digit)
  else if c = 'D' then some (true, .digit)
  else if c = 'w' then some (false, .word)
  else if c = 'W' then some (true, .word)
  else if c = 's' then some (false, .perlSpace)
  else if c = 'S' then some (true, .perlSpace)
  else none

/-- Escape `\c` for a single character: control characters by letter, and
every ASCII character that is no letter or digit for itself. -/
def escapedChar (c : Char) : Option Char :=
  if c = 'n' then some '\n'
  else if c = 't' then some '\t'
  else if c = 'r' then some '\r'
  else if c.toNat < 128 && !isAlnum c then some c
  else none

/-- Items of a bracket expression up to the closing bracket.  `first` holds
while no item has been read, where `]` stands for itself. -/
def parseClassItems : Nat → Str → List ClassItem → Bool → Option (List ClassItem × Str)
  | 0, _, _, _ => none
  | _ + 1, [], _, _ => none
  | f + 1, c :: t, acc, first =>
    if c = ']' ∧ first = false then some (acc.reverse, t)
    else if c = '[' ∧ t.head? = some ':' then
      match parsePosix t with
      | some (it, r) => parseClassItems f r (it :: acc) false
      | none => none
    else if c = '\\' then
      match t with
      | [] => none
      | e :: t' =>
        match perlClass e with
        | some (false, it) => parseClassItems f t' (it :: acc) false
        | some (true, _) => none
        | none =>
          match escapedChar e with
          | some d => parseClassItems f t' (.chr d :: acc) false
          | none => none
    else
      match t with
      | '-' :: h :: t' =>
        if h = ']' then parseClassItems f t (.chr c :: acc) false
        else if h = '\\' ∨ h = '[' then none
        else if c.toNat ≤ h.toNat then parseClassItems f t' (.range c h :: acc) false
        else none
      | _ => parseClassItems f t (.chr c :: acc) false

/-- Bracket expression after its opening bracket. -/
def parseClass (f : Nat) (cs : Str) : Option (Re × Str) :=
  match cs with
  | '^' :: t => (parseClassItems f t [] true).map (fun p => (Re.cls true p.1, p.2))
  | _ => (parseClassItems f cs [] true).map (fun p => (Re.cls false p.1, p.2))

/-- Parser of `regexp/syntax` on the modelled fragment.  Reads one
alternation and stops at the end of the text or before an unmatched `)`;
returns the expression, the text left and the number of groups opened.
`g` counts the groups opened so far, `alts` and `acc` are as in `finishAlt`,
`rep` tells that the previous token was a repetition operator.  `none`: the
text is rejected by `regexp.MustCompile` (missing argument of a repetition,
stacked repetitions, missing parenthesis or bracket, bad escape), or it uses
syntax outside the fragment (`{`, `(?`, lazy repetitions, other classes and
escapes). -/
def parseRe : Nat → Str → Nat → List Re → List Re → Bool → Option (Re × Str × Nat)
  | 0, _, _, _, _, _ => none
  | _ + 1, [], g, alts, acc, _ => some (finishAlt alts acc, [], g)
  | f + 1, c :: t, g, alts, acc, rep =>
    if c = ')' then some (finishAlt alts acc, c :: t, g)
    else if c = '|' then parseRe f t g (mkCat acc.reverse :: alts) [] false
    else if c = '*' ∨ c = '+' ∨ c = '?' then
      match acc with
      | [] => none
      | a :: acc' =>
        if rep then none
        else if t.head? = some '?' then none
        else parseRe f t g alts (applyRep c a :: acc') true
    else if c = '(' then
      if t.head? = some '?' then none
      else
        match parseRe f t (g + 1) [] [] false with
        | some (inner, ')' :: t', g') => parseRe f t' g' alts (Re.cap (g + 1) inner :: acc) false
        | _ => none
    else if c = '[' then
      match parseClass f t with
      | some (r, t') => parseRe f t' g alts (r :: acc) false
      | none => none
    else if c = '\\' then
      match t with
      | [] => none
      | e :: t' =>
        if e = 'b' then parseRe f t' g alts (Re.wordB :: acc) false
        else if e = 'B' then parseRe f t' g alts (Re.noWordB :: acc) false
        else if e = 'A' then parseRe f t' g alts (Re.bol :: acc) false
        else if e = 'z' then parseRe f t' g alts (Re.eol :: acc) false
        else
          match perlClass e with
          | some (neg, it) => parseRe f t' g alts (Re.cls neg [it] :: acc) false
          | none =>
            match escapedChar e with
            | some d => parseRe f t' g alts (Re.lit d :: acc) false
            | none => none
    else if c = '.' then parseRe f t g alts (Re.any :: acc) false
    else if c = '^' then parseRe f t g alts (Re.bol :: acc) false
    else if c = '$' then parseRe f t g alts (Re.eol :: acc) false
    else if c = '{' then none
    else parseRe f t g alts (Re.lit c :: acc) false

/-- A compiled expression: its source text (what `String()` returns), its
syntax tree and the number of its capturing groups. -/
structure Regexp where
  src : Str
  prog : Re
  ncap : Nat
  deriving DecidableEq, Repr

/-- Model of `regexp.MustCompile`; `none` where `parseRe` gives up. -/
def Regexp.compile (src : Str) : Option Regexp :=
  match parseRe (src.length + 1) src 0 [] [] false with
  | some (re, [], g) => some { src := src, prog := re, ncap := g }
  | _ => none

/-- Source text of the expression: Go's `(*Regexp).String`. -/
def Regexp.String (m : Regexp) : Str := m.src

/-! ## Matching -/

/-- A position of the search: the character before it, the text after it
and the submatches recorded so far (group number and text). -/
structure MState where
  prev : Option Char
  rest : Str
  caps : List (Nat × Str)
  deriving DecidableEq, Repr

/-- Is the optional character a word character? -/
def isWordAt (c : Option Char) : Bool :=
  match c with
  | some d => isWordChar d
  | none => false

/-- Consumes one character that satisfies `p`. -/
def stepChar (p : Char → Bool) (s : MState) : List MState :=
  match s.rest with
  | [] => []
  | d :: t => if p d then [{ s with prev := some d, rest := t }] else []

/-- Passes without consuming when `p` holds at the position. -/
def stepAssert (p : MState → Bool) (s : MState) : List MState :=
  if p s then [s] else []

/-- The text consumed between two positions of one run. -/
def consumed (s s' : MState) : Str :=
  s.rest.take (s.rest.length - s'.rest.length)

/-- Records the text of group `i`, replacing an earlier record. -/
def setCap (i : Nat) (v : Str) (caps : List (Nat × Str)) : List (Nat × Str) :=
  (i, v) :: caps.filter (fun e => e.1 != i)

/-- Greedy iteration of `body`: as many rounds as possible first, each
round consuming at least one character. -/
def starRun (body : MState → List MState) : Nat → MState → List MState
  | 0, s => [s]
  | f + 1, s =>
    ((body s).filter (fun s' => decide (s'.rest.length < s.rest.length))).flatMap
      (starRun body f) ++ [s]

/-- All the ways the expression matches at a position, in the order of
preference of a backtracking (leftmost-first) matcher: each result is the
position reached with the submatches recorded.  `f` bounds the rounds of an
iteration. -/
def Re.run : Re → Nat → MState → List MState
  | .empty, _, s => [s]
  | .lit c, _, s => stepChar (fun d => d == c) s
  | .any, _, s => stepChar (fun d => d != '\n') s
  | .cls neg items, _, s => stepChar (fun d => (items.any (fun it => it.test d)) != neg) s
  | .bol, _, s => stepAssert (fun s => s.prev.isNone) s
  | .eol, _, s => stepAssert (fun s => s.rest.isEmpty) s
  | .wordB, _, s => stepAssert (fun s => isWordAt s.prev != isWordAt s.rest.head?) s
  | .noWordB, _, s => stepAssert (fun s => isWordAt s.prev == isWordAt s.rest.head?) s
  | .cat a b, f, s => (a.run f s).flatMap (b.run f)
  | .alt a b, f, s => a.run f s ++ b.run f s
  | .star r, f, s => starRun (r.run f) f s
  | .plus r, f, s => (r.run f s).flatMap (starRun (r.run f) f)
  | .opt r, f, s => r.run f s ++ [s]
  | .cap i r, f, s =>
    (r.run f s).map (fun s' => { s' with caps := setCap i (consumed s s') s'.caps })

/-- Leftmost start at which the expression matches: the text from that
start on, and the preferred match there. -/
def Re.search (re : Re) (f : Nat) : Option Char → Str → Option (Str × MState)
  | prev, [] =>
    match (re.run f { prev := prev, rest := [], caps := [] }).head? with
    | some s => some ([], s)
    | none => none
  | prev, c :: t =>
    match (re.run f { prev := prev, rest := c :: t, caps := [] }).head? with
    | some s => some (c :: t, s)
    | none => re.search f (some c) t

/-- Text of group `i` among the recorded submatches, empty if the group
took no part in the match. -/
def capText (caps : List (Nat × Str)) (i : Nat) : Str :=
  match caps.find? (fun e => e.1 == i) with
  | some e => e.2
  | none => []

/-- Leftmost match of the expression in the text with its submatches, the
whole match first: the result of `FindStringSubmatch`, which is also the
first element of `FindAllStringSubmatch(text, -1)`.  `none` when nothing
matches (both calls return nil). -/
def Regexp.firstSubmatch (m : Regexp) (text : Str) : Option (List Str) :=
  match m.prog.search (text.length + 1) none text with
  | none => none
  | some (start, s) =>
    some (start.take (start.length - s.rest.length)
      :: (List.range m.ncap).map (fun i => capText s.caps (i + 1)))

/-! ## Strings and maps -/

/-- Go's `strings.Split(s, sep)` for a separator of one character. -/
def Split (s : Str) (sep : Char) : List Str :=
  match s with
  | [] => [[]]
  | c :: cs =>
    if c = sep then [] :: Split cs sep
    else
      match Split cs sep with
      | [] => [[c]]
      | h :: t => (c :: h) :: t

/-- Go's `strings.Join(elems, sep)`. -/
def Join (elems : List Str) (sep : Str) : Str :=
  match elems with
  | [] => []
  | [e] => e
  | e :: es => e ++ sep ++ Join es sep

/-- First element of `strings.SplitN(s, sep, 2)` for a separator of one
character: the text before the first occurrence of `sep`, all of `s` when
there is none. -/
def splitFirst (s : Str) (sep : Char) : Str := s.takeWhile (fun c => c != sep)

/-- Go's `a < b` on strings: lexicographic order of the characters. -/
def strLt : Str → Str → Bool
  | _, [] => false
  | [], _ :: _ => true
  | a :: as, b :: bs => decide (a.toNat < b.toNat) || (a == b && strLt as bs)

/-- Places `x` in a list kept in descending order. -/
def insertDesc (x : Str) : List Str → List Str
  | [] => [x]
  | y :: ys => if strLt x y then y :: insertDesc x ys else x :: y :: ys

/-- Result of `sort.Slice(xs, func(a, b) { return xs[a] > xs[b] })`: the
elements in descending order. -/
def sortDesc (xs : List Str) : List Str := xs.foldr insertDesc []

/-- Lookup `m[k]` in a Go map. -/
def mapGet {β : Type} (m : List (Str × β)) (k : Str) : Option β :=
  match m with
  | [] => none
  | e :: es => if e.1 = k then some e.2 else mapGet es k

/-- Assignment `m[k] = v` in a Go map. -/
def mapSet {β : Type} (m : List (Str × β)) (k : Str) (v : β) : List (Str × β) :=
  match m with
  | [] => [(k, v)]
  | e :: es => if e.1 = k then (k, v) :: es else e :: mapSet es k v

/-- Insertion `s[k] = struct{}{}` in a Go set of strings. -/
def setAdd (s : List Str) (k : Str) : List Str :=
  if k ∈ s then s else s ++ [k]

/-! ## route.go -/

/-- The `*http.Handler` values the router stores and compares: addresses. -/
abbrev HandlerPtr := Nat

/-- The `map[string]string` of extracted parameters; the nil map is the
empty list. -/
abbrev Params := List (Str × Str)

/-- What the router reads of a request: method, URL path, whether the
context carries the `"log"` value, and the context's `"parameters"` value. -/
structure Request where
  method : Str
  path : Str
  hasLog : Bool
  parameters : Option Params
  deriving DecidableEq, Repr

/-- Observable effects of serving a request. -/
inductive Event where
  | status (code : Nat)
  | notFound
  | call (h : HandlerPtr) (req : Request)
  | note (tag : Str)
  | panicked
  deriving DecidableEq, Repr

/-- An `http.Handler`: the trace of effects of `ServeHTTP` on a request. -/
abbrev Handler := Request → List Event

/-- Source of `paramRegexp`: the constant `paramExpColon`. -/
def paramExpColon : Str := ":(.+)\\b".toList

/-- The package variable `paramRegexp = regexp.MustCompile(paramExpColon)`. -/
def paramRegexp : Regexp :=
  { src := paramExpColon
    prog := .cat (.lit ':') (.cat (.cap 1 (.cat (.plus .any) .empty)) (.cat .wordB .empty))
    ncap := 1 }

/-- One matcher variant of an entry. -/
structure matchMethodHandler where
  matcher : Regexp
  allowed : List (Str × HandlerPtr)
  params : List Str
  deriving DecidableEq, Repr

/-- A route entry. -/
structure route where
  base : Str
  patternMatchMethods : List (Str × List matchMethodHandler)
  allowMethods : List Str
  deriving DecidableEq, Repr

/-- The capture emitted for a parameter segment. -/
def paramCapture : Str := "([[:alnum:]]+)".toList

/-- Body of the loop of `parsePattern` over the parts of the pattern; the
state is `(routeParams, routeSlice)`. -/
def parsePart (st : List Str × List Str) (part : Str) : List Str × List Str :=
  match paramRegexp.firstSubmatch part with
  | some m => (st.1 ++ [m.getD 1 []], st.2 ++ [paramCapture])
  | none => if part.length > 0 then (st.1, st.2 ++ [part]) else st

/-- The method `parsePattern`: canonical path, parameter names and matcher.
`none` when `regexp.MustCompile` does not return. -/
def parsePattern (pattern : Str) : Option (Str × List Str × Regexp) :=
  let parts := Split pattern '/'
  let st := parts.foldl parsePart ([], [[]])
  let routePath := Join st.2 "/".toList
  match Regexp.compile routePath with
  | none => none
  | some patternRegexp =>
    let s0 := splitFirst routePath '('
    let path := if s0 = [] then "/".toList else s0
    some (path, st.1, patternRegexp)

/-- The constructor `NewMatchMethodHandler`. -/
def NewMatchMethodHandler (method : Str) (params : List Str) (matcher : Regexp)
    (handler : HandlerPtr) : matchMethodHandler :=
  { matcher := matcher, allowed := mapSet [] method handler, params := params }

/-- The constructor `NewRoute`. -/
def NewRoute (method pattern : Str) (handler : HandlerPtr) : Option (Str × route) :=
  match parsePattern pattern with
  | none => none
  | some (pattern, params, matcher) =>
    let matchMethod := NewMatchMethodHandler method params matcher handler
    some (pattern,
      { base := pattern
        patternMatchMethods := mapSet [] matcher.String [matchMethod]
        allowMethods := setAdd [] method })

/-- The scan of `route.Add` over the variants of a signature: `some true`
when the method is bound to the same handler, `some false` when it is bound
to another one, `none` when no variant binds it. -/
def findBound (hs : List matchMethodHandler) (method : Str) (handler : HandlerPtr) :
    Option Bool :=
  match hs with
  | [] => none
  | mh :: rest =>
    match mapGet mh.allowed method with
    | some h => some (decide (h = handler))
    | none => findBound rest method handler

/-- The method `route.Add`: the string returned and the entry afterwards. -/
def route.Add (r : route) (method pattern : Str) (handler : HandlerPtr) :
    Option (Str × route) :=
  match parsePattern pattern with
  | none => none
  | some (pattern, params, matcher) =>
    match mapGet r.patternMatchMethods matcher.String with
    | some matchMethodHandlers =>
      match findBound matchMethodHandlers method handler with
      | some true => some ([], r)
      | some false => some ([], r)
      | none =>
        -- the appended slice is assigned to the local variable only
        let _appended := matchMethodHandlers ++ [NewMatchMethodHandler method params matcher handler]
        some (pattern, { r with allowMethods := setAdd r.allowMethods method })
    | none =>
      some (pattern,
        { r with
          patternMatchMethods := mapSet r.patternMatchMethods matcher.String
            [NewMatchMethodHandler method params matcher handler]
          allowMethods := setAdd r.allowMethods method })

/-- The function `pairParams`; `none` is the error return (with a nil map). -/
def pairParams (values keys : List Str) : Option Params :=
  if values.length ≠ keys.length then none
  else some ((keys.zip values).foldl (fun pairs kv => mapSet pairs kv.1 kv.2) [])

/-- The method `sortMatchStrings`: the signatures in descending order. -/
def route.sortMatchStrings (r : route) : List Str :=
  sortDesc (r.patternMatchMethods.map (fun e => e.1))

/-- Inner loop of `route.ServeHTTP` over the variants of one signature;
`none` when no variant matches the path. -/
def serveVariants (req : Request) : List matchMethodHandler → Option (List Event)
  | [] => none
  | matcher :: rest =>
    match matcher.matcher.firstSubmatch req.path with
    | some matched =>
      let parameters := (pairParams (matched.drop 1) matcher.params).getD []
      match mapGet matcher.allowed req.method with
      | some h => some [Event.call h { req with parameters := some parameters }]
      | none => some [Event.panicked]
    | none => serveVariants req rest

/-- Outer loop of `route.ServeHTTP` over the sorted signatures. -/
def servePatterns (r : route) (req : Request) : List Str → List Event
  | [] => [Event.notFound]
  | pattern :: rest =>
    match serveVariants req ((mapGet r.patternMatchMethods pattern).getD []) with
    | some out => out
    | none => servePatterns r req rest

/-- The method `route.ServeHTTP`. -/
def route.ServeHTTP (r : route) : Handler := fun req =>
  if req.method ∈ r.allowMethods then servePatterns r req r.sortMatchStrings
  else [Event.status 405]

/-! ## router.go and app.go -/

/-- A middleware: a function from handlers to handlers. -/
abbrev Middleware := Handler → Handler

/-- The patterns registered in an `http.ServeMux`, each with its handler. -/
abbrev ServeMux := List (Str × Handler)

/-- The router.  `mux` is the embedded `*http.ServeMux`, nil after
`NewRouter` until `NewApp` sets it. -/
structure AppRouter where
  mux : Option ServeMux
  routes : List (Str × route)
  routePatterns : List Str
  methods : List Str
  middleware : List Middleware

/-- The constructor `NewRouter`. -/
def NewRouter : AppRouter :=
  { mux := none, routes := [], routePatterns := [], methods := [], middleware := [] }

/-- The method `AppRouter.Add`; `none` when the pattern does not compile. -/
def AppRouter.Add (a : AppRouter) (method pattern : Str) (handler : HandlerPtr) :
    Option AppRouter :=
  let methods := setAdd a.methods method
  match NewRoute method pattern handler with
  | none => none
  | some (p, route) =>
    let routePatterns := a.routePatterns ++ [p]
    match mapGet a.routes p with
    | some r =>
      match r.Add method pattern handler with
      | none => none
      | some (_, r') =>
        some { a with methods := methods, routePatterns := routePatterns,
                      routes := mapSet a.routes p r' }
    | none =>
      some { a with methods := methods, routePatterns := routePatterns,
                    routes := mapSet a.routes p route }

/-- The method `AppRouter.methodHandler`: the method gate around `handler`,
`none` (nil) when no entry has the pattern.  The gate reads the logger from
the request context with an unchecked type assertion. -/
def AppRouter.methodHandler (a : AppRouter) (pattern : Str) (handler : Handler) :
    Option Handler :=
  match mapGet a.routes pattern with
  | some route =>
    some (fun r =>
      if r.hasLog = false then [Event.panicked]
      else if r.method ∈ route.allowMethods then handler r
      else [Event.status 405])
  | none => none

/-- The part of `AppRouter.ServeHTTP` after the lookup `a.Handler(r)`: the
handler found is served the request with the logger in its context. -/
def AppRouter.serveWith (h : Handler) (r : Request) : List Event :=
  h { r with hasLog := true }

/-- The method `AppRouter.AddMiddleware`. -/
def AppRouter.AddMiddleware (a : AppRouter) (handler : Middleware) : AppRouter :=
  { a with middleware := a.middleware ++ [handler] }

/-- The method `AppRouter.sortRoutes`. -/
def AppRouter.sortRoutes (a : AppRouter) : AppRouter :=
  { a with routePatterns := sortDesc a.routePatterns }

/-- The loop `for i := len(a.middleware)-1; i >= 0; i--` of `FinishRoutes`,
with `n = i + 1`. -/
def wrapFrom (mws : List Middleware) : Nat → Handler → Handler
  | 0, final => final
  | i + 1, final =>
    match mws[i]? with
    | some m => wrapFrom mws i (m final)
    | none => wrapFrom mws i final

/-- A pattern that `http.ServeMux` reads as a plain path, whatever its
version: it starts with `/` and holds no space and no tab (which end a
method), no `{` (which opens a wildcard) and no `%` (which opens an escape). -/
def plainPath (pattern : Str) : Bool :=
  pattern.head? == some '/'
    && pattern.all (fun c => c != ' ' && c != '\t' && c != '{' && c != '%')

/-- Go's `(*ServeMux).HandleFunc` on plain paths, which the mux registers
unless the same pattern was registered before.  `none` when it panics, as it
does on an empty pattern, on a pattern registered before and on a pattern it
cannot parse such as `/a b`; `none` as well for every other pattern that is
not a plain path, where the outcome depends on the syntax of methods, hosts,
wildcards and escapes, which is not modelled. -/
def ServeMux.HandleFunc (mux : ServeMux) (pattern : Str) (h : Handler) : Option ServeMux :=
  if pattern = [] then none
  else if plainPath pattern = false then none
  else if (mapGet mux pattern).isSome then none
  else some (mux ++ [(pattern, h)])

/-- The loop of `FinishRoutes` over `a.routes`. -/
def finishLoop (a : AppRouter) : List (Str × route) → Option ServeMux → Option (Option ServeMux)
  | [], mux => some mux
  | (pattern, route) :: rest, mux =>
    let final := wrapFrom a.middleware a.middleware.length route.ServeHTTP
    match a.methodHandler pattern final with
    | none => none
    | some final =>
      match mux with
      | none => none
      | some m =>
        match ServeMux.HandleFunc m pattern final with
        | none => none
        | some m' => finishLoop a rest (some m')

/-- The method `AppRouter.FinishRoutes`; `none` when it panics. -/
def AppRouter.FinishRoutes (a : AppRouter) : Option AppRouter :=
  let a := a.sortRoutes
  match finishLoop a a.routes a.mux with
  | none => none
  | some mux => some { a with mux := mux }

/-- The application: its router and the state of the `sync.Once` guard. -/
structure App where
  Route : AppRouter
  once : Bool

/-- The constructor `NewApp`. -/
def NewApp : App :=
  { Route := { NewRouter with mux := some [] }, once := false }

/-- The method `App.allowMethods`: `a.once.Do(a.Route.FinishRoutes)`. -/
def App.allowMethods (a : App) : Option App :=
  if a.once then some a
  else
    match a.Route.FinishRoutes with
    | none => none
    | some r => some { Route := r, once := true }

/-- The method `App.GET`. -/
def App.GET (a : App) (p : Str) (h : HandlerPtr) : Option App :=
  (a.Route.Add "GET".toList p h).map (fun r => { a with Route := r })

/-- The method `App.POST`. -/
def App.POST (a : App) (p : Str) (h : HandlerPtr) : Option App :=
  (a.Route.Add "POST".toList p h).map (fun r => { a with Route := r })

/-- The method `App.Use`. -/
def App.Use (a : App) (mw : Middleware) : App :=
  { a with Route := a.Route.AddMiddleware mw }

/-! ## Patterns by segments -/

/-- A segment of a pattern: literal text or a parameter `:name`. -/
inductive Seg where
  | lit (text : Str)
  | param (name : Str)
  deriving DecidableEq, Repr

/-- Characters with a meaning of their own in the syntax of expressions. -/
def isSpecial (c : Char) : Bool :=
  c ∈ ['\\', '.', '+', '*', '?', '(', ')', '|', '[', ']', '{', '}', '^', '$']

/-- Plain character of a literal segment: stands for itself in an
expression and is neither `/` nor `:`. -/
def isPlain (c : Char) : Bool := !isSpecial c && c != '/' && c != ':'

/-- Character allowed in a parameter name. -/
def isNameChar (c : Char) : Bool := c != '/' && c != '\n'

/-- Well-formed segment: a literal is a non-empty plain text; a name is not
empty, has no `/` and no line feed, and ends in a word character. -/
def Seg.wf : Seg → Bool
  | .lit t => !t.isEmpty && t.all isPlain
  | .param n => n.all isNameChar && isWordAt n.getLast?

/-- Text of the segment in a pattern. -/
def Seg.text : Seg → Str
  | .lit t => t
  | .param n => ':' :: n

/-- The pattern `/seg1/seg2/...`. -/
def patternOf : List Seg → Str
  | [] => []
  | s :: segs => '/' :: s.text ++ patternOf segs

/-- Names of the parameter segments, in order. -/
def paramNames : List Seg → List Str
  | [] => []
  | .lit _ :: segs => paramNames segs
  | .param n :: segs => n :: paramNames segs

/-- The path built from the pattern by putting the values, in order, in the
place of the parameters. -/
def instantiate : List Seg → List Str → Str
  | [], _ => []
  | .lit t :: segs, vs => '/' :: t ++ instantiate segs vs
  | .param _ :: segs, [] => '/' :: instantiate segs []
  | .param _ :: segs, v :: vs => '/' :: v ++ instantiate segs vs

/-- A value for a parameter: non-empty and alphanumeric. -/
def isValue (v : Str) : Bool := !v.isEmpty && v.all isAlnum

/-! ## Definitions for the statements and proofs

Patterns given by their segments, what `parsePattern` makes of them, and the
concrete entries used as instances. -/

/-- Text the segment contributes to the expression `parsePattern` compiles. -/
def Seg.regexText : Seg → Str
  | .lit t => t
  | .param _ => paramCapture

/-- The expression text `/seg1/seg2/...` that `parsePattern` builds for the
segments: the matcher string of the pattern. -/
def regexOf : List Seg → Str
  | [] => []
  | s :: segs => '/' :: s.regexText ++ regexOf segs

/-- Syntax tree of the capture `([[:alnum:]]+)` as group `i`. -/
def captureRe (i : Nat) : Re := Re.cap i (mkCat [Re.plus (Re.cls false [.alnum])])

/-- Items of the syntax tree of `regexOf segs`, in order; `g` groups are
opened before them. -/
def segAtoms : List Seg → Nat → List Re
  | [], _ => []
  | .lit t :: segs, g => Re.lit '/' :: t.map Re.lit ++ segAtoms segs g
  | .param _ :: segs, g => Re.lit '/' :: captureRe (g + 1) :: segAtoms segs (g + 1)

/-- The character before the position reached after reading `v`. -/
def endPrev (prev : Option Char) (v : Str) : Option Char := v.foldl (fun _ c => some c) prev

/-- The canonical path `parsePattern` returns for the segments. -/
def canonOf (segs : List Seg) : Str :=
  if splitFirst (regexOf segs) '(' = [] then ['/'] else splitFirst (regexOf segs) '('

/-- The matcher `parsePattern` returns for the segments. -/
def matcherOf (segs : List Seg) : Regexp :=
  { src := regexOf segs, prog := mkCat (segAtoms segs 0), ncap := (paramNames segs).length }

/-- The submatches recorded after matching an instance of the segments with
the values `vs`. -/
def capsAfter : List Seg → List Str → Nat → List (Nat × Str) → List (Nat × Str)
  | [], _, _, caps => caps
  | .lit _ :: segs, vs, g, caps => capsAfter segs vs g caps
  | .param _ :: _, [], _, caps => caps
  | .param _ :: segs, v :: vs, g, caps => capsAfter segs vs (g + 1) (setCap (g + 1) v caps)

/-- The text does not start with an alphanumeric character. -/
def tailOK (tl : Str) : Prop := ∀ c, tl.head? = some c → isAlnum c = false

/-- The method GET. -/
def GET : Str := "GET".toList

/-- The method POST. -/
def POST : Str := "POST".toList

/-- The matcher variant of pattern `/a` bound to handler 1 under GET. -/
def variantA : matchMethodHandler :=
  { matcher := { src := "/a".toList, prog := mkCat [Re.lit '/', Re.lit 'a'], ncap := 0 }
    allowed := [(GET, 1)]
    params := [] }

/-- The entry `NewRoute` builds for GET `/a` with handler 1. -/
def routeA : route :=
  { base := "/a".toList
    patternMatchMethods := [("/a".toList, [variantA])]
    allowMethods := [GET] }

/-- A middleware that marks the trace before and after the handler it wraps. -/
def noteMw (tag : Str) : Middleware :=
  fun h req => Event.note (tag ++ "<".toList) :: h req ++ [Event.note (tag ++ ">".toList)]

/-- A router with the entry `routeA` and the given middleware. -/
def routerA (ms : List Middleware) : AppRouter :=
  { mux := some [], routes := [("/a".toList, routeA)], routePatterns := ["/a".toList],
    methods := [GET], middleware := ms }

/-- The chain `m0 (m1 (... (m(n-1) h)))`. -/
def chainOf (ms : List Middleware) (h : Handler) : Handler := ms.foldr (fun m acc => m acc) h

/-- The method gate of an entry around a chain. -/
def gateOf (r : route) (chain : Handler) : Handler := fun req =>
  if req.hasLog = false then [Event.panicked]
  else if req.method ∈ r.allowMethods then chain req
  else [Event.status 405]

/-- The handlers `FinishRoutes` installs for a list of entries. -/
def installed (mws : List Middleware) (routes : List (Str × route)) : ServeMux :=
  routes.map (fun e => (e.1, gateOf e.2 (chainOf mws e.2.ServeHTTP)))

/-- The application with the entry `routeA` and one middleware, before the seal. -/
def appA : App := { Route := routerA [noteMw "A".toList], once := false }

/-- The application `appA` after the seal. -/
def appASealed : App :=
  { Route := { routerA [noteMw "A".toList] with
      mux := some [("/a".toList, gateOf routeA (noteMw "A".toList routeA.ServeHTTP))] }
    once := true }

/-- The matcher variant `NewMatchMethodHandler` builds for a pattern. -/
def variantOf (segs : List Seg) (method : Str) (h : HandlerPtr) : matchMethodHandler :=
  { matcher := matcherOf segs, allowed := [(method, h)], params := paramNames segs }

/-- The entry `NewRoute` builds for a pattern. -/
def routeOf (segs : List Seg) (method : Str) (h : HandlerPtr) : route :=
  { base := canonOf segs
    patternMatchMethods := [(regexOf segs, [variantOf segs method h])]
    allowMethods := [method] }

/-- The entry that holds the variants of a pattern and of an extension of it. -/
def entryOf (segs ext : List Seg) (method : Str) (hA hB : HandlerPtr) : route :=
  { base := canonOf segs
    patternMatchMethods :=
      [(regexOf segs, [variantOf segs method hA]),
       (regexOf (segs ++ ext), [variantOf (segs ++ ext) method hB])]
    allowMethods := [method] }

/-- What `parsePattern` computes from the parts of the pattern. -/
def parseParts (parts : List Str) : Option (Str × List Str × Regexp) :=
  let st := parts.foldl parsePart ([], [[]])
  let routePath := Join st.2 "/".toList
  match Regexp.compile routePath with
  | none => none
  | some patternRegexp =>
    let s0 := splitFirst routePath '('
    let path := if s0 = [] then "/".toList else s0
    some (path, st.1, patternRegexp)

/-- Strictly descending order of a list of strings. -/
def Desc (l : List Str) : Prop := l.Pairwise (fun x y => strLt y x = true)

/-- What `route.ServeHTTP` does with the variant it has found to match: the
handler bound to the request's method is served the request with the
parameters paired, or the nil handler is dereferenced. -/
def outcomeOf (req : Request) (v : matchMethodHandler) (matched : List Str) : List Event :=
  match mapGet v.allowed req.method with
  | some h =>
    [Event.call h { req with
      parameters := some ((pairParams (matched.drop 1) v.params).getD []) }]
  | none => [Event.panicked]

/-- The variants of an entry in the order in which `route.ServeHTTP` visits
them: by descending signature, and for one signature in the order stored. -/
def route.scan (r : route) : List matchMethodHandler :=
  r.sortMatchStrings.flatMap (fun p => (mapGet r.patternMatchMethods p).getD [])

/-- The entry `NewRoute` returns for a registration, the empty entry when it
does not return. -/
def entryFor (method pattern : Str) (h : HandlerPtr) : route :=
  match NewRoute method pattern h with
  | some x => x.2
  | none => { base := [], patternMatchMethods := [], allowMethods := [] }

/-- The variants `NewRoute` stores for a registration. -/
def variantsFor (method pattern : Str) (h : HandlerPtr) : List matchMethodHandler :=
  (entryFor method pattern h).patternMatchMethods.flatMap (fun e => e.2)

/-- The entry after GET `/users/:id` with handler 1 and GET
`/users/:id/posts/:postId` with handler 2. -/
def entryTwo : route :=
  match (entryFor GET "/users/:id".toList 1).Add GET "/users/:id/posts/:postId".toList 2 with
  | some x => x.2
  | none => entryFor GET "/users/:id".toList 1

/-- An entry obtained from `NewRoute` by a sequence of calls of `route.Add`. -/
inductive Built : route → Prop where
  | new (method pattern : Str) (h : HandlerPtr) (c : Str) (r : route) :
      NewRoute method pattern h = some (c, r) → Built r
  | add (r : route) (method pattern : Str) (h : HandlerPtr) (s : Str) (r' : route) :
      Built r → r.Add method pattern h = some (s, r') → Built r'

/-- The methods to which the variants stored in an entry bind a handler. -/
def boundMethods (r : route) : List Str :=
  r.patternMatchMethods.flatMap (fun e => e.2.flatMap (fun v => v.allowed.map Prod.fst))

/-- Two lists of segments that differ in the names of their parameters only. -/
def sameShape : List Seg → List Seg → Bool
  | [], [] => true
  | .lit a :: s, .lit b :: t => decide (a = b) && sameShape s t
  | .param _ :: s, .param _ :: t => sameShape s t
  | _, _ => false

/-- The entry with the canonical path `c` and no variant. -/
def emptyEntry (c : Str) : route := { base := c, patternMatchMethods := [], allowMethods := [] }

/-- The variants a registration adds to the signatures of an entry. -/
def newEntries (r : route) (method : Str) (n : List Str) (re : Regexp) (h : HandlerPtr) :
    List (Str × List matchMethodHandler) :=
  match mapGet r.patternMatchMethods re.String with
  | none => [(re.String, [NewMatchMethodHandler method n re h])]
  | some _ => []

/-- Whether a registration adds its method to the allowed methods of an
entry. -/
def addsMethod (r : route) (method : Str) (re : Regexp) (h : HandlerPtr) : Bool :=
  match mapGet r.patternMatchMethods re.String with
  | none => true
  | some vs => (findBound vs method h).isNone

/-- The entry a registration works on: the one stored for the canonical path,
or the empty one. -/
def entryAt (a : AppRouter) (c : Str) : route :=
  match mapGet a.routes c with
  | some r => r
  | none => emptyEntry c

/-- Word boundary at a position: the test of `\b`. -/
def atBoundary (s : MState) : Bool := isWordAt s.prev != isWordAt s.rest.head?

/-- What follows the iteration of `paramRegexp` at a position `s1` reached
from `s0`: group 1 is recorded, then `\b` is tested. -/
def closeName (s0 s1 : MState) : List MState :=
  if atBoundary s1 then [{ s1 with caps := setCap 1 (consumed s0 s1) s1.caps }] else []

/-- The text after the first `:` of a segment, if it has one. -/
def afterColon (part : Str) : Option Str :=
  match part.dropWhile (fun c => c != ':') with
  | [] => none
  | _ :: rest => some rest

/-- The text cut after its last word character. -/
def cutWord (t : Str) : Str := (t.reverse.dropWhile (fun c => !isWordChar c)).reverse

/-- The name `paramRegexp` finds in a segment without line feed: the text
after the first `:` up to its last word character, if there is one. -/
def paramNameOf (part : Str) : Option Str :=
  match afterColon part with
  | none => none
  | some rest => if rest.any isWordChar then some (cutWord rest) else none

/-- What a segment contributes to the matcher string: the capture for a
parameter, its own text for another non-empty segment, nothing if empty. -/
def atomOf (part : Str) : Option Str :=
  match paramNameOf part with
  | some _ => some paramCapture
  | none => if part = [] then none else some part

/-- Whether `parsePattern` treats a part as a parameter: `paramRegexp` finds
a match in it. -/
def isParamPart (part : Str) : Bool := (paramRegexp.firstSubmatch part).isSome

/-- The text a part adds to the elements `parsePattern` joins: the capture
for a parameter, the part itself when it is not empty, nothing otherwise. -/
def sliceOf (part : Str) : Option Str :=
  if isParamPart part then some paramCapture
  else if part = [] then none
  else some part

/-! ## Lemmas -/

/-! ### The parser on the expressions `parsePattern` builds -/

/-- The package variable `paramRegexp` is what compiling `paramExpColon`
gives. -/
theorem paramRegexp_compiles : Regexp.compile paramExpColon = some paramRegexp := by
  decide!

theorem parseRe_plain (c : Char) (hc : isSpecial c = false) (f : Nat) (t : Str) (g : Nat)
    (alts acc : List Re) (rep : Bool) :
    parseRe (f + 1) (c :: t) g alts acc rep = parseRe f t g alts (Re.lit c :: acc) false := by
  simp [isSpecial] at hc
  simp [parseRe, hc]

theorem parseRe_text (t : Str) (ht : ∀ c ∈ t, isSpecial c = false) (hne : t ≠ []) (f : Nat) (rest : Str)
    (g : Nat) (alts acc : List Re) (rep : Bool) :
    parseRe (f + t.length) (t ++ rest) g alts acc rep
      = parseRe f rest g alts ((t.map Re.lit).reverse ++ acc) false := by
  induction t generalizing acc rep with
  | nil => exact absurd rfl hne
  | cons c t ih =>
    have hc := ht c (List.mem_cons_self _ _)
    have ht' : ∀ d ∈ t, isSpecial d = false := fun d hd => ht d (List.mem_cons_of_mem _ hd)
    rw [List.length_cons, ← Nat.add_assoc, List.cons_append, parseRe_plain c hc]
    by_cases h : t = []
    · subst h; simp
    · rw [ih ht' h]; simp

theorem parseRe_capture (f : Nat) (rest : Str) (g : Nat) (alts acc : List Re) (rep : Bool) :
    parseRe (f + 15) (paramCapture ++ rest) g alts acc rep
      = parseRe (f + 14) rest (g + 1) alts (captureRe (g + 1) :: acc) false := by
  simp [paramCapture, parseRe, parseClass, parseClassItems, parsePosix, posixNames, dropLit,
    applyRep, finishAlt, mkCat, captureRe]

theorem slash_not_special : isSpecial '/' = false := by decide

theorem isPlain_not_special {c : Char} (h : isPlain c = true) : isSpecial c = false := by
  simp [isPlain] at h
  exact h.1.1

theorem paramCapture_length : paramCapture.length = 14 := by decide

theorem parseRe_segs (segs : List Seg) (hwf : ∀ s ∈ segs, s.wf = true) :
    ∀ (F g : Nat) (acc : List Re) (rep : Bool), (regexOf segs).length < F →
      parseRe F (regexOf segs) g [] acc rep
        = some (mkCat (acc.reverse ++ segAtoms segs g), [], g + (paramNames segs).length) := by
  induction segs with
  | nil =>
    intro F g acc rep hF
    obtain ⟨f, rfl⟩ : ∃ f, F = f + 1 := ⟨F - 1, by simp [regexOf] at hF; omega⟩
    simp [regexOf, parseRe, finishAlt, segAtoms, paramNames]
  | cons s segs ih =>
    intro F g acc rep hF
    have hs := hwf s (List.mem_cons_self _ _)
    have hwf' : ∀ s ∈ segs, s.wf = true := fun x hx => hwf x (List.mem_cons_of_mem _ hx)
    cases s with
    | lit t =>
      simp [Seg.wf] at hs
      simp only [regexOf, Seg.regexText, List.length_cons, List.length_append] at hF
      obtain ⟨f, rfl⟩ : ∃ f, F = (f + t.length) + 1 := ⟨F - t.length - 1, by omega⟩
      simp only [regexOf, Seg.regexText, List.cons_append]
      rw [parseRe_plain '/' slash_not_special,
        parseRe_text t (fun c hc => isPlain_not_special (hs.2 c hc)) hs.1,
        ih hwf' f g _ false (by omega)]
      simp [segAtoms, paramNames]
    | param n =>
      simp only [regexOf, Seg.regexText, List.length_cons, List.length_append,
        paramCapture_length] at hF
      obtain ⟨f, rfl⟩ : ∃ f, F = (f + 15) + 1 := ⟨F - 16, by omega⟩
      simp only [regexOf, Seg.regexText, List.cons_append]
      rw [parseRe_plain '/' slash_not_special, parseRe_capture,
        ih hwf' (f + 14) (g + 1) _ false (by omega)]
      simp [segAtoms, paramNames]
      omega

theorem compile_regexOf (segs : List Seg) (hwf : ∀ s ∈ segs, s.wf = true) :
    Regexp.compile (regexOf segs)
      = some { src := regexOf segs, prog := mkCat (segAtoms segs 0),
               ncap := (paramNames segs).length } := by
  unfold Regexp.compile
  rw [parseRe_segs segs hwf _ 0 [] false (Nat.lt_succ_self _)]
  simp

/-! ### Splitting and joining -/

theorem Split_ne_nil (s : Str) (sep : Char) : Split s sep ≠ [] := by
  cases s with
  | nil => simp [Split]
  | cons c cs =>
    unfold Split
    split
    · simp
    · split <;> simp

theorem Split_append_sep (t r : Str) (sep : Char) (ht : ∀ c ∈ t, c ≠ sep) :
    Split (t ++ sep :: r) sep = t :: Split r sep := by
  induction t with
  | nil => simp [Split]
  | cons c t ih =>
    have hc : c ≠ sep := ht c (List.mem_cons_self _ _)
    have ih' := ih (fun d hd => ht d (List.mem_cons_of_mem _ hd))
    simp [Split, hc, ih']

theorem Split_no_sep (t : Str) (sep : Char) (ht : ∀ c ∈ t, c ≠ sep) : Split t sep = [t] := by
  induction t with
  | nil => simp [Split]
  | cons c t ih =>
    have hc : c ≠ sep := ht c (List.mem_cons_self _ _)
    have ih' := ih (fun d hd => ht d (List.mem_cons_of_mem _ hd))
    simp [Split, hc, ih']

theorem isPlain_ne_slash {c : Char} (h : isPlain c = true) : c ≠ '/' := by
  simp [isPlain] at h
  exact h.1.2

theorem isPlain_ne_colon {c : Char} (h : isPlain c = true) : c ≠ ':' := by
  simp [isPlain] at h
  exact h.2

theorem Seg.text_no_slash (s : Seg) (h : s.wf = true) : ∀ c ∈ s.text, c ≠ '/' := by
  cases s with
  | lit t =>
    simp [Seg.wf] at h
    intro c hc
    exact isPlain_ne_slash (h.2 c hc)
  | param n =>
    simp [Seg.wf, isNameChar] at h
    intro c hc
    simp [Seg.text] at hc
    rcases hc with rfl | hc
    · decide
    · exact (h.1 c hc).1

theorem Split_text_patternOf (segs : List Seg) (hwf : ∀ s ∈ segs, s.wf = true) :
    ∀ (t : Str), (∀ c ∈ t, c ≠ '/') →
      Split (t ++ patternOf segs) '/' = t :: segs.map Seg.text := by
  induction segs with
  | nil => intro t ht; simp [patternOf, Split_no_sep t '/' ht]
  | cons s segs ih =>
    intro t ht
    have hs := hwf s (List.mem_cons_self _ _)
    have hwf' : ∀ s ∈ segs, s.wf = true := fun x hx => hwf x (List.mem_cons_of_mem _ hx)
    simp only [patternOf, List.cons_append]
    rw [Split_append_sep t _ '/' ht, ih hwf' s.text (s.text_no_slash hs)]
    simp

theorem Split_patternOf (segs : List Seg) (hwf : ∀ s ∈ segs, s.wf = true) :
    Split (patternOf segs) '/' = [] :: segs.map Seg.text := by
  simpa using Split_text_patternOf segs hwf [] (by simp)

theorem Join_cons (e : Str) (es : List Str) (sep : Str) :
    Join (e :: es) sep = e ++ (es.map (fun x => sep ++ x)).flatten := by
  induction es generalizing e with
  | nil => simp [Join]
  | cons x xs ih => simp [Join, ih]

theorem Join_regexText (segs : List Seg) :
    Join ([] :: segs.map Seg.regexText) ['/'] = regexOf segs := by
  rw [Join_cons]
  induction segs with
  | nil => simp [regexOf]
  | cons s segs ih =>
    simp only [List.nil_append, List.map_map] at ih
    simp only [List.map_cons, List.flatten_cons, List.nil_append, regexOf, List.map_map, ih]
    simp

/-! ### The matcher -/

theorem stepChar_cons_true (p : Char → Bool) (prev : Option Char) (c : Char) (t : Str)
    (caps : List (Nat × Str)) (h : p c = true) :
    stepChar p ⟨prev, c :: t, caps⟩ = [⟨some c, t, caps⟩] := by
  simp [stepChar, h]

theorem stepChar_head_false (p : Char → Bool) (s : MState)
    (h : ∀ c, s.rest.head? = some c → p c = false) : stepChar p s = [] := by
  unfold stepChar
  cases hr : s.rest with
  | nil => rfl
  | cons d t => simp [h d (by simp [hr])]

theorem starRun_greedy (p : Char → Bool) (v : Str) (hv : ∀ c ∈ v, p c = true) (tl : Str)
    (htl : ∀ c, tl.head? = some c → p c = false) (caps : List (Nat × Str)) :
    ∀ (f : Nat) (prev : Option Char), v.length ≤ f →
      ∃ others, starRun (stepChar p) f ⟨prev, v ++ tl, caps⟩
        = ⟨endPrev prev v, tl, caps⟩ :: others := by
  induction v with
  | nil =>
    intro f prev _
    cases f with
    | zero => exact ⟨[], by simp [starRun, endPrev]⟩
    | succ f =>
      refine ⟨[], ?_⟩
      simp [starRun, endPrev, stepChar_head_false p ⟨prev, tl, caps⟩ htl]
  | cons c v ih =>
    intro f prev hf
    obtain ⟨f, rfl⟩ : ∃ f', f = f' + 1 := ⟨f - 1, by simp at hf; omega⟩
    have hc := hv c (List.mem_cons_self _ _)
    obtain ⟨others, ho⟩ := ih (fun d hd => hv d (List.mem_cons_of_mem _ hd)) f (some c)
      (by simp at hf; omega)
    refine ⟨others ++ [⟨prev, c :: v ++ tl, caps⟩], ?_⟩
    simp only [starRun, List.cons_append, stepChar_cons_true p prev c (v ++ tl) caps hc]
    simp [ho, endPrev]

theorem run_lit_cons (c : Char) (X : Re) (f : Nat) (prev : Option Char) (r : Str)
    (caps : List (Nat × Str)) :
    (Re.cat (Re.lit c) X).run f ⟨prev, c :: r, caps⟩ = X.run f ⟨some c, r, caps⟩ := by
  simp [Re.run, stepChar]

theorem run_lit_mismatch (c : Char) (X : Re) (f : Nat) (s : MState)
    (h : s.rest.head? ≠ some c) : (Re.cat (Re.lit c) X).run f s = [] := by
  have : stepChar (fun d => d == c) s = [] := by
    apply stepChar_head_false
    intro d hd
    simp
    rintro rfl
    exact h hd
  simp [Re.run, this]

theorem run_lits (t : Str) (rest : List Re) (f : Nat) (r : Str) (caps : List (Nat × Str)) :
    ∀ prev, (mkCat (t.map Re.lit ++ rest)).run f ⟨prev, t ++ r, caps⟩
      = (mkCat rest).run f ⟨endPrev prev t, r, caps⟩ := by
  induction t with
  | nil => intro prev; simp [endPrev]
  | cons c t ih =>
    intro prev
    simp only [List.map_cons, List.cons_append, mkCat, run_lit_cons]
    exact ih (some c)

theorem search_of_run (re : Re) (f : Nat) (prev : Option Char) (text : Str) (s : MState)
    (others : List MState) (h : re.run f ⟨prev, text, []⟩ = s :: others) :
    re.search f prev text = some (text, s) := by
  cases text with
  | nil => simp [Re.search, h]
  | cons c t => simp [Re.search, h]

theorem search_none (re : Re) (f : Nat) (text : Str) :
    ∀ prev, (∀ p t, t <:+ text → re.run f ⟨p, t, []⟩ = []) → re.search f prev text = none := by
  induction text with
  | nil =>
    intro prev h
    simp [Re.search, h prev [] (List.suffix_refl _)]
  | cons c t ih =>
    intro prev h
    simp only [Re.search, h prev (c :: t) (List.suffix_refl _), List.head?_nil]
    exact ih (some c) (fun p t' ht' => h p t' (ht'.trans (List.suffix_cons c t)))

theorem endPrev_eq (v : Str) : ∀ prev, endPrev prev v = (v.getLast?).or prev := by
  induction v with
  | nil => intro prev; simp [endPrev]
  | cons c v ih =>
    intro prev
    have h : endPrev prev (c :: v) = endPrev (some c) v := rfl
    rw [h, ih]
    cases v with
    | nil => simp
    | cons d v =>
      rw [List.getLast?_cons_cons]
      cases hl : (d :: v).getLast? with
      | none => simp at hl
      | some x => rfl

theorem plusRun_greedy (r : Re) (p : Char → Bool) (f : Nat) (hr : ∀ s, r.run f s = stepChar p s)
    (v : Str) (hne : v ≠ []) (hv : ∀ c ∈ v, p c = true) (tl : Str)
    (htl : ∀ c, tl.head? = some c → p c = false) (caps : List (Nat × Str))
    (prev : Option Char) (hf : v.length ≤ f) :
    ∃ others, (Re.plus r).run f ⟨prev, v ++ tl, caps⟩ = ⟨endPrev prev v, tl, caps⟩ :: others := by
  cases v with
  | nil => exact absurd rfl hne
  | cons c v =>
    obtain ⟨others, ho⟩ := starRun_greedy p v (fun d hd => hv d (List.mem_cons_of_mem _ hd)) tl htl
      caps f (some c) (by simp at hf; omega)
    refine ⟨others, ?_⟩
    have hfun : r.run f = stepChar p := funext hr
    simp only [Re.run, hfun, List.cons_append,
      stepChar_cons_true p prev c (v ++ tl) caps (hv c (List.mem_cons_self _ _))]
    simp [ho, endPrev]

theorem consumed_append (prev prev' : Option Char) (v tl : Str) (caps caps' : List (Nat × Str)) :
    consumed ⟨prev, v ++ tl, caps⟩ ⟨prev', tl, caps'⟩ = v := by
  simp [consumed]

theorem captureRun_greedy (r : Re) (p : Char → Bool) (f : Nat)
    (hr : ∀ s, r.run f s = stepChar p s) (i : Nat)
    (v : Str) (hne : v ≠ []) (hv : ∀ c ∈ v, p c = true) (tl : Str)
    (htl : ∀ c, tl.head? = some c → p c = false) (caps : List (Nat × Str))
    (prev : Option Char) (hf : v.length ≤ f) :
    ∃ others, (Re.cap i (mkCat [Re.plus r])).run f ⟨prev, v ++ tl, caps⟩
      = ⟨endPrev prev v, tl, setCap i v caps⟩ :: others := by
  obtain ⟨others, ho⟩ := plusRun_greedy r p f hr v hne hv tl htl caps prev hf
  refine ⟨others.map (fun s' =>
    { s' with caps := setCap i (consumed ⟨prev, v ++ tl, caps⟩ s') s'.caps }), ?_⟩
  have h1 : (mkCat [Re.plus r]).run f ⟨prev, v ++ tl, caps⟩
      = ⟨endPrev prev v, tl, caps⟩ :: others := by
    have : ∀ l : List MState, l.flatMap (Re.empty.run f) = l := by
      intro l
      induction l with
      | nil => rfl
      | cons x xs ih => simp [List.flatMap_cons, Re.run, ih]
    show ((Re.plus r).run f _).flatMap (Re.empty.run f) = _
    rw [this, ho]
  show ((mkCat [Re.plus r]).run f _).map _ = _
  rw [h1, List.map_cons, consumed_append]

/-! ### The expression of parameter segments -/

theorem paramRegexp_none (part : Str) (h : ∀ c ∈ part, c ≠ ':') :
    paramRegexp.firstSubmatch part = none := by
  unfold Regexp.firstSubmatch
  rw [search_none]
  intro p t ht
  apply run_lit_mismatch
  intro hh
  have : ':' ∈ t := by
    cases t with
    | nil => simp at hh
    | cons d t' => simp at hh; simp [hh]
  exact h ':' (ht.subset this) rfl

theorem run_wordB_end (f : Nat) (p : Option Char) (caps : List (Nat × Str))
    (h : isWordAt p = true) :
    (Re.cat Re.wordB Re.empty).run f ⟨p, [], caps⟩ = [⟨p, [], caps⟩] := by
  have h2 : isWordAt none = false := rfl
  simp [Re.run, stepAssert, h, h2]

theorem paramRegexp_name (n : Str) (hn : ∀ c ∈ n, c ≠ '\n') (hw : isWordAt n.getLast? = true) :
    paramRegexp.firstSubmatch (':' :: n) = some [':' :: n, n] := by
  have hne : n ≠ [] := by
    rintro rfl
    simp [isWordAt] at hw
  obtain ⟨others, ho⟩ := captureRun_greedy Re.any (fun d => d != '\n') ((':' :: n).length + 1)
    (fun s => rfl) 1 n hne (by simpa using hn) [] (by simp) [] (some ':')
    (by simp only [List.length_cons]; omega)
  have hend : endPrev (some ':') n = n.getLast? := by
    rw [endPrev_eq]
    cases hl : n.getLast? with
    | none => simp [hl, isWordAt] at hw
    | some x => rfl
  have hrun : paramRegexp.prog.run ((':' :: n).length + 1) ⟨none, ':' :: n, []⟩
      = ⟨n.getLast?, [], setCap 1 n []⟩
        :: others.flatMap ((Re.cat Re.wordB Re.empty).run ((':' :: n).length + 1)) := by
    simp only [paramRegexp, run_lit_cons]
    simp only [List.append_nil, mkCat] at ho
    show (((Re.cap 1 _).run _ _).flatMap _) = _
    rw [ho, List.flatMap_cons, hend, run_wordB_end _ _ _ hw]
    rfl
  unfold Regexp.firstSubmatch
  rw [search_of_run _ _ _ _ _ _ hrun]
  have hr1 : List.range 1 = [0] := rfl
  simp [paramRegexp, capText, setCap, hr1]

/-! ### parsePattern on a pattern given by its segments -/

theorem parsePart_nil (st : List Str × List Str) : parsePart st [] = st := by
  simp [parsePart, paramRegexp_none [] (by simp)]

theorem parsePart_seg (s : Seg) (hs : s.wf = true) (st : List Str × List Str) :
    parsePart st s.text = (st.1 ++ paramNames [s], st.2 ++ [s.regexText]) := by
  cases s with
  | lit t =>
    simp [Seg.wf] at hs
    have hlen : 0 < t.length := List.length_pos.mpr hs.1
    simp [parsePart, Seg.text, paramRegexp_none t (fun c hc => isPlain_ne_colon (hs.2 c hc)),
      paramNames, Seg.regexText, hlen]
  | param n =>
    simp [Seg.wf, isNameChar] at hs
    simp [parsePart, Seg.text, paramRegexp_name n (fun c hc => (hs.1 c hc).2) hs.2,
      paramNames, Seg.regexText]

theorem paramNames_cons (s : Seg) (segs : List Seg) :
    paramNames (s :: segs) = paramNames [s] ++ paramNames segs := by
  cases s <;> simp [paramNames]

theorem parsePart_fold (segs : List Seg) (hwf : ∀ s ∈ segs, s.wf = true) :
    ∀ st, (segs.map Seg.text).foldl parsePart st
      = (st.1 ++ paramNames segs, st.2 ++ segs.map Seg.regexText) := by
  induction segs with
  | nil => intro st; simp [paramNames]
  | cons s segs ih =>
    intro st
    have hs := hwf s (List.mem_cons_self _ _)
    have hwf' : ∀ s ∈ segs, s.wf = true := fun x hx => hwf x (List.mem_cons_of_mem _ hx)
    rw [List.map_cons, List.foldl_cons, parsePart_seg s hs, ih hwf', paramNames_cons s segs]
    simp

theorem parsePattern_patternOf (segs : List Seg) (hwf : ∀ s ∈ segs, s.wf = true) :
    parsePattern (patternOf segs) = some (canonOf segs, paramNames segs, matcherOf segs) := by
  unfold parsePattern
  simp only [Split_patternOf segs hwf, List.foldl_cons, parsePart_nil, parsePart_fold segs hwf]
  have hj : Join ([[]] ++ segs.map Seg.regexText) "/".toList = regexOf segs :=
    Join_regexText segs
  simp only [hj, compile_regexOf segs hwf, List.nil_append]
  rfl

/-! ### Running the matcher of a pattern on an instance of the pattern -/

theorem endPrev_append (prev : Option Char) (a b : Str) :
    endPrev prev (a ++ b) = endPrev (endPrev prev a) b := by
  simp [endPrev, List.foldl_append]

theorem instantiate_head (s : Seg) (segs : List Seg) (vs : List Str) :
    ∃ r, instantiate (s :: segs) vs = '/' :: r := by
  cases s with
  | lit t => exact ⟨_, rfl⟩
  | param n =>
    cases vs with
    | nil => exact ⟨_, rfl⟩
    | cons v vs => exact ⟨_, rfl⟩

theorem tailOK_instantiate (segs : List Seg) (vs : List Str) (tl : Str) (h : tailOK tl) :
    tailOK (instantiate segs vs ++ tl) := by
  cases segs with
  | nil => simpa [instantiate] using h
  | cons s segs =>
    obtain ⟨r, hr⟩ := instantiate_head s segs vs
    rw [hr]
    intro c hc
    simp at hc
    subst hc
    decide

theorem isValue_iff (v : Str) : isValue v = true ↔ v ≠ [] ∧ ∀ c ∈ v, isAlnum c = true := by
  simp [isValue]

theorem run_segs (segs : List Seg) (hwf : ∀ s ∈ segs, s.wf = true) (tl : Str) (htl : tailOK tl)
    (f : Nat) :
    ∀ (vs : List Str) (g : Nat) (caps : List (Nat × Str)) (prev : Option Char),
      (∀ v ∈ vs, isValue v = true) → vs.length = (paramNames segs).length →
      (instantiate segs vs ++ tl).length ≤ f →
      ∃ others, (mkCat (segAtoms segs g)).run f ⟨prev, instantiate segs vs ++ tl, caps⟩
        = ⟨endPrev prev (instantiate segs vs), tl, capsAfter segs vs g caps⟩ :: others := by
  induction segs with
  | nil =>
    intro vs g caps prev _ _ _
    exact ⟨[], by simp [segAtoms, mkCat, Re.run, instantiate, endPrev, capsAfter]⟩
  | cons s segs ih =>
    intro vs g caps prev hvs hlen hf
    have hwf' : ∀ s ∈ segs, s.wf = true := fun x hx => hwf x (List.mem_cons_of_mem _ hx)
    cases s with
    | lit t =>
      have hlen' : vs.length = (paramNames segs).length := by simpa [paramNames] using hlen
      have hf' : (instantiate segs vs ++ tl).length ≤ f := by
        simp [instantiate] at hf ⊢
        omega
      obtain ⟨others, ho⟩ := ih hwf' vs g caps (endPrev prev ('/' :: t)) hvs hlen' hf'
      refine ⟨others, ?_⟩
      have h1 : segAtoms (Seg.lit t :: segs) g = ('/' :: t).map Re.lit ++ segAtoms segs g := by
        simp [segAtoms]
      have h2 : instantiate (Seg.lit t :: segs) vs = ('/' :: t) ++ instantiate segs vs := by
        simp [instantiate]
      rw [h1, h2, List.append_assoc, run_lits, ho, endPrev_append]
      rfl
    | param n =>
      cases vs with
      | nil => simp [paramNames] at hlen
      | cons v vs =>
        have hv := (isValue_iff v).mp (hvs v (List.mem_cons_self _ _))
        have hvs' : ∀ v ∈ vs, isValue v = true := fun x hx => hvs x (List.mem_cons_of_mem _ hx)
        have hlen' : vs.length = (paramNames segs).length := by simpa [paramNames] using hlen
        have hf' : (instantiate segs vs ++ tl).length ≤ f := by
          simp [instantiate] at hf ⊢
          omega
        have hfv : v.length ≤ f := by
          simp [instantiate] at hf
          omega
        obtain ⟨o1, ho1⟩ := captureRun_greedy (Re.cls false [.alnum])
          (fun d => ([ClassItem.alnum].any (fun it => it.test d)) != false) f (fun s => rfl)
          (g + 1) v hv.1 (by simpa [ClassItem.test] using hv.2) (instantiate segs vs ++ tl)
          (by
            intro c hc
            simpa [ClassItem.test] using tailOK_instantiate segs vs tl htl c hc)
          caps (some '/') hfv
        obtain ⟨o2, ho2⟩ := ih hwf' vs (g + 1) (setCap (g + 1) v caps) (endPrev (some '/') v)
          hvs' hlen' hf'
        refine ⟨o2 ++ o1.flatMap ((mkCat (segAtoms segs (g + 1))).run f), ?_⟩
        have h2 : instantiate (Seg.param n :: segs) (v :: vs) ++ tl
            = '/' :: (v ++ (instantiate segs vs ++ tl)) := by
          simp [instantiate]
        have h3 : endPrev prev (instantiate (Seg.param n :: segs) (v :: vs))
            = endPrev (endPrev (some '/') v) (instantiate segs vs) := by
          have : instantiate (Seg.param n :: segs) (v :: vs)
              = ('/' :: v) ++ instantiate segs vs := by simp [instantiate]
          rw [this, endPrev_append]
          rfl
        rw [h2, h3]
        simp only [segAtoms, mkCat, run_lit_cons]
        show ((captureRe (g + 1)).run f _).flatMap _ = _
        unfold captureRe
        rw [ho1, List.flatMap_cons, ho2]
        simp [capsAfter]

/-! ### The submatches recorded -/

theorem find_filter_ne (i j : Nat) (h : j ≠ i) (caps : List (Nat × Str)) :
    (caps.filter (fun e => e.1 != i)).find? (fun e => e.1 == j)
      = caps.find? (fun e => e.1 == j) := by
  induction caps with
  | nil => rfl
  | cons e es ih =>
    obtain ⟨a, b⟩ := e
    by_cases he : a = i
    · subst he
      have hej : (a == j) = false := by simpa using fun e' : a = j => h e'.symm
      simp only [List.filter_cons, bne_self_eq_false, Bool.false_eq_true, if_false,
        List.find?_cons, hej, ih]
    · have hne : (a != i) = true := by simpa using he
      simp only [List.filter_cons, hne, if_true, List.find?_cons, ih]

theorem capText_setCap (i j : Nat) (v : Str) (caps : List (Nat × Str)) :
    capText (setCap i v caps) j = if j = i then v else capText caps j := by
  by_cases h : j = i
  · subst h; simp [capText, setCap]
  · have hij : (i == j) = false := by simpa using fun e : i = j => h e.symm
    simp only [capText, setCap, List.find?_cons, hij, h, if_false, find_filter_ne i j h]

theorem capText_capsAfter_le (segs : List Seg) :
    ∀ (vs : List Str) (g : Nat) (caps : List (Nat × Str)) (j : Nat), j ≤ g →
      capText (capsAfter segs vs g caps) j = capText caps j := by
  induction segs with
  | nil => intro vs g caps j _; rfl
  | cons s segs ih =>
    intro vs g caps j hj
    cases s with
    | lit t => exact ih vs g caps j hj
    | param n =>
      cases vs with
      | nil => rfl
      | cons v vs =>
        show capText (capsAfter segs vs (g + 1) (setCap (g + 1) v caps)) j = _
        rw [ih vs (g + 1) _ j (by omega), capText_setCap, if_neg (by omega)]

theorem capText_capsAfter (segs : List Seg) :
    ∀ (vs : List Str) (g : Nat) (caps : List (Nat × Str)),
      vs.length = (paramNames segs).length →
      (List.range vs.length).map (fun i => capText (capsAfter segs vs g caps) (g + 1 + i)) = vs := by
  induction segs with
  | nil =>
    intro vs g caps h
    simp [paramNames] at h
    simp [h]
  | cons s segs ih =>
    intro vs g caps h
    cases s with
    | lit t => exact ih vs g caps (by simpa [paramNames] using h)
    | param n =>
      cases vs with
      | nil => rfl
      | cons v vs =>
        have h' : vs.length = (paramNames segs).length := by simpa [paramNames] using h
        have ih' := ih vs (g + 1) (setCap (g + 1) v caps) h'
        rw [List.length_cons, List.range_succ_eq_map, List.map_cons, List.map_map]
        have h0 : capText (capsAfter (Seg.param n :: segs) (v :: vs) g caps) (g + 1 + 0) = v := by
          show capText (capsAfter segs vs (g + 1) (setCap (g + 1) v caps)) (g + 1 + 0) = v
          rw [capText_capsAfter_le segs vs (g + 1) _ _ (by omega), capText_setCap]
          simp
        rw [h0]
        congr 1
        refine Eq.trans ?_ ih'
        apply List.map_congr_left
        intro i _
        show capText (capsAfter segs vs (g + 1) (setCap (g + 1) v caps)) (g + 1 + (i + 1)) = _
        congr 1
        omega

theorem firstSubmatch_instance (segs : List Seg) (hwf : ∀ s ∈ segs, s.wf = true)
    (vs : List Str) (hvs : ∀ v ∈ vs, isValue v = true)
    (hlen : vs.length = (paramNames segs).length) (tl : Str) (htl : tailOK tl) :
    (matcherOf segs).firstSubmatch (instantiate segs vs ++ tl)
      = some (instantiate segs vs :: vs) := by
  obtain ⟨others, ho⟩ := run_segs segs hwf tl htl ((instantiate segs vs ++ tl).length + 1)
    vs 0 [] none hvs hlen (Nat.le_succ _)
  unfold Regexp.firstSubmatch
  have hs : (matcherOf segs).prog = mkCat (segAtoms segs 0) := rfl
  rw [hs, search_of_run _ _ _ _ _ _ ho]
  have hc := capText_capsAfter segs vs 0 [] hlen
  simp only [Nat.zero_add] at hc
  have hn : (matcherOf segs).ncap = vs.length := by simp [matcherOf, hlen]
  simp only [hn]
  have hc' : (List.range vs.length).map (fun i => capText (capsAfter segs vs 0 []) (i + 1)) = vs := by
    refine Eq.trans ?_ hc
    apply List.map_congr_left
    intro i _
    rw [Nat.add_comm]
  rw [hc']
  simp

/-! ### pairParams -/

theorem mapSet_fresh {β : Type} (m : List (Str × β)) (k : Str) (v : β)
    (h : ∀ e ∈ m, e.1 ≠ k) : mapSet m k v = m ++ [(k, v)] := by
  induction m with
  | nil => rfl
  | cons e es ih =>
    have he : e.1 ≠ k := h e (List.mem_cons_self _ _)
    simp [mapSet, he, ih (fun x hx => h x (List.mem_cons_of_mem _ hx))]

theorem foldl_mapSet_nodup (l : List (Str × Str)) :
    ∀ acc : Params, (l.map Prod.fst).Nodup → (∀ e ∈ acc, ∀ x ∈ l, e.1 ≠ x.1) →
      l.foldl (fun pairs kv => mapSet pairs kv.1 kv.2) acc = acc ++ l := by
  induction l with
  | nil => intro acc _ _; simp
  | cons x xs ih =>
    intro acc hnd hdis
    simp only [List.map_cons, List.nodup_cons] at hnd
    rw [List.foldl_cons, mapSet_fresh acc x.1 x.2 (fun e he => hdis e he x (List.mem_cons_self _ _)),
      ih _ hnd.2]
    · simp
    · intro e he y hy
      simp only [List.mem_append, List.mem_singleton] at he
      rcases he with he | rfl
      · exact hdis e he y (List.mem_cons_of_mem _ hy)
      · intro h
        exact hnd.1 (h ▸ List.mem_map_of_mem Prod.fst hy)

theorem pairParams_nodup (values keys : List Str) (hlen : values.length = keys.length)
    (hnd : keys.Nodup) : pairParams values keys = some (keys.zip values) := by
  unfold pairParams
  rw [if_neg (by simpa using hlen), foldl_mapSet_nodup _ [] _ (by simp)]
  · simp
  · rw [List.map_fst_zip]
    · exact hnd
    · omega

/-! ### Registration, the middleware chain and the seal -/

theorem findBound_of_bound (vs : List matchMethodHandler) (method : Str) (h : HandlerPtr)
    (hb : ∃ v ∈ vs, (mapGet v.allowed method).isSome = true) :
    ∃ b, findBound vs method h = some b := by
  induction vs with
  | nil => simp at hb
  | cons v vs ih =>
    unfold findBound
    cases hv : mapGet v.allowed method with
    | some x => exact ⟨_, rfl⟩
    | none =>
      obtain ⟨w, hw, hw'⟩ := hb
      rcases List.mem_cons.mp hw with rfl | hmem
      · rw [hv] at hw'; simp at hw'
      · exact ih ⟨w, hmem, hw'⟩

theorem wrapFrom_take (mws : List Middleware) :
    ∀ (n : Nat) (final : Handler), n ≤ mws.length →
      wrapFrom mws n final = chainOf (mws.take n) final := by
  intro n
  induction n with
  | zero => intro final _; rfl
  | succ i ih =>
    intro final hi
    have hlt : i < mws.length := hi
    have hget : mws[i]? = some mws[i] := List.getElem?_eq_getElem hlt
    simp only [wrapFrom, hget]
    rw [ih _ (Nat.le_of_lt hlt)]
    have : mws.take (i + 1) = mws.take i ++ [mws[i]] := by
      rw [List.take_succ, hget]; rfl
    simp only [chainOf]
    rw [this, List.foldr_append]
    rfl

theorem wrapFrom_all (mws : List Middleware) (final : Handler) :
    wrapFrom mws mws.length final = chainOf mws final := by
  rw [wrapFrom_take mws mws.length final (Nat.le_refl _), List.take_length]

theorem middleware_foldl (ms : List Middleware) :
    ∀ a : AppRouter, (ms.foldl AppRouter.AddMiddleware a).middleware = a.middleware ++ ms
      ∧ (ms.foldl AppRouter.AddMiddleware a).routes = a.routes
      ∧ (ms.foldl AppRouter.AddMiddleware a).mux = a.mux := by
  induction ms with
  | nil => intro a; simp
  | cons m ms ih =>
    intro a
    obtain ⟨h1, h2, h3⟩ := ih (a.AddMiddleware m)
    simp only [List.foldl_cons, h1, h2, h3]
    simp [AppRouter.AddMiddleware]

theorem mapGet_append_none {β : Type} (m m' : List (Str × β)) (k : Str)
    (h : mapGet m k = none) : mapGet (m ++ m') k = mapGet m' k := by
  induction m with
  | nil => rfl
  | cons e es ih =>
    unfold mapGet at h
    by_cases he : e.1 = k
    · simp [he] at h
    · simp only [he, if_false] at h
      simp [mapGet, he, ih h]

theorem mapGet_of_mem {β : Type} (m : List (Str × β)) (hnd : (m.map Prod.fst).Nodup)
    (e : Str × β) (he : e ∈ m) : mapGet m e.1 = some e.2 := by
  induction m with
  | nil => simp at he
  | cons x xs ih =>
    simp only [List.map_cons, List.nodup_cons] at hnd
    rcases List.mem_cons.mp he with rfl | hmem
    · simp [mapGet]
    · have hne : x.1 ≠ e.1 := fun h => hnd.1 (h ▸ List.mem_map_of_mem Prod.fst hmem)
      simp [mapGet, hne, ih hnd.2 hmem]

theorem mapGet_map_snd {β γ : Type} (G : β → γ) (m : List (Str × β)) (k : Str) :
    mapGet (m.map (fun e => (e.1, G e.2))) k = (mapGet m k).map G := by
  induction m with
  | nil => rfl
  | cons e es ih =>
    by_cases he : e.1 = k
    · simp [mapGet, he]
    · simp [mapGet, he, ih]

theorem finishLoop_installs (a : AppRouter) :
    ∀ (routes : List (Str × route)) (m0 : ServeMux),
      (∀ e ∈ routes, mapGet a.routes e.1 = some e.2) →
      (∀ e ∈ routes, plainPath e.1 = true) →
      (routes.map Prod.fst).Nodup →
      (∀ e ∈ routes, mapGet m0 e.1 = none) →
      finishLoop a routes (some m0) = some (some (m0 ++ installed a.middleware routes)) := by
  intro routes
  induction routes with
  | nil => intro m0 _ _ _ _; simp [finishLoop, installed]
  | cons e es ih =>
    intro m0 hlook hne hnd hfree
    obtain ⟨p, r⟩ := e
    simp only [List.map_cons, List.nodup_cons] at hnd
    have h1 : mapGet a.routes p = some r := hlook (p, r) (List.mem_cons_self _ _)
    have h2' : plainPath p = true := hne (p, r) (List.mem_cons_self _ _)
    have h2 : p ≠ [] := by
      rintro rfl
      simp [plainPath] at h2'
    have h3 : mapGet m0 p = none := hfree (p, r) (List.mem_cons_self _ _)
    have hrest : ∀ e ∈ es, mapGet (m0 ++ [(p, gateOf r (chainOf a.middleware r.ServeHTTP))]) e.1
        = none := by
      intro e he
      rw [mapGet_append_none _ _ _ (hfree e (List.mem_cons_of_mem _ he))]
      have hpe : p ≠ e.1 := fun h => hnd.1 (h ▸ List.mem_map_of_mem Prod.fst he)
      simp [mapGet, hpe]
    have ih' := ih (m0 ++ [(p, gateOf r (chainOf a.middleware r.ServeHTTP))])
      (fun e he => hlook e (List.mem_cons_of_mem _ he))
      (fun e he => hne e (List.mem_cons_of_mem _ he)) hnd.2 hrest
    simp only [finishLoop, AppRouter.methodHandler, h1, ServeMux.HandleFunc, h2, h2', h3,
      wrapFrom_all, if_false, Option.isSome_none, Bool.false_eq_true, Bool.true_eq_false]
    have hg : (fun r_1 : Request =>
        if r_1.hasLog = false then [Event.panicked]
        else if r_1.method ∈ r.allowMethods then chainOf a.middleware r.ServeHTTP r_1
        else [Event.status 405]) = gateOf r (chainOf a.middleware r.ServeHTTP) := rfl
    rw [hg, ih']
    simp [installed]

theorem FinishRoutes_installs (a : AppRouter) (hmux : a.mux = some [])
    (hnd : (a.routes.map Prod.fst).Nodup) (hne : ∀ e ∈ a.routes, plainPath e.1 = true) :
    a.FinishRoutes = some { a.sortRoutes with mux := some (installed a.middleware a.routes) } := by
  unfold AppRouter.FinishRoutes
  have h := finishLoop_installs a.sortRoutes a.routes []
    (fun e he => mapGet_of_mem a.routes hnd e he) hne hnd (fun _ _ => rfl)
  simp only [AppRouter.sortRoutes] at h ⊢
  rw [hmux] at h ⊢
  rw [h]
  simp

theorem appA_seals : appA.allowMethods = some appASealed := by
  unfold App.allowMethods
  have hf := FinishRoutes_installs (routerA [noteMw "A".toList]) rfl (by decide!) (by decide!)
  have ho : appA.once = false := rfl
  have hr : appA.Route = routerA [noteMw "A".toList] := rfl
  simp only [ho, hr, hf]
  rfl

/-! ### Every match is an instance of the pattern -/

theorem mem_stepChar (p : Char → Bool) (s s1 : MState) :
    s1 ∈ stepChar p s ↔ ∃ c t, s.rest = c :: t ∧ p c = true
      ∧ s1 = { s with prev := some c, rest := t } := by
  unfold stepChar
  cases hr : s.rest with
  | nil => simp
  | cons d t =>
    by_cases hp : p d = true
    · simp only [hp, if_true, List.mem_singleton]
      constructor
      · intro h; exact ⟨d, t, rfl, hp, h⟩
      · rintro ⟨c, t', hct, _, h⟩
        simp only [List.cons.injEq] at hct
        obtain ⟨rfl, rfl⟩ := hct
        exact h
    · simp only [hp, Bool.false_eq_true, if_false, List.not_mem_nil, false_iff]
      rintro ⟨c, t', hct, hpc, _⟩
      simp only [List.cons.injEq] at hct
      obtain ⟨rfl, rfl⟩ := hct
      exact hp hpc

theorem starRun_sound (p : Char → Bool) :
    ∀ (f : Nat) (s s' : MState), s' ∈ starRun (stepChar p) f s →
      ∃ v, (∀ c ∈ v, p c = true) ∧ s.rest = v ++ s'.rest := by
  intro f
  induction f with
  | zero =>
    intro s s' h
    simp only [starRun, List.mem_singleton] at h
    subst h
    exact ⟨[], by simp, rfl⟩
  | succ f ih =>
    intro s s' h
    simp only [starRun, List.mem_append, List.mem_flatMap, List.mem_filter,
      List.mem_singleton] at h
    rcases h with ⟨s1, ⟨hs1, _⟩, hs'⟩ | rfl
    · obtain ⟨c, t, hct, hpc, rfl⟩ := (mem_stepChar p s s1).mp hs1
      obtain ⟨v, hv, hrest⟩ := ih _ s' hs'
      refine ⟨c :: v, ?_, ?_⟩
      · intro d hd
        rcases List.mem_cons.mp hd with rfl | hd
        · exact hpc
        · exact hv d hd
      · rw [hct]
        simp only at hrest
        rw [hrest]
        rfl
    · exact ⟨[], by simp, rfl⟩

theorem starRun_complete (p : Char → Bool) (tl : Str) (caps : List (Nat × Str)) (v : Str)
    (hv : ∀ c ∈ v, p c = true) :
    ∀ (f : Nat) (prev : Option Char), v.length ≤ f →
      ⟨endPrev prev v, tl, caps⟩ ∈ starRun (stepChar p) f ⟨prev, v ++ tl, caps⟩ := by
  induction v with
  | nil =>
    intro f prev _
    cases f with
    | zero => simp [starRun, endPrev]
    | succ f => simp [starRun, endPrev]
  | cons c v ih =>
    intro f prev hf
    obtain ⟨f, rfl⟩ : ∃ f', f = f' + 1 := ⟨f - 1, by simp at hf; omega⟩
    have hc := hv c (List.mem_cons_self _ _)
    have ih' := ih (fun d hd => hv d (List.mem_cons_of_mem _ hd)) f (some c)
      (by simp at hf; omega)
    simp only [starRun, List.cons_append, stepChar_cons_true p prev c (v ++ tl) caps hc,
      List.mem_append, List.mem_flatMap, List.mem_filter, List.mem_singleton]
    left
    exact ⟨⟨some c, v ++ tl, caps⟩, ⟨rfl, by simp⟩, ih'⟩

theorem alnumClass_test (d : Char) :
    (([ClassItem.alnum].any (fun it => it.test d)) != false) = isAlnum d := by
  simp [ClassItem.test]

theorem captureRe_sound (i f : Nat) (s s' : MState) (h : s' ∈ (captureRe i).run f s) :
    ∃ v, isValue v = true ∧ s.rest = v ++ s'.rest := by
  simp only [captureRe, mkCat, Re.run, List.mem_map, List.mem_flatMap, List.mem_singleton] at h
  obtain ⟨s2, ⟨s3, ⟨s1, hs1, hs3⟩, rfl⟩, rfl⟩ := h
  obtain ⟨c, t, hct, hpc, rfl⟩ := (mem_stepChar _ s s1).mp hs1
  obtain ⟨v, hv, hrest⟩ := starRun_sound _ f _ s2 hs3
  refine ⟨c :: v, ?_, ?_⟩
  · rw [isValue_iff]
    refine ⟨by simp, ?_⟩
    intro d hd
    rcases List.mem_cons.mp hd with rfl | hd
    · simpa [ClassItem.test] using hpc
    · simpa [ClassItem.test] using hv d hd
  · rw [hct]
    simp only at hrest
    rw [hrest]
    rfl

theorem captureRe_complete (i f : Nat) (prev : Option Char) (v tl : Str)
    (caps : List (Nat × Str)) (hv : isValue v = true) (hf : v.length ≤ f) :
    ⟨endPrev prev v, tl, setCap i v caps⟩ ∈ (captureRe i).run f ⟨prev, v ++ tl, caps⟩ := by
  obtain ⟨hne, hall⟩ := (isValue_iff v).mp hv
  cases v with
  | nil => exact absurd rfl hne
  | cons c v =>
    have hc : isAlnum c = true := hall c (List.mem_cons_self _ _)
    have hstar := starRun_complete
      (fun d => ([ClassItem.alnum].any (fun it => it.test d)) != false) tl caps v
      (fun d hd => by simpa [ClassItem.test] using hall d (List.mem_cons_of_mem _ hd)) f (some c)
      (by simp at hf; omega)
    simp only [captureRe, mkCat, Re.run, List.mem_map, List.mem_flatMap, List.mem_singleton]
    refine ⟨⟨endPrev (some c) v, tl, caps⟩, ⟨_, ⟨⟨some c, v ++ tl, caps⟩, ?_, hstar⟩, rfl⟩, ?_⟩
    · rw [List.cons_append, stepChar_cons_true _ prev c (v ++ tl) caps
        (by simpa [ClassItem.test] using hc)]
      simp
    · have hcons : consumed ⟨prev, c :: v ++ tl, caps⟩ ⟨endPrev (some c) v, tl, caps⟩ = c :: v :=
        consumed_append prev _ (c :: v) tl caps caps
      simp only [hcons]
      rfl

theorem run_lits_sound (t : Str) (rest : List Re) (f : Nat) :
    ∀ (s s' : MState), s' ∈ (mkCat (t.map Re.lit ++ rest)).run f s →
      ∃ r, s.rest = t ++ r ∧ s' ∈ (mkCat rest).run f ⟨endPrev s.prev t, r, s.caps⟩ := by
  induction t with
  | nil => intro s s' h; exact ⟨s.rest, rfl, h⟩
  | cons c t ih =>
    intro s s' h
    simp only [List.map_cons, List.cons_append, mkCat] at h
    by_cases hh : s.rest.head? = some c
    · obtain ⟨prev, rs, caps⟩ := s
      cases rs with
      | nil => simp at hh
      | cons d r =>
        simp only [List.head?_cons, Option.some.injEq] at hh
        subst hh
        rw [run_lit_cons] at h
        obtain ⟨r', hr', hmem⟩ := ih _ s' h
        simp only at hr'
        exact ⟨r', by simp [hr'], hmem⟩
    · rw [run_lit_mismatch c _ f s hh] at h
      simp at h

theorem run_sound (segs : List Seg) (f : Nat) :
    ∀ (g : Nat) (s s' : MState), s' ∈ (mkCat (segAtoms segs g)).run f s →
      ∃ vs, vs.length = (paramNames segs).length ∧ (∀ v ∈ vs, isValue v = true)
        ∧ s.rest = instantiate segs vs ++ s'.rest := by
  induction segs with
  | nil =>
    intro g s s' h
    simp only [segAtoms, mkCat, Re.run, List.mem_singleton] at h
    subst h
    exact ⟨[], rfl, by simp, rfl⟩
  | cons x segs ih =>
    intro g s s' h
    cases x with
    | lit t =>
      have h1 : segAtoms (Seg.lit t :: segs) g = ('/' :: t).map Re.lit ++ segAtoms segs g := by
        simp [segAtoms]
      rw [h1] at h
      obtain ⟨r, hr, hmem⟩ := run_lits_sound ('/' :: t) _ f s s' h
      obtain ⟨vs, hlen, hvs, hrest⟩ := ih g _ s' hmem
      refine ⟨vs, by simpa [paramNames] using hlen, hvs, ?_⟩
      simp only at hrest
      rw [hr, hrest]
      simp [instantiate]
    | param n =>
      simp only [segAtoms, mkCat] at h
      obtain ⟨r, hr, hmem⟩ := run_lits_sound ['/'] (captureRe (g + 1) :: segAtoms segs (g + 1))
        f s s' (by simpa [mkCat] using h)
      simp only [mkCat, Re.run, List.mem_flatMap] at hmem
      obtain ⟨s1, hs1, hs'⟩ := hmem
      obtain ⟨v, hv, hvr⟩ := captureRe_sound (g + 1) f _ s1 hs1
      obtain ⟨vs, hlen, hvs, hrest⟩ := ih (g + 1) s1 s' hs'
      refine ⟨v :: vs, by simpa [paramNames] using hlen, ?_, ?_⟩
      · intro w hw
        rcases List.mem_cons.mp hw with rfl | hw
        · exact hv
        · exact hvs w hw
      · simp only at hvr
        rw [hr, hvr, hrest]
        simp [instantiate]

theorem run_complete (segs : List Seg) (tl : Str) (f : Nat) :
    ∀ (vs : List Str) (g : Nat) (caps : List (Nat × Str)) (prev : Option Char),
      (∀ v ∈ vs, isValue v = true) → vs.length = (paramNames segs).length →
      (instantiate segs vs).length ≤ f →
      ⟨endPrev prev (instantiate segs vs), tl, capsAfter segs vs g caps⟩
        ∈ (mkCat (segAtoms segs g)).run f ⟨prev, instantiate segs vs ++ tl, caps⟩ := by
  induction segs with
  | nil =>
    intro vs g caps prev _ _ _
    simp [segAtoms, mkCat, Re.run, instantiate, endPrev, capsAfter]
  | cons x segs ih =>
    intro vs g caps prev hvs hlen hf
    cases x with
    | lit t =>
      have h1 : segAtoms (Seg.lit t :: segs) g = ('/' :: t).map Re.lit ++ segAtoms segs g := by
        simp [segAtoms]
      have h2 : instantiate (Seg.lit t :: segs) vs = ('/' :: t) ++ instantiate segs vs := by
        simp [instantiate]
      have hf' : (instantiate segs vs).length ≤ f := by
        rw [h2] at hf
        simp at hf
        omega
      rw [h1, h2, List.append_assoc, run_lits, endPrev_append]
      exact ih vs g caps _ hvs (by simpa [paramNames] using hlen) hf'
    | param n =>
      cases vs with
      | nil => simp [paramNames] at hlen
      | cons v vs =>
        have hv := hvs v (List.mem_cons_self _ _)
        have hvs' : ∀ v ∈ vs, isValue v = true := fun x hx => hvs x (List.mem_cons_of_mem _ hx)
        have h2 : instantiate (Seg.param n :: segs) (v :: vs) = ('/' :: v) ++ instantiate segs vs := by
          simp [instantiate]
        have hf' : (instantiate segs vs).length ≤ f ∧ v.length ≤ f := by
          rw [h2] at hf
          simp at hf
          omega
        have hcap := captureRe_complete (g + 1) f (some '/') v (instantiate segs vs ++ tl) caps
          hv hf'.2
        have ih' := ih vs (g + 1) (setCap (g + 1) v caps) (endPrev (some '/') v) hvs'
          (by simpa [paramNames] using hlen) hf'.1
        rw [h2, endPrev_append]
        simp only [segAtoms, mkCat, List.cons_append, List.append_assoc, run_lit_cons]
        simp only [Re.run, List.mem_flatMap]
        exact ⟨_, hcap, ih'⟩

theorem search_isSome_iff (re : Re) (f : Nat) (text : Str) :
    ∀ prev, (re.search f prev text).isSome = true
      ↔ ∃ pre t, text = pre ++ t ∧ re.run f ⟨endPrev prev pre, t, []⟩ ≠ [] := by
  induction text with
  | nil =>
    intro prev
    simp only [Re.search]
    cases hr : re.run f ⟨prev, [], []⟩ with
    | nil =>
      simp only [List.head?_nil, Option.isSome_none, Bool.false_eq_true, false_iff]
      rintro ⟨pre, t, hpt, hne⟩
      have hp : pre = [] := by
        cases pre with
        | nil => rfl
        | cons => simp at hpt
      have ht : t = [] := by
        cases t with
        | nil => rfl
        | cons => subst hp; simp at hpt
      subst hp; subst ht
      exact hne hr
    | cons x xs =>
      simp only [List.head?_cons, Option.isSome_some, true_iff]
      exact ⟨[], [], rfl, by simp [endPrev, hr]⟩
  | cons c t ih =>
    intro prev
    simp only [Re.search]
    cases hr : re.run f ⟨prev, c :: t, []⟩ with
    | nil =>
      simp only [List.head?_nil]
      rw [ih (some c)]
      constructor
      · rintro ⟨pre, t', hpt, hne⟩
        exact ⟨c :: pre, t', by simp [hpt], hne⟩
      · rintro ⟨pre, t', hpt, hne⟩
        cases pre with
        | nil =>
          simp only [List.nil_append] at hpt
          subst hpt
          exact absurd hr hne
        | cons d pre =>
          simp only [List.cons_append, List.cons.injEq] at hpt
          obtain ⟨rfl, rfl⟩ := hpt
          exact ⟨pre, t', rfl, hne⟩
    | cons x xs =>
      simp only [List.head?_cons, Option.isSome_some, true_iff]
      exact ⟨[], c :: t, rfl, by simp [endPrev, hr]⟩

theorem firstSubmatch_isSome_iff (segs : List Seg) (path : Str) :
    ((matcherOf segs).firstSubmatch path).isSome = true
      ↔ ∃ pre vs post, vs.length = (paramNames segs).length ∧ (∀ v ∈ vs, isValue v = true)
          ∧ path = pre ++ instantiate segs vs ++ post := by
  have h0 : ((matcherOf segs).firstSubmatch path).isSome
      = ((mkCat (segAtoms segs 0)).search (path.length + 1) none path).isSome := by
    unfold Regexp.firstSubmatch
    show (match (mkCat (segAtoms segs 0)).search (path.length + 1) none path with
      | none => none
      | some (start, s) => some _).isSome = _
    cases (mkCat (segAtoms segs 0)).search (path.length + 1) none path with
    | none => rfl
    | some x => rfl
  rw [h0, search_isSome_iff]
  constructor
  · rintro ⟨pre, t, hpt, hne⟩
    obtain ⟨s', hs'⟩ := List.exists_mem_of_ne_nil _ hne
    obtain ⟨vs, hlen, hvs, hrest⟩ := run_sound segs _ 0 _ s' hs'
    refine ⟨pre, vs, s'.rest, hlen, hvs, ?_⟩
    simp only at hrest
    rw [hpt, hrest, List.append_assoc]
  · rintro ⟨pre, vs, post, hlen, hvs, hpath⟩
    refine ⟨pre, instantiate segs vs ++ post, by rw [hpath, List.append_assoc], ?_⟩
    have hf : (instantiate segs vs).length ≤ path.length + 1 := by
      rw [hpath]
      simp
      omega
    exact List.ne_nil_of_mem (run_complete segs post _ vs 0 [] _ hvs hlen hf)

theorem instantiate_no_params (segs : List Seg) (h : paramNames segs = []) :
    ∀ vs, instantiate segs vs = patternOf segs := by
  induction segs with
  | nil => intro vs; rfl
  | cons x segs ih =>
    intro vs
    cases x with
    | lit t =>
      have h' : paramNames segs = [] := by simpa [paramNames] using h
      simp [instantiate, patternOf, Seg.text, ih h' vs]
    | param n => simp [paramNames] at h

theorem NewRoute_patternOf (segs : List Seg) (hwf : ∀ s ∈ segs, s.wf = true) (method : Str)
    (h : HandlerPtr) :
    NewRoute method (patternOf segs) h
      = some (canonOf segs,
          { base := canonOf segs
            patternMatchMethods := [(regexOf segs, [variantOf segs method h])]
            allowMethods := [method] }) := by
  unfold NewRoute
  rw [parsePattern_patternOf segs hwf]
  rfl

theorem serveVariants_single (segs : List Seg) (method : Str) (h : HandlerPtr) (req : Request)
    (hm : req.method = method) :
    serveVariants req [variantOf segs method h]
      = ((matcherOf segs).firstSubmatch req.path).map (fun matched =>
          [Event.call h { req with
            parameters := some ((pairParams (matched.drop 1) (paramNames segs)).getD []) }]) := by
  unfold serveVariants
  cases hf : (matcherOf segs).firstSubmatch req.path with
  | none => simp [variantOf, hf, serveVariants]
  | some matched => simp [variantOf, hf, mapGet, hm]

/-! ### A pattern and its extension in one entry -/

theorem strLt_append (a b : Str) (hb : b ≠ []) : strLt a (a ++ b) = true := by
  induction a with
  | nil =>
    cases b with
    | nil => exact absurd rfl hb
    | cons c b => rfl
  | cons c a ih => simp [strLt, ih]

theorem regexOf_append (segs ext : List Seg) :
    regexOf (segs ++ ext) = regexOf segs ++ regexOf ext := by
  induction segs with
  | nil => rfl
  | cons s segs ih => simp [regexOf, ih]

theorem regexOf_ne_nil (ext : List Seg) (h : ext ≠ []) : regexOf ext ≠ [] := by
  cases ext with
  | nil => exact absurd rfl h
  | cons s ext => simp [regexOf]

theorem paramNames_append (segs ext : List Seg) :
    paramNames (segs ++ ext) = paramNames segs ++ paramNames ext := by
  induction segs with
  | nil => rfl
  | cons s segs ih =>
    rw [List.cons_append, paramNames_cons, paramNames_cons s segs, ih, List.append_assoc]

theorem paren_mem_regexOf (segs : List Seg) (h : paramNames segs ≠ []) : '(' ∈ regexOf segs := by
  induction segs with
  | nil => exact absurd rfl h
  | cons s segs ih =>
    cases s with
    | lit t =>
      have h' : paramNames segs ≠ [] := by simpa [paramNames] using h
      simp [regexOf, ih h']
    | param n => simp [regexOf, Seg.regexText, paramCapture]

theorem splitFirst_append (a b : Str) (c : Char) (h : c ∈ a) :
    splitFirst (a ++ b) c = splitFirst a c := by
  induction a with
  | nil => simp at h
  | cons d a ih =>
    unfold splitFirst at ih ⊢
    by_cases hd : d = c
    · simp [List.takeWhile, hd]
    · have hmem : c ∈ a := by
        rcases List.mem_cons.mp h with rfl | hm
        · exact absurd rfl hd
        · exact hm
      simp [List.takeWhile, hd, ih hmem]

theorem canonOf_append (segs ext : List Seg) (h : paramNames segs ≠ []) :
    canonOf (segs ++ ext) = canonOf segs := by
  unfold canonOf
  rw [regexOf_append, splitFirst_append _ _ _ (paren_mem_regexOf segs h)]

theorem isAlnum_ne_slash {c : Char} (h : isAlnum c = true) : c ≠ '/' := by
  rintro rfl
  exact absurd h (by decide)

theorem count_slash_instantiate (segs : List Seg) (hwf : ∀ s ∈ segs, s.wf = true) :
    ∀ vs : List Str, (∀ v ∈ vs, isValue v = true) →
      (instantiate segs vs).count '/' = segs.length := by
  induction segs with
  | nil => intro vs _; rfl
  | cons s segs ih =>
    intro vs hvs
    have hwf' : ∀ s ∈ segs, s.wf = true := fun x hx => hwf x (List.mem_cons_of_mem _ hx)
    have hs := hwf s (List.mem_cons_self _ _)
    cases s with
    | lit t =>
      simp [Seg.wf] at hs
      have ht : t.count '/' = 0 :=
        List.count_eq_zero.mpr (fun hm => isPlain_ne_slash (hs.2 _ hm) rfl)
      simp [instantiate, List.count_append, ht, ih hwf' vs hvs]
    | param n =>
      cases vs with
      | nil => simp [instantiate, ih hwf' [] hvs]
      | cons v vs =>
        have hv := (isValue_iff v).mp (hvs v (List.mem_cons_self _ _))
        have ht : v.count '/' = 0 :=
          List.count_eq_zero.mpr (fun hm => isAlnum_ne_slash (hv.2 _ hm) rfl)
        simp [instantiate, List.count_append, ht,
          ih hwf' vs (fun x hx => hvs x (List.mem_cons_of_mem _ hx))]

theorem firstSubmatch_longer_none (segs ext : List Seg)
    (hwf : ∀ s ∈ segs ++ ext, s.wf = true) (hext : ext ≠ [])
    (vs : List Str) (hvs : ∀ v ∈ vs, isValue v = true) :
    (matcherOf (segs ++ ext)).firstSubmatch (instantiate segs vs) = none := by
  cases hf : (matcherOf (segs ++ ext)).firstSubmatch (instantiate segs vs) with
  | none => rfl
  | some m =>
    exfalso
    have hsome : ((matcherOf (segs ++ ext)).firstSubmatch (instantiate segs vs)).isSome = true := by
      rw [hf]; rfl
    obtain ⟨pre, ws, post, _, hws, hp⟩ := (firstSubmatch_isSome_iff _ _).mp hsome
    have h1 := count_slash_instantiate segs
      (fun s hs => hwf s (List.mem_append_left _ hs)) vs hvs
    have h2 := count_slash_instantiate (segs ++ ext) hwf ws hws
    have h3 := congrArg (List.count '/') hp
    rw [h1] at h3
    simp only [List.count_append, h2, List.length_append] at h3
    have : 0 < ext.length := List.length_pos.mpr hext
    omega

theorem regexOf_ne_append (segs ext : List Seg) (hext : ext ≠ []) :
    regexOf segs ≠ regexOf (segs ++ ext) := by
  intro h
  rw [regexOf_append] at h
  have := congrArg List.length h
  simp at this
  exact regexOf_ne_nil ext hext this

theorem Add_extension (segs ext : List Seg) (hwf : ∀ s ∈ segs ++ ext, s.wf = true)
    (hpar : paramNames segs ≠ []) (hext : ext ≠ []) (method : Str) (hA hB : HandlerPtr) :
    (NewRouter.Add method (patternOf segs) hA).bind
        (fun a => a.Add method (patternOf (segs ++ ext)) hB)
      = some { mux := none, routes := [(canonOf segs, entryOf segs ext method hA hB)],
               routePatterns := [canonOf segs, canonOf segs], methods := [method],
               middleware := [] } := by
  have hwf1 : ∀ s ∈ segs, s.wf = true := fun s hs => hwf s (List.mem_append_left _ hs)
  have hne := regexOf_ne_append segs ext hext
  have hc := canonOf_append segs ext hpar
  have h1 : NewRouter.Add method (patternOf segs) hA
      = some { mux := none, routes := [(canonOf segs, routeOf segs method hA)],
               routePatterns := [canonOf segs], methods := [method], middleware := [] } := by
    simp [AppRouter.Add, NewRoute_patternOf segs hwf1, NewRouter, mapGet, mapSet, setAdd, routeOf]
  rw [h1]
  show AppRouter.Add _ method (patternOf (segs ++ ext)) hB = _
  simp only [AppRouter.Add, NewRoute_patternOf (segs ++ ext) hwf, hc, mapGet, if_true,
    route.Add, routeOf, parsePattern_patternOf (segs ++ ext) hwf, Regexp.String, matcherOf, hne, if_false]
  simp [mapSet, setAdd, hne, entryOf, variantOf, matcherOf, NewMatchMethodHandler, hc]

theorem sort_extension (segs ext : List Seg) (hext : ext ≠ []) (method : Str)
    (hA hB : HandlerPtr) :
    (entryOf segs ext method hA hB).sortMatchStrings = [regexOf (segs ++ ext), regexOf segs] := by
  have hlt : strLt (regexOf segs) (regexOf (segs ++ ext)) = true := by
    rw [regexOf_append]
    exact strLt_append _ _ (regexOf_ne_nil ext hext)
  simp [route.sortMatchStrings, entryOf, sortDesc, insertDesc, hlt]

/-! ### Empty segments -/

theorem parsePart_fold_filter (parts : List Str) :
    ∀ st, parts.foldl parsePart st = (parts.filter (fun s => !s.isEmpty)).foldl parsePart st := by
  induction parts with
  | nil => intro st; rfl
  | cons x xs ih =>
    intro st
    cases x with
    | nil => simp [parsePart_nil, ih]
    | cons c t => simp [ih]

theorem parseParts_filter (parts : List Str) :
    parseParts parts = parseParts (parts.filter (fun s => !s.isEmpty)) := by
  simp only [parseParts, ← parsePart_fold_filter]

theorem parsePattern_eq_parseParts (p : Str) :
    parsePattern p = parseParts ((Split p '/').filter (fun s => !s.isEmpty)) := by
  rw [← parseParts_filter]
  rfl

/-! ### The descending order of signatures -/

theorem Char.toNat_eq {a b : Char} (h : a.toNat = b.toNat) : a = b := by
  rw [← Char.ofNat_toNat a, ← Char.ofNat_toNat b, h]

theorem strLt_irrefl (a : Str) : strLt a a = false := by
  induction a with
  | nil => rfl
  | cons c a ih => simp [strLt, ih]

theorem strLt_trans : ∀ (a b c : Str), strLt a b = true → strLt b c = true → strLt a c = true := by
  intro a
  induction a with
  | nil =>
    intro b c hab hbc
    cases b with
    | nil => simp [strLt] at hab
    | cons y b =>
      cases c with
      | nil => simp [strLt] at hbc
      | cons z c => rfl
  | cons x a ih =>
    intro b c hab hbc
    cases b with
    | nil => simp [strLt] at hab
    | cons y b =>
      cases c with
      | nil => simp [strLt] at hbc
      | cons z c =>
        simp only [strLt, Bool.or_eq_true, Bool.and_eq_true, decide_eq_true_eq, beq_iff_eq] at hab hbc ⊢
        rcases hab with hab | ⟨rfl, hab⟩
        · rcases hbc with hbc | ⟨rfl, _⟩
          · left; omega
          · left; exact hab
        · rcases hbc with hbc | ⟨rfl, hbc⟩
          · left; exact hbc
          · right; exact ⟨rfl, ih b c hab hbc⟩

theorem strLt_total : ∀ (a b : Str), a ≠ b → strLt a b = true ∨ strLt b a = true := by
  intro a
  induction a with
  | nil =>
    intro b h
    cases b with
    | nil => exact absurd rfl h
    | cons y b => left; rfl
  | cons x a ih =>
    intro b h
    cases b with
    | nil => right; rfl
    | cons y b =>
      simp only [strLt, Bool.or_eq_true, Bool.and_eq_true, decide_eq_true_eq, beq_iff_eq]
      rcases Nat.lt_trichotomy x.toNat y.toNat with hlt | heq | hgt
      · left; left; exact hlt
      · have hxy : x = y := Char.toNat_eq heq
        subst hxy
        have hab : a ≠ b := fun e => h (by rw [e])
        rcases ih b hab with h1 | h1
        · left; right; exact ⟨rfl, h1⟩
        · right; right; exact ⟨rfl, h1⟩
      · right; left; exact hgt

theorem strLt_asymm (a b : Str) (h : strLt a b = true) : strLt b a = false := by
  cases hba : strLt b a with
  | false => rfl
  | true =>
    have := strLt_trans a b a h hba
    rw [strLt_irrefl] at this
    exact absurd this (by simp)

theorem mem_insertDesc (x a : Str) (l : List Str) : x ∈ insertDesc a l ↔ x = a ∨ x ∈ l := by
  induction l with
  | nil => simp [insertDesc]
  | cons y ys ih =>
    unfold insertDesc
    split
    · simp only [List.mem_cons, ih]
      tauto
    · simp

theorem perm_insertDesc (a : Str) (l : List Str) : (insertDesc a l).Perm (a :: l) := by
  induction l with
  | nil => exact List.Perm.refl _
  | cons y ys ih =>
    unfold insertDesc
    split
    · exact (List.Perm.cons y ih).trans (List.Perm.swap a y ys)
    · exact List.Perm.refl _

theorem perm_sortDesc (l : List Str) : (sortDesc l).Perm l := by
  induction l with
  | nil => exact List.Perm.refl _
  | cons x xs ih =>
    show (insertDesc x (sortDesc xs)).Perm (x :: xs)
    exact (perm_insertDesc x _).trans (List.Perm.cons x ih)

theorem desc_insertDesc (a : Str) (l : List Str) (hl : Desc l) (ha : a ∉ l) :
    Desc (insertDesc a l) := by
  induction l with
  | nil => simp [insertDesc, Desc]
  | cons y ys ih =>
    unfold Desc at hl ih ⊢
    rw [List.pairwise_cons] at hl
    have hay : a ≠ y := fun e => ha (by simp [e])
    have hays : a ∉ ys := fun e => ha (List.mem_cons_of_mem _ e)
    unfold insertDesc
    split
    · rename_i hlt
      rw [List.pairwise_cons]
      refine ⟨?_, ih hl.2 hays⟩
      intro z hz
      rcases (mem_insertDesc z a ys).mp hz with rfl | hz
      · exact hlt
      · exact hl.1 z hz
    · rename_i hnlt
      have hya : strLt y a = true := by
        rcases strLt_total a y hay with h | h
        · exact absurd h hnlt
        · exact h
      rw [List.pairwise_cons]
      refine ⟨?_, List.pairwise_cons.mpr hl⟩
      intro z hz
      rcases List.mem_cons.mp hz with rfl | hz
      · exact hya
      · exact strLt_trans z y a (hl.1 z hz) hya

theorem desc_sortDesc (l : List Str) (hnd : l.Nodup) : Desc (sortDesc l) := by
  induction l with
  | nil => simp [sortDesc, Desc]
  | cons x xs ih =>
    rw [List.nodup_cons] at hnd
    show Desc (insertDesc x (sortDesc xs))
    exact desc_insertDesc x _ (ih hnd.2) (fun h => hnd.1 ((perm_sortDesc xs).mem_iff.mp h))

theorem desc_unique (l₁ l₂ : List Str) (h₁ : Desc l₁) (h₂ : Desc l₂) (hp : l₁.Perm l₂) :
    l₁ = l₂ := by
  induction l₁ generalizing l₂ with
  | nil => exact (List.Perm.nil_eq hp)
  | cons x xs ih =>
    cases l₂ with
    | nil => exact absurd hp.symm (List.Perm.nil_eq · |> fun e => by simp at e)
    | cons y ys =>
      unfold Desc at h₁ h₂ ih
      rw [List.pairwise_cons] at h₁ h₂
      have hxy : x = y := by
        by_contra hne
        have hx : x ∈ ys := by
          have := hp.mem_iff.mp (List.mem_cons_self x xs)
          rcases List.mem_cons.mp this with e | e
          · exact absurd e hne
          · exact e
        have hy : y ∈ xs := by
          have := hp.mem_iff.mpr (List.mem_cons_self y ys)
          rcases List.mem_cons.mp this with e | e
          · exact absurd e.symm hne
          · exact e
        have h1 := h₁.1 y hy
        have h2 := h₂.1 x hx
        rw [strLt_asymm y x h1] at h2
        exact absurd h2 (by simp)
      subst hxy
      rw [ih ys h₁.2 h₂.2 (List.Perm.cons_inv hp)]

/-! ### The scan of the variants -/

theorem serveVariants_cons_some (req : Request) (v : matchMethodHandler)
    (rest : List matchMethodHandler) (matched : List Str)
    (h : v.matcher.firstSubmatch req.path = some matched) :
    serveVariants req (v :: rest) = some (outcomeOf req v matched) := by
  unfold serveVariants outcomeOf
  simp only [h]
  cases mapGet v.allowed req.method <;> rfl

theorem serveVariants_cons_none (req : Request) (v : matchMethodHandler)
    (rest : List matchMethodHandler) (h : v.matcher.firstSubmatch req.path = none) :
    serveVariants req (v :: rest) = serveVariants req rest := by
  conv => lhs; unfold serveVariants
  simp only [h]

theorem serveVariants_append (req : Request) (l₁ l₂ : List matchMethodHandler) :
    serveVariants req (l₁ ++ l₂)
      = match serveVariants req l₁ with
        | some out => some out
        | none => serveVariants req l₂ := by
  induction l₁ with
  | nil => simp [serveVariants]
  | cons v vs ih =>
    cases hv : v.matcher.firstSubmatch req.path with
    | none =>
      rw [List.cons_append, serveVariants_cons_none req v _ hv,
        serveVariants_cons_none req v _ hv, ih]
    | some matched =>
      rw [List.cons_append, serveVariants_cons_some req v _ matched hv,
        serveVariants_cons_some req v _ matched hv]

theorem serveVariants_first (req : Request) (pre post : List matchMethodHandler)
    (v : matchMethodHandler) (matched : List Str)
    (hpre : ∀ u ∈ pre, u.matcher.firstSubmatch req.path = none)
    (hv : v.matcher.firstSubmatch req.path = some matched) :
    serveVariants req (pre ++ v :: post) = some (outcomeOf req v matched) := by
  induction pre with
  | nil => exact serveVariants_cons_some req v post matched hv
  | cons u us ih =>
    rw [List.cons_append, serveVariants_cons_none req u _ (hpre u (List.mem_cons_self _ _))]
    exact ih (fun w hw => hpre w (List.mem_cons_of_mem _ hw))

theorem serveVariants_none (req : Request) (l : List matchMethodHandler)
    (h : ∀ u ∈ l, u.matcher.firstSubmatch req.path = none) : serveVariants req l = none := by
  induction l with
  | nil => rfl
  | cons u us ih =>
    rw [serveVariants_cons_none req u _ (h u (List.mem_cons_self _ _))]
    exact ih (fun w hw => h w (List.mem_cons_of_mem _ hw))

theorem exists_first_match (req : Request) (l : List matchMethodHandler)
    (h : ∃ u ∈ l, (u.matcher.firstSubmatch req.path).isSome = true) :
    ∃ pre v post matched, l = pre ++ v :: post
      ∧ (∀ u ∈ pre, u.matcher.firstSubmatch req.path = none)
      ∧ v.matcher.firstSubmatch req.path = some matched := by
  induction l with
  | nil => simp at h
  | cons u us ih =>
    cases hu : u.matcher.firstSubmatch req.path with
    | some matched => exact ⟨[], u, us, matched, rfl, by simp, hu⟩
    | none =>
      obtain ⟨w, hw, hws⟩ := h
      have hw' : w ∈ us := by
        rcases List.mem_cons.mp hw with rfl | hm
        · rw [hu] at hws; simp at hws
        · exact hm
      obtain ⟨pre, v, post, matched, hl, hpre, hv⟩ := ih ⟨w, hw', hws⟩
      refine ⟨u :: pre, v, post, matched, by rw [hl]; rfl, ?_, hv⟩
      intro x hx
      rcases List.mem_cons.mp hx with rfl | hm
      · exact hu
      · exact hpre x hm

theorem servePatterns_scan (r : route) (req : Request) (L : List Str) :
    servePatterns r req L
      = (serveVariants req
          (L.flatMap (fun p => (mapGet r.patternMatchMethods p).getD []))).getD
          [Event.notFound] := by
  induction L with
  | nil => rfl
  | cons p ps ih =>
    rw [List.flatMap_cons, serveVariants_append]
    unfold servePatterns
    cases serveVariants req ((mapGet r.patternMatchMethods p).getD []) with
    | some out => rfl
    | none => exact ih

theorem ServeHTTP_scan (r : route) (req : Request) (h : req.method ∈ r.allowMethods) :
    r.ServeHTTP req = (serveVariants req r.scan).getD [Event.notFound] := by
  unfold route.ServeHTTP
  rw [if_pos h, servePatterns_scan]
  rfl

theorem pairParams_none_iff (values keys : List Str) :
    pairParams values keys = none ↔ values.length ≠ keys.length := by
  unfold pairParams
  by_cases h : values.length = keys.length
  · simp [h]
  · simp [h]

/-! ### The order of the scan and of the stored signatures -/

theorem mapGet_mem {β : Type} (m : List (Str × β)) (k : Str) (v : β)
    (h : mapGet m k = some v) : (k, v) ∈ m := by
  induction m with
  | nil => simp [mapGet] at h
  | cons e es ih =>
    unfold mapGet at h
    by_cases he : e.1 = k
    · simp only [he, if_true, Option.some.injEq] at h
      obtain ⟨a, b⟩ := e
      simp only at he
      subst he; subst h
      exact List.mem_cons_self _ _
    · simp only [he, if_false] at h
      exact List.mem_cons_of_mem _ (ih h)

theorem mapGet_none_of_not_mem {β : Type} (m : List (Str × β)) (k : Str)
    (h : k ∉ m.map Prod.fst) : mapGet m k = none := by
  induction m with
  | nil => rfl
  | cons e es ih =>
    simp only [List.map_cons, List.mem_cons, not_or] at h
    have he : e.1 ≠ k := fun e' => h.1 e'.symm
    simp [mapGet, he, ih h.2]

theorem mapGet_perm {β : Type} (m m' : List (Str × β)) (hp : m'.Perm m)
    (hnd : (m.map Prod.fst).Nodup) (k : Str) : mapGet m' k = mapGet m k := by
  have hnd' : (m'.map Prod.fst).Nodup := (hp.map Prod.fst).nodup_iff.mpr hnd
  cases h : mapGet m k with
  | some v =>
    have hm := hp.mem_iff.mpr (mapGet_mem m k v h)
    exact mapGet_of_mem m' hnd' (k, v) hm
  | none =>
    cases h' : mapGet m' k with
    | none => rfl
    | some v =>
      have hm := hp.mem_iff.mp (mapGet_mem m' k v h')
      rw [mapGet_of_mem m hnd (k, v) hm] at h
      simp at h

theorem sortMatchStrings_perm (r : route) :
    r.sortMatchStrings.Perm (r.patternMatchMethods.map Prod.fst) :=
  perm_sortDesc _

theorem sortMatchStrings_desc (r : route) (hk : (r.patternMatchMethods.map Prod.fst).Nodup) :
    Desc r.sortMatchStrings :=
  desc_sortDesc _ hk

theorem ServeHTTP_perm (r r' : route) (hp : r'.patternMatchMethods.Perm r.patternMatchMethods)
    (hk : (r.patternMatchMethods.map Prod.fst).Nodup)
    (ha : ∀ m, m ∈ r'.allowMethods ↔ m ∈ r.allowMethods) (req : Request) :
    r'.ServeHTTP req = r.ServeHTTP req := by
  have hk' : (r'.patternMatchMethods.map Prod.fst).Nodup := (hp.map Prod.fst).nodup_iff.mpr hk
  have hs : r'.sortMatchStrings = r.sortMatchStrings :=
    desc_unique _ _ (sortMatchStrings_desc r' hk') (sortMatchStrings_desc r hk)
      ((sortMatchStrings_perm r').trans ((hp.map Prod.fst).trans (sortMatchStrings_perm r).symm))
  have hf : (fun p => (mapGet r'.patternMatchMethods p).getD [])
      = (fun p => (mapGet r.patternMatchMethods p).getD []) := by
    funext p
    rw [mapGet_perm _ _ hp hk p]
  unfold route.ServeHTTP
  by_cases hm : req.method ∈ r.allowMethods
  · rw [if_pos hm, if_pos ((ha _).mpr hm), servePatterns_scan, servePatterns_scan, hs, hf]
  · rw [if_neg hm, if_neg (fun h => hm ((ha _).mp h))]

theorem mem_scan (r : route) (hk : (r.patternMatchMethods.map Prod.fst).Nodup)
    (w : matchMethodHandler) :
    w ∈ r.scan ↔ ∃ e ∈ r.patternMatchMethods, w ∈ e.2 := by
  unfold route.scan
  rw [List.mem_flatMap]
  constructor
  · rintro ⟨p, _, hw⟩
    cases hg : mapGet r.patternMatchMethods p with
    | none => rw [hg] at hw; simp at hw
    | some l =>
      rw [hg] at hw
      exact ⟨(p, l), mapGet_mem _ _ _ hg, hw⟩
  · rintro ⟨e, he, hw⟩
    refine ⟨e.1, (sortMatchStrings_perm r).mem_iff.mpr (List.mem_map_of_mem Prod.fst he), ?_⟩
    rw [mapGet_of_mem _ hk e he]
    exact hw

theorem scan_pairwise (r : route) (hk : (r.patternMatchMethods.map Prod.fst).Nodup)
    (hsig : ∀ e ∈ r.patternMatchMethods, ∀ v ∈ e.2, v.matcher.String = e.1) :
    r.scan.Pairwise (fun x y => y.matcher.String = x.matcher.String
      ∨ strLt y.matcher.String x.matcher.String = true) := by
  have hkey : ∀ p, ∀ x ∈ (mapGet r.patternMatchMethods p).getD [], x.matcher.String = p := by
    intro p x hx
    cases hg : mapGet r.patternMatchMethods p with
    | none => rw [hg] at hx; simp at hx
    | some l =>
      rw [hg] at hx
      exact hsig (p, l) (mapGet_mem _ _ _ hg) x hx
  unfold route.scan
  rw [List.pairwise_flatMap]
  constructor
  · intro p _
    apply List.pairwise_of_forall_mem_list
    intro x hx y hy
    left
    rw [hkey p x hx, hkey p y hy]
  · have hd := sortMatchStrings_desc r hk
    unfold Desc at hd
    refine hd.imp ?_
    intro a b hba x hx y hy
    right
    rw [hkey a x hx, hkey b y hy]
    exact hba

theorem mapGet_isSome_of_mem {β : Type} (m : List (Str × β)) (k : Str)
    (h : k ∈ m.map Prod.fst) : ∃ v, mapGet m k = some v := by
  induction m with
  | nil => simp at h
  | cons x xs ih =>
    by_cases hx : x.1 = k
    · exact ⟨x.2, by simp [mapGet, hx]⟩
    · have hk : k ∈ xs.map Prod.fst := by
        rcases List.mem_cons.mp h with e | e
        · exact absurd e.symm hx
        · exact e
      obtain ⟨v, hv⟩ := ih hk
      exact ⟨v, by simp [mapGet, hx, hv]⟩

theorem mapGet_none_iff {β : Type} (m : List (Str × β)) (k : Str) :
    mapGet m k = none ↔ k ∉ m.map Prod.fst := by
  constructor
  · intro h hm
    obtain ⟨v, hv⟩ := mapGet_isSome_of_mem m k hm
    rw [h] at hv
    simp at hv
  · exact mapGet_none_of_not_mem m k

theorem Built_inv (r : route) (hb : Built r) :
    (r.patternMatchMethods.map Prod.fst).Nodup
      ∧ ∀ e ∈ r.patternMatchMethods, ∀ v ∈ e.2, v.matcher.String = e.1 := by
  induction hb with
  | new method pattern h c r hn =>
    unfold NewRoute at hn
    cases hp : parsePattern pattern with
    | none => simp [hp] at hn
    | some x =>
      obtain ⟨c', ps, m⟩ := x
      simp only [hp, Option.some.injEq, Prod.mk.injEq] at hn
      obtain ⟨_, rfl⟩ := hn
      simp [mapSet, NewMatchMethodHandler]
  | add r method pattern h s r' _ ha ih =>
    unfold route.Add at ha
    cases hp : parsePattern pattern with
    | none => simp [hp] at ha
    | some x =>
      obtain ⟨c', ps, m⟩ := x
      simp only [hp] at ha
      cases hg : mapGet r.patternMatchMethods m.String with
      | some vs =>
        simp only [hg] at ha
        cases hf : findBound vs method h with
        | none =>
          simp only [hf, Option.some.injEq, Prod.mk.injEq] at ha
          obtain ⟨_, rfl⟩ := ha
          exact ih
        | some b =>
          cases b <;>
          · simp only [hf, Option.some.injEq, Prod.mk.injEq] at ha
            obtain ⟨_, rfl⟩ := ha
            exact ih
      | none =>
        simp only [hg, Option.some.injEq, Prod.mk.injEq] at ha
        obtain ⟨_, rfl⟩ := ha
        have hfresh : ∀ e ∈ r.patternMatchMethods, e.1 ≠ m.String := by
          intro e he heq
          exact (mapGet_none_iff _ _).mp hg (heq ▸ List.mem_map_of_mem Prod.fst he)
        simp only [mapSet_fresh _ _ _ hfresh]
        constructor
        · rw [List.map_append, List.nodup_append]
          refine ⟨ih.1, by simp, ?_⟩
          intro a ha1 ha2
          simp only [List.map_cons, List.map_nil, List.mem_singleton] at ha2
          subst ha2
          exact (mapGet_none_iff _ _).mp hg ha1
        · intro e he v hv
          rcases List.mem_append.mp he with he | he
          · exact ih.2 e he v hv
          · simp only [List.mem_singleton] at he
            subst he
            simp only [List.mem_singleton] at hv
            subst hv
            rfl

/-! ### Allowed and bound methods, patterns of one shape -/

theorem mem_setAdd (s : List Str) (k x : Str) : x ∈ setAdd s k ↔ x = k ∨ x ∈ s := by
  unfold setAdd
  by_cases h : k ∈ s
  · simp only [h, if_true]
    constructor
    · exact Or.inr
    · rintro (rfl | hx)
      · exact h
      · exact hx
  · simp only [h, if_false, List.mem_append, List.mem_singleton]
    tauto

theorem Built_bound_allowed (r : route) (hb : Built r) :
    ∀ m ∈ boundMethods r, m ∈ r.allowMethods := by
  induction hb with
  | new method pattern h c r hn =>
    unfold NewRoute at hn
    cases hp : parsePattern pattern with
    | none => simp [hp] at hn
    | some x =>
      obtain ⟨c', ps, m⟩ := x
      simp only [hp, Option.some.injEq, Prod.mk.injEq] at hn
      obtain ⟨_, rfl⟩ := hn
      intro k hk
      simp [boundMethods, mapSet, NewMatchMethodHandler] at hk
      simp [setAdd, hk]
  | add r method pattern h s r' _ ha ih =>
    unfold route.Add at ha
    cases hp : parsePattern pattern with
    | none => simp [hp] at ha
    | some x =>
      obtain ⟨c', ps, m⟩ := x
      simp only [hp] at ha
      cases hg : mapGet r.patternMatchMethods m.String with
      | some vs =>
        simp only [hg] at ha
        cases hf : findBound vs method h with
        | none =>
          simp only [hf, Option.some.injEq, Prod.mk.injEq] at ha
          obtain ⟨_, rfl⟩ := ha
          intro k hk
          exact (mem_setAdd _ _ _).mpr (Or.inr (ih k hk))
        | some b =>
          cases b <;>
          · simp only [hf, Option.some.injEq, Prod.mk.injEq] at ha
            obtain ⟨_, rfl⟩ := ha
            exact ih
      | none =>
        simp only [hg, Option.some.injEq, Prod.mk.injEq] at ha
        obtain ⟨_, rfl⟩ := ha
        have hfresh : ∀ e ∈ r.patternMatchMethods, e.1 ≠ m.String := by
          intro e he heq
          exact (mapGet_none_iff _ _).mp hg (heq ▸ List.mem_map_of_mem Prod.fst he)
        intro k hk
        simp only [boundMethods, mapSet_fresh _ _ _ hfresh, List.flatMap_append,
          List.mem_append] at hk
        rcases hk with hk | hk
        · exact (mem_setAdd _ _ _).mpr (Or.inr (ih k hk))
        · simp [NewMatchMethodHandler, mapSet] at hk
          exact (mem_setAdd _ _ _).mpr (Or.inl hk)

theorem mapGet_mapSet {β : Type} (m : List (Str × β)) (k : Str) (v : β) (k' : Str) :
    mapGet (mapSet m k v) k' = if k = k' then some v else mapGet m k' := by
  induction m with
  | nil => simp [mapSet, mapGet]
  | cons e es ih =>
    unfold mapSet
    by_cases he : e.1 = k
    · by_cases hk : k = k'
      · simp [he, hk, mapGet]
      · have : e.1 ≠ k' := fun h => hk (he ▸ h)
        simp [he, hk, mapGet, this]
    · by_cases hk : e.1 = k'
      · have hkk : k ≠ k' := fun h => he (h ▸ hk)
        have hkk' : k' ≠ k := fun h => hkk h.symm
        simp [mapGet, hk, hkk, hkk']
      · simp [he, hk, mapGet, ih]

theorem foldl_mapSet_get (l : List (Str × Str)) (k : Str) :
    ∀ acc : Params,
      mapGet (l.foldl (fun pairs kv => mapSet pairs kv.1 kv.2) acc) k
        = match l.reverse.find? (fun e => e.1 == k) with
          | some e => some e.2
          | none => mapGet acc k := by
  induction l with
  | nil => intro acc; rfl
  | cons x xs ih =>
    intro acc
    rw [List.foldl_cons, ih, List.reverse_cons, List.find?_append]
    cases hf : xs.reverse.find? (fun e => e.1 == k) with
    | some e => rfl
    | none =>
      rw [mapGet_mapSet]
      by_cases hx : x.1 = k
      · simp [hx]
      · simp [hx]

theorem pairParams_get (values keys : List Str) (hlen : values.length = keys.length) (k : Str) :
    ∃ ps, pairParams values keys = some ps
      ∧ mapGet ps k = ((keys.zip values).reverse.find? (fun e => e.1 == k)).map (fun e => e.2) := by
  unfold pairParams
  refine ⟨_, by rw [if_neg (by simpa using hlen)], ?_⟩
  rw [foldl_mapSet_get]
  cases (keys.zip values).reverse.find? (fun e => e.1 == k) with
  | some e => rfl
  | none => rfl

theorem regexOf_sameShape : ∀ (s t : List Seg), sameShape s t = true → regexOf s = regexOf t
  | [], [], _ => rfl
  | [], _ :: _, h => by simp [sameShape] at h
  | .lit a :: s, [], h => by simp [sameShape] at h
  | .param n :: s, [], h => by simp [sameShape] at h
  | .lit a :: s, .lit b :: t, h => by
    simp only [sameShape, Bool.and_eq_true, decide_eq_true_eq] at h
    rw [h.1]
    simp [regexOf, regexOf_sameShape s t h.2]
  | .lit a :: s, .param n :: t, h => by simp [sameShape] at h
  | .param n :: s, .lit b :: t, h => by simp [sameShape] at h
  | .param n :: s, .param n' :: t, h => by
    simp only [sameShape] at h
    simp [regexOf, Seg.regexText, regexOf_sameShape s t h]

theorem instantiate_sameShape :
    ∀ (s t : List Seg) (vs : List Str), sameShape s t = true → instantiate s vs = instantiate t vs
  | [], [], _, _ => rfl
  | [], _ :: _, _, h => by simp [sameShape] at h
  | .lit a :: s, [], _, h => by simp [sameShape] at h
  | .param n :: s, [], _, h => by simp [sameShape] at h
  | .lit a :: s, .lit b :: t, vs, h => by
    simp only [sameShape, Bool.and_eq_true, decide_eq_true_eq] at h
    rw [h.1]
    simp [instantiate, instantiate_sameShape s t vs h.2]
  | .lit a :: s, .param n :: t, _, h => by simp [sameShape] at h
  | .param n :: s, .lit b :: t, _, h => by simp [sameShape] at h
  | .param n :: s, .param n' :: t, [], h => by
    simp only [sameShape] at h
    simp [instantiate, instantiate_sameShape s t [] h]
  | .param n :: s, .param n' :: t, v :: vs, h => by
    simp only [sameShape] at h
    simp [instantiate, instantiate_sameShape s t vs h]

theorem canonOf_sameShape (s t : List Seg) (h : sameShape s t = true) : canonOf s = canonOf t := by
  unfold canonOf
  rw [regexOf_sameShape s t h]

theorem Add_first (segs : List Seg) (hwf : ∀ s ∈ segs, s.wf = true) (method : Str)
    (h : HandlerPtr) :
    NewRouter.Add method (patternOf segs) h
      = some { mux := none, routes := [(canonOf segs, routeOf segs method h)],
               routePatterns := [canonOf segs], methods := [method], middleware := [] } := by
  simp [AppRouter.Add, NewRoute_patternOf segs hwf, NewRouter, mapGet, mapSet, setAdd, routeOf]

theorem Add_sameShape (segs1 segs2 : List Seg) (hwf1 : ∀ s ∈ segs1, s.wf = true)
    (hwf2 : ∀ s ∈ segs2, s.wf = true) (hshape : sameShape segs1 segs2 = true)
    (method : Str) (h1 h2 : HandlerPtr) :
    (NewRouter.Add method (patternOf segs1) h1).bind
        (fun a => a.Add method (patternOf segs2) h2)
      = some { mux := none, routes := [(canonOf segs1, routeOf segs1 method h1)],
               routePatterns := [canonOf segs1, canonOf segs1], methods := [method],
               middleware := [] } := by
  have hr := regexOf_sameShape segs1 segs2 hshape
  have hc := canonOf_sameShape segs1 segs2 hshape
  rw [Add_first segs1 hwf1]
  show AppRouter.Add _ method (patternOf segs2) h2 = _
  have hadd : (routeOf segs1 method h1).Add method (patternOf segs2) h2
      = some ([], routeOf segs1 method h1) := by
    unfold route.Add
    simp only [parsePattern_patternOf segs2 hwf2, Regexp.String, matcherOf, ← hr, routeOf,
      mapGet, if_true, findBound, variantOf]
    cases decide (h1 = h2) <;> rfl
  simp only [AppRouter.Add, NewRoute_patternOf segs2 hwf2, ← hc, mapGet, if_true, hadd]
  simp [mapSet, setAdd]

/-! ### The canonical path -/

theorem compile_src (s : Str) (m : Regexp) (h : Regexp.compile s = some m) : m.String = s := by
  unfold Regexp.compile at h
  split at h
  · simp only [Option.some.injEq] at h
    subst h
    rfl
  · simp at h

theorem parsePattern_canon (p c : Str) (n : List Str) (m : Regexp)
    (h : parsePattern p = some (c, n, m)) :
    c = (if splitFirst m.String '(' = [] then "/".toList else splitFirst m.String '(') := by
  unfold parsePattern at h
  simp only at h
  split at h
  · simp at h
  · rename_i re hre
    simp only [Option.some.injEq, Prod.mk.injEq] at h
    obtain ⟨hc, _, hm⟩ := h
    subst hm
    rw [compile_src _ _ hre]
    exact hc.symm

theorem route_Add_total (r : route) (method pattern : Str) (h : HandlerPtr)
    (x : Str × List Str × Regexp) (hp : parsePattern pattern = some x) :
    ∃ s r', r.Add method pattern h = some (s, r') := by
  unfold route.Add
  simp only [hp]
  cases mapGet r.patternMatchMethods x.2.2.String with
  | none => exact ⟨_, _, rfl⟩
  | some vs =>
    simp only
    cases findBound vs method h with
    | none => exact ⟨_, _, rfl⟩
    | some b => cases b <;> exact ⟨_, _, rfl⟩

theorem NewRoute_total (method pattern : Str) (h : HandlerPtr) (c : Str) (n : List Str)
    (m : Regexp) (hp : parsePattern pattern = some (c, n, m)) :
    ∃ r, NewRoute method pattern h = some (c, r) := by
  simp [NewRoute, hp]

theorem Add_same_canon (p q cp : Str) (np nq : List Str) (mp mq : Regexp) (m1 m2 : Str)
    (h1 h2 : HandlerPtr) (hp : parsePattern p = some (cp, np, mp))
    (hq : parsePattern q = some (cp, nq, mq)) :
    ∃ a r, (NewRouter.Add m1 p h1).bind (fun a => a.Add m2 q h2) = some a
      ∧ a.routes = [(cp, r)] := by
  obtain ⟨R1, hn1⟩ := NewRoute_total m1 p h1 cp np mp hp
  obtain ⟨R2, hn2⟩ := NewRoute_total m2 q h2 cp nq mq hq
  obtain ⟨s, r', hadd⟩ := route_Add_total R1 m2 q h2 _ hq
  refine ⟨{ mux := none, routes := [(cp, r')], routePatterns := [cp, cp],
             methods := setAdd (setAdd [] m1) m2, middleware := [] }, r', ?_, rfl⟩
  have ha1 : NewRouter.Add m1 p h1
      = some { mux := none, routes := [(cp, R1)], routePatterns := [cp],
               methods := setAdd [] m1, middleware := [] } := by
    simp [AppRouter.Add, hn1, NewRouter, mapGet, mapSet]
  rw [ha1]
  show AppRouter.Add _ m2 q h2 = _
  simp only [AppRouter.Add, hn2, mapGet, if_true, hadd]
  simp [mapSet]

theorem regexOf_lits (lits : List Seg) (h : paramNames lits = []) :
    regexOf lits = patternOf lits := by
  induction lits with
  | nil => rfl
  | cons s lits ih =>
    cases s with
    | lit t =>
      have h' : paramNames lits = [] := by simpa [paramNames] using h
      simp [regexOf, patternOf, Seg.regexText, Seg.text, ih h']
    | param n => simp [paramNames] at h

theorem isPlain_ne_paren {c : Char} (h : isPlain c = true) : c ≠ '(' := by
  rintro rfl
  exact absurd h (by decide)

theorem patternOf_lits_no_paren (lits : List Seg) (hwf : ∀ s ∈ lits, s.wf = true)
    (h : paramNames lits = []) : ∀ c ∈ patternOf lits, c ≠ '(' := by
  induction lits with
  | nil => intro c hc; simp [patternOf] at hc
  | cons s lits ih =>
    have hs := hwf s (List.mem_cons_self _ _)
    cases s with
    | lit t =>
      have h' : paramNames lits = [] := by simpa [paramNames] using h
      simp [Seg.wf] at hs
      intro c hc
      simp only [patternOf, Seg.text, List.cons_append, List.mem_cons, List.mem_append] at hc
      rcases hc with rfl | hc | hc
      · decide
      · exact isPlain_ne_paren (hs.2 c hc)
      · exact ih (fun x hx => hwf x (List.mem_cons_of_mem _ hx)) h' c hc
    | param n => simp [paramNames] at h

theorem splitFirst_at (a b : Str) (c : Char) (h : ∀ d ∈ a, d ≠ c) :
    splitFirst (a ++ c :: b) c = a := by
  induction a with
  | nil => simp [splitFirst]
  | cons d a ih =>
    have hd : d ≠ c := h d (List.mem_cons_self _ _)
    have ih' := ih (fun x hx => h x (List.mem_cons_of_mem _ hx))
    have hb : (d != c) = true := by simpa using hd
    unfold splitFirst at ih' ⊢
    simp only [List.cons_append, List.takeWhile, hb]
    exact congrArg (List.cons d) ih'

theorem canonOf_first_param (lits : List Seg) (n : Str) (rest : List Seg)
    (hwf : ∀ s ∈ lits, s.wf = true) (h : paramNames lits = []) :
    canonOf (lits ++ Seg.param n :: rest) = patternOf lits ++ "/".toList := by
  have hre : regexOf (lits ++ Seg.param n :: rest)
      = (patternOf lits ++ ['/']) ++ '(' :: ("[[:alnum:]]+)".toList ++ regexOf rest) := by
    rw [regexOf_append, regexOf_lits lits h]
    simp [regexOf, Seg.regexText, paramCapture]
  have hno : ∀ d ∈ patternOf lits ++ ['/'], d ≠ '(' := by
    intro d hd
    rcases List.mem_append.mp hd with hd | hd
    · exact patternOf_lits_no_paren lits hwf h d hd
    · simp only [List.mem_singleton] at hd
      subst hd
      decide
  unfold canonOf
  rw [hre, splitFirst_at _ _ _ hno]
  simp

/-! ### The effect of a registration on an entry -/

theorem route_Add_effect (r : route) (method pattern : Str) (h : HandlerPtr) (c : Str)
    (n : List Str) (re : Regexp) (hp : parsePattern pattern = some (c, n, re)) :
    ∃ s r', r.Add method pattern h = some (s, r')
      ∧ r'.base = r.base
      ∧ r'.patternMatchMethods = r.patternMatchMethods ++ newEntries r method n re h
      ∧ r'.allowMethods
          = if addsMethod r method re h then setAdd r.allowMethods method else r.allowMethods := by
  unfold route.Add newEntries addsMethod
  simp only [hp]
  cases hg : mapGet r.patternMatchMethods re.String with
  | none =>
    have hfresh : ∀ e ∈ r.patternMatchMethods, e.1 ≠ re.String := by
      intro e he heq
      exact (mapGet_none_iff _ _).mp hg (heq ▸ List.mem_map_of_mem Prod.fst he)
    exact ⟨_, _, rfl, rfl, mapSet_fresh _ _ _ hfresh, rfl⟩
  | some vs =>
    simp only
    obtain ⟨x, hx⟩ : ∃ x, findBound vs method h = x := ⟨_, rfl⟩
    simp only [hx]
    cases x with
    | none => exact ⟨_, _, rfl, rfl, by simp, rfl⟩
    | some b => cases b <;> exact ⟨_, _, rfl, rfl, by simp, by simp⟩

theorem NewRoute_as_Add (method pattern : Str) (h : HandlerPtr) (c : Str) (n : List Str)
    (re : Regexp) (hp : parsePattern pattern = some (c, n, re)) :
    ∃ r, NewRoute method pattern h = some (c, r)
      ∧ (emptyEntry c).Add method pattern h = some (c, r) := by
  refine ⟨⟨c, mapSet [] re.String [NewMatchMethodHandler method n re h], setAdd [] method⟩,
    by simp only [NewRoute, hp, Regexp.String], ?_⟩
  simp only [route.Add, hp, emptyEntry, mapGet]

theorem AppRouter_Add_effect (a : AppRouter) (method pattern : Str) (h : HandlerPtr) (c : Str)
    (n : List Str) (re : Regexp) (hp : parsePattern pattern = some (c, n, re)) :
    ∃ a' s r', a.Add method pattern h = some a'
      ∧ (entryAt a c).Add method pattern h = some (s, r')
      ∧ a'.routes = mapSet a.routes c r' := by
  obtain ⟨r0, hn, he⟩ := NewRoute_as_Add method pattern h c n re hp
  unfold entryAt
  cases hg : mapGet a.routes c with
  | none =>
    refine ⟨{ a with methods := setAdd a.methods method,
                     routePatterns := a.routePatterns ++ [c],
                     routes := mapSet a.routes c r0 }, c, r0, ?_, he, rfl⟩
    simp only [AppRouter.Add, hn, hg]
  | some r =>
    obtain ⟨s, r', hadd⟩ := route_Add_total r method pattern h _ hp
    refine ⟨{ a with methods := setAdd a.methods method,
                     routePatterns := a.routePatterns ++ [c],
                     routes := mapSet a.routes c r' }, s, r', ?_, hadd, rfl⟩
    simp only [AppRouter.Add, hn, hg, hadd]

theorem entryAt_mapSet (a a' : AppRouter) (c : Str) (r : route)
    (h : a'.routes = mapSet a.routes c r) : entryAt a' c = r := by
  unfold entryAt
  rw [h, mapGet_mapSet]
  simp

theorem mapGet_append_other {β : Type} (m : List (Str × β)) (k0 k : Str) (v0 : β)
    (hk : k ≠ k0) : mapGet (m ++ [(k0, v0)]) k = mapGet m k := by
  induction m with
  | nil =>
    have : k0 ≠ k := fun e => hk e.symm
    simp [mapGet, this]
  | cons e es ih =>
    by_cases he : e.1 = k
    · simp [mapGet, he]
    · simp [mapGet, he, ih]

theorem mapGet_append_new (r : route) (method : Str) (n : List Str) (re : Regexp)
    (h : HandlerPtr) (k : Str) (hk : k ≠ re.String) :
    mapGet (r.patternMatchMethods ++ newEntries r method n re h) k
      = mapGet r.patternMatchMethods k := by
  unfold newEntries
  cases hg : mapGet r.patternMatchMethods re.String with
  | some vs => simp
  | none => exact mapGet_append_other _ _ _ _ hk

theorem newEntries_congr (r r' : route) (method : Str) (n : List Str) (re : Regexp)
    (h : HandlerPtr)
    (hg : mapGet r'.patternMatchMethods re.String = mapGet r.patternMatchMethods re.String) :
    newEntries r' method n re h = newEntries r method n re h
      ∧ addsMethod r' method re h = addsMethod r method re h := by
  unfold newEntries addsMethod
  rw [hg]
  exact ⟨rfl, rfl⟩

theorem newEntries_nodup (r : route) (method : Str) (n : List Str) (re : Regexp)
    (h : HandlerPtr) (hk : (r.patternMatchMethods.map Prod.fst).Nodup) :
    ((r.patternMatchMethods ++ newEntries r method n re h).map Prod.fst).Nodup := by
  unfold newEntries
  cases hg : mapGet r.patternMatchMethods re.String with
  | some vs => simpa using hk
  | none =>
    simp only [List.map_append, List.map_cons, List.map_nil]
    rw [List.nodup_append]
    refine ⟨hk, by simp, ?_⟩
    intro a ha1 ha2
    simp only [List.mem_singleton] at ha2
    subst ha2
    exact (mapGet_none_iff _ _).mp hg ha1

theorem route_Add_commute (R : route) (hk : (R.patternMatchMethods.map Prod.fst).Nodup)
    (m1 p1 : Str) (h1 : HandlerPtr) (m2 p2 : Str) (h2 : HandlerPtr) (c : Str)
    (n1 n2 : List Str) (re1 re2 : Regexp)
    (hp1 : parsePattern p1 = some (c, n1, re1)) (hp2 : parsePattern p2 = some (c, n2, re2))
    (hne : re1.String ≠ re2.String) :
    ∃ s1 rA s2 r12 s3 rB s4 r21,
      R.Add m1 p1 h1 = some (s1, rA) ∧ rA.Add m2 p2 h2 = some (s2, r12)
      ∧ R.Add m2 p2 h2 = some (s3, rB) ∧ rB.Add m1 p1 h1 = some (s4, r21)
      ∧ r12.base = r21.base
      ∧ r12.patternMatchMethods.Perm r21.patternMatchMethods
      ∧ (r21.patternMatchMethods.map Prod.fst).Nodup
      ∧ ∀ m, m ∈ r12.allowMethods ↔ m ∈ r21.allowMethods := by
  obtain ⟨s1, rA, hA, bA, pA, aA⟩ := route_Add_effect R m1 p1 h1 c n1 re1 hp1
  obtain ⟨s2, r12, h12, b12, p12, a12⟩ := route_Add_effect rA m2 p2 h2 c n2 re2 hp2
  obtain ⟨s3, rB, hB, bB, pB, aB⟩ := route_Add_effect R m2 p2 h2 c n2 re2 hp2
  obtain ⟨s4, r21, h21, b21, p21, a21⟩ := route_Add_effect rB m1 p1 h1 c n1 re1 hp1
  have hgA : mapGet rA.patternMatchMethods re2.String
      = mapGet R.patternMatchMethods re2.String := by
    rw [pA]
    exact mapGet_append_new R m1 n1 re1 h1 _ (fun e => hne e.symm)
  have hgB : mapGet rB.patternMatchMethods re1.String
      = mapGet R.patternMatchMethods re1.String := by
    rw [pB]
    exact mapGet_append_new R m2 n2 re2 h2 _ hne
  obtain ⟨hn2, hm2⟩ := newEntries_congr R rA m2 n2 re2 h2 hgA
  obtain ⟨hn1, hm1⟩ := newEntries_congr R rB m1 n1 re1 h1 hgB
  refine ⟨s1, rA, s2, r12, s3, rB, s4, r21, hA, h12, hB, h21, ?_, ?_, ?_, ?_⟩
  · rw [b12, bA, b21, bB]
  · rw [p12, pA, hn2, p21, pB, hn1, List.append_assoc, List.append_assoc]
    exact List.Perm.append_left _ List.perm_append_comm
  · have hkB : (rB.patternMatchMethods.map Prod.fst).Nodup := by
      rw [pB]
      exact newEntries_nodup R m2 n2 re2 h2 hk
    rw [p21]
    exact newEntries_nodup rB m1 n1 re1 h1 hkB
  · intro m
    rw [a12, aA, hm2, a21, aB, hm1]
    cases addsMethod R m1 re1 h1 <;> cases addsMethod R m2 re2 h2
    all_goals simp only [if_true, if_false, Bool.false_eq_true, mem_setAdd]
    all_goals tauto

theorem mapGet_mapSet_other {β : Type} (m : List (Str × β)) (k : Str) (v : β) (k' : Str)
    (h : k' ≠ k) : mapGet (mapSet m k v) k' = mapGet m k' := by
  rw [mapGet_mapSet, if_neg (fun e => h e.symm)]

theorem emptyEntry_or_nodup (a : AppRouter) (c : Str)
    (hinv : ∀ R, mapGet a.routes c = some R → (R.patternMatchMethods.map Prod.fst).Nodup) :
    ((entryAt a c).patternMatchMethods.map Prod.fst).Nodup := by
  unfold entryAt
  cases hg : mapGet a.routes c with
  | none => simp [emptyEntry]
  | some R => exact hinv R hg

/-! ### The search of `paramRegexp` in a segment -/

theorem starRun_cons (p : Char → Bool) (f : Nat) (prev : Option Char) (c : Char) (v : Str)
    (caps : List (Nat × Str)) (hc : p c = true) :
    starRun (stepChar p) (f + 1) ⟨prev, c :: v, caps⟩
      = starRun (stepChar p) f ⟨some c, v, caps⟩ ++ [⟨prev, c :: v, caps⟩] := by
  simp [starRun, stepChar_cons_true p prev c v caps hc]

theorem starRun_nil (p : Char → Bool) (f : Nat) (prev : Option Char) (caps : List (Nat × Str)) :
    starRun (stepChar p) f ⟨prev, [], caps⟩ = [⟨prev, [], caps⟩] := by
  cases f with
  | zero => rfl
  | succ f => simp [starRun, stepChar]

theorem closeName_noword (s0 : MState) (c : Char) (v : Str) (caps : List (Nat × Str))
    (hc : isWordChar c = false) (hv : ∀ d ∈ v, isWordChar d = false) :
    closeName s0 ⟨some c, v, caps⟩ = [] := by
  have h2 : isWordAt v.head? = false := by
    cases v with
    | nil => rfl
    | cons d t => exact hv d (List.mem_cons_self _ _)
  have h1 : isWordAt (some c) = false := hc
  simp only [closeName, atBoundary, h1, h2]
  rfl

theorem starRun_noword (p : Char → Bool) (s0 : MState) (caps : List (Nat × Str)) (v : Str)
    (hp : ∀ d ∈ v, p d = true) (hv : ∀ d ∈ v, isWordChar d = false) :
    ∀ (f : Nat) (prev : Option Char), v.length ≤ f →
      (starRun (stepChar p) f ⟨prev, v, caps⟩).flatMap (closeName s0)
        = closeName s0 ⟨prev, v, caps⟩ := by
  induction v with
  | nil =>
    intro f prev _
    simp [starRun_nil]
  | cons c v ih =>
    intro f prev hf
    obtain ⟨f, rfl⟩ : ∃ f', f = f' + 1 := ⟨f - 1, by simp at hf; omega⟩
    rw [starRun_cons p f prev c v caps (hp c (List.mem_cons_self _ _)), List.flatMap_append,
      ih (fun d hd => hp d (List.mem_cons_of_mem _ hd))
        (fun d hd => hv d (List.mem_cons_of_mem _ hd)) f (some c) (by simp at hf; omega),
      closeName_noword s0 c v caps (hv c (List.mem_cons_self _ _))
        (fun d hd => hv d (List.mem_cons_of_mem _ hd))]
    simp

theorem starRun_lastword (p : Char → Bool) (s0 : MState) (caps : List (Nat × Str)) (tl : Str)
    (htl : ∀ d ∈ tl, isWordChar d = false) (htp : ∀ d ∈ tl, p d = true) (name : Str)
    (hp : ∀ d ∈ name, p d = true) :
    ∀ (f : Nat) (prev : Option Char), (name ++ tl).length ≤ f →
      isWordAt (endPrev prev name) = true →
      ∃ others, (starRun (stepChar p) f ⟨prev, name ++ tl, caps⟩).flatMap (closeName s0)
        = { prev := endPrev prev name, rest := tl,
            caps := setCap 1 (consumed s0 ⟨endPrev prev name, tl, caps⟩) caps } :: others := by
  induction name with
  | nil =>
    intro f prev hf hw
    refine ⟨[], ?_⟩
    simp only [List.nil_append] at hf ⊢
    rw [starRun_noword p s0 caps tl htp htl f prev hf]
    have h2 : isWordAt tl.head? = false := by
      cases tl with
      | nil => rfl
      | cons d t => exact htl d (List.mem_cons_self _ _)
    simp only [endPrev, List.foldl_nil] at hw ⊢
    simp only [closeName, atBoundary, hw, h2]
    rfl
  | cons c n ih =>
    intro f prev hf hw
    obtain ⟨f, rfl⟩ : ∃ f', f = f' + 1 := ⟨f - 1, by simp at hf; omega⟩
    obtain ⟨others, ho⟩ := ih (fun d hd => hp d (List.mem_cons_of_mem _ hd)) f (some c)
      (by simp at hf ⊢; omega) hw
    refine ⟨others ++ closeName s0 ⟨prev, c :: (n ++ tl), caps⟩, ?_⟩
    rw [List.cons_append, starRun_cons p f prev c (n ++ tl) caps (hp c (List.mem_cons_self _ _)),
      List.flatMap_append, ho]
    simp [endPrev]

theorem paramRun_eq (f : Nat) (prev : Option Char) (c : Char) (v : Str) (hc : c ≠ '\n') :
    paramRegexp.prog.run (f + 1) ⟨prev, ':' :: c :: v, []⟩
      = (starRun (stepChar (fun d => d != '\n')) (f + 1) ⟨some c, v, []⟩).flatMap
          (closeName ⟨some ':', c :: v, []⟩) := by
  have hempty : ∀ l : List MState, l.flatMap (Re.empty.run (f + 1)) = l := by
    intro l
    induction l with
    | nil => rfl
    | cons x xs ih => simp [List.flatMap_cons, Re.run, ih]
  have hplus : (Re.plus Re.any).run (f + 1) ⟨some ':', c :: v, []⟩
      = starRun (stepChar (fun d => d != '\n')) (f + 1) ⟨some c, v, []⟩ := by
    have hfun : Re.any.run (f + 1) = stepChar (fun d => d != '\n') := funext (fun s => rfl)
    simp only [Re.run, hfun,
      stepChar_cons_true (fun d => d != '\n') (some ':') c v [] (by simpa using hc)]
    simp
  have hW : ∀ s0 s1 : MState,
      (Re.cat Re.wordB Re.empty).run (f + 1)
          { s1 with caps := setCap 1 (consumed s0 s1) s1.caps } = closeName s0 s1 := by
    intro s0 s1
    simp only [Re.run, stepAssert, closeName, atBoundary]
    split <;> simp
  simp only [paramRegexp, run_lit_cons]
  show (((Re.cap 1 (Re.cat (Re.plus Re.any) Re.empty)).run _ _).flatMap _) = _
  show ((((Re.cat (Re.plus Re.any) Re.empty).run _ _).map _).flatMap _) = _
  show (((((Re.plus Re.any).run _ _).flatMap (Re.empty.run (f + 1))).map _).flatMap _) = _
  rw [hempty, hplus, List.flatMap_map]
  congr 1
  funext s1
  exact hW _ s1

theorem paramRun_noword (f : Nat) (prev : Option Char) (rest : Str)
    (hnl : ∀ d ∈ rest, d ≠ '\n') (hw : ∀ d ∈ rest, isWordChar d = false)
    (hf : rest.length ≤ f + 1) :
    paramRegexp.prog.run (f + 1) ⟨prev, ':' :: rest, []⟩ = [] := by
  cases rest with
  | nil => simp [paramRegexp, run_lit_cons, Re.run, stepChar]
  | cons c v =>
    rw [paramRun_eq f prev c v (hnl c (List.mem_cons_self _ _)),
      starRun_noword _ _ [] v (fun d hd => by simpa using hnl d (List.mem_cons_of_mem _ hd))
        (fun d hd => hw d (List.mem_cons_of_mem _ hd)) (f + 1) (some c)
        (by simp at hf; omega)]
    exact closeName_noword _ c v [] (hw c (List.mem_cons_self _ _))
      (fun d hd => hw d (List.mem_cons_of_mem _ hd))

theorem paramRun_word (f : Nat) (prev : Option Char) (name tl : Str) (hne : name ≠ [])
    (hnl : ∀ d ∈ name ++ tl, d ≠ '\n') (hlast : isWordAt name.getLast? = true)
    (htl : ∀ d ∈ tl, isWordChar d = false) (hf : (name ++ tl).length ≤ f + 1) :
    ∃ others, paramRegexp.prog.run (f + 1) ⟨prev, ':' :: (name ++ tl), []⟩
      = ⟨name.getLast?, tl, setCap 1 name []⟩ :: others := by
  cases name with
  | nil => exact absurd rfl hne
  | cons c n =>
    have hp : ∀ d ∈ c :: (n ++ tl), (d != '\n') = true := by
      intro d hd
      simpa using hnl d (by simpa using hd)
    have hend : endPrev (some c) n = (c :: n).getLast? := by
      rw [endPrev_eq]
      cases n with
      | nil => rfl
      | cons x xs =>
        rw [List.getLast?_cons_cons, List.getLast?_eq_getLast _ (List.cons_ne_nil x xs)]
        rfl
    obtain ⟨others, ho⟩ := starRun_lastword (fun d => d != '\n') ⟨some ':', c :: (n ++ tl), []⟩ []
      tl htl (fun d hd => hp d (by simp [hd])) n (fun d hd => hp d (by simp [hd])) (f + 1)
      (some c) (by simp at hf ⊢; omega) (by rw [hend]; exact hlast)
    refine ⟨others, ?_⟩
    rw [List.cons_append, paramRun_eq f prev c (n ++ tl) (hnl c (by simp)), ho, hend]
    have hcons : consumed ⟨some ':', c :: (n ++ tl), []⟩ ⟨(c :: n).getLast?, tl, []⟩ = c :: n := by
      have := consumed_append (some ':') ((c :: n).getLast?) (c :: n) tl [] []
      simpa using this
    rw [hcons]

theorem search_skip (X : Re) (f : Nat) (t : Str) (pre : Str) (hpre : ∀ c ∈ pre, c ≠ ':') :
    ∀ prev, (Re.cat (Re.lit ':') X).search f prev (pre ++ ':' :: t)
      = (Re.cat (Re.lit ':') X).search f (endPrev prev pre) (':' :: t) := by
  induction pre with
  | nil => intro prev; rfl
  | cons c pre ih =>
    intro prev
    have hm : (Re.cat (Re.lit ':') X).run f ⟨prev, c :: (pre ++ ':' :: t), []⟩ = [] := by
      apply run_lit_mismatch
      simpa using hpre c (List.mem_cons_self _ _)
    rw [List.cons_append]
    simp only [Re.search, hm, List.head?_nil]
    exact ih (fun d hd => hpre d (List.mem_cons_of_mem _ hd)) (some c)

theorem cutWord_split (t : Str) :
    cutWord t ++ (t.reverse.takeWhile (fun c => !isWordChar c)).reverse = t := by
  unfold cutWord
  rw [← List.reverse_append, List.takeWhile_append_dropWhile, List.reverse_reverse]

theorem cutWord_last (t : Str) (h : t.any isWordChar = true) :
    cutWord t ≠ [] ∧ isWordAt (cutWord t).getLast? = true := by
  unfold cutWord
  rw [List.getLast?_reverse]
  have hne : t.reverse.dropWhile (fun c => !isWordChar c) ≠ [] := by
    intro h0
    rw [List.dropWhile_eq_nil_iff] at h0
    simp only [List.any_eq_true] at h
    obtain ⟨x, hx, hw⟩ := h
    have := h0 x (List.mem_reverse.mpr hx)
    simp [hw] at this
  refine ⟨by simpa using hne, ?_⟩
  have hh := List.head?_dropWhile_not (fun c => !isWordChar c) t.reverse
  cases hd : (t.reverse.dropWhile (fun c => !isWordChar c)).head? with
  | none =>
    rw [List.head?_eq_none_iff] at hd
    exact absurd hd hne
  | some x =>
    rw [hd] at hh
    simpa [isWordAt] using hh

theorem cutWord_tail (t : Str) :
    ∀ d ∈ (t.reverse.takeWhile (fun c => !isWordChar c)).reverse, isWordChar d = false := by
  intro d hd
  have := List.mem_takeWhile_imp (List.mem_reverse.mp hd)
  simpa using this

theorem firstSubmatch_colon_word (pre name tl : Str) (hpre : ∀ c ∈ pre, c ≠ ':')
    (hne : name ≠ []) (hnl : ∀ d ∈ name ++ tl, d ≠ '\n')
    (hlast : isWordAt name.getLast? = true) (htl : ∀ d ∈ tl, isWordChar d = false) :
    paramRegexp.firstSubmatch (pre ++ ':' :: (name ++ tl)) = some [':' :: name, name] := by
  obtain ⟨others, ho⟩ := paramRun_word (pre ++ ':' :: (name ++ tl)).length (endPrev none pre)
    name tl hne hnl hlast htl (by simp; omega)
  have hs : paramRegexp.prog.search ((pre ++ ':' :: (name ++ tl)).length + 1) none
      (pre ++ ':' :: (name ++ tl))
      = some (':' :: (name ++ tl), ⟨name.getLast?, tl, setCap 1 name []⟩) := by
    have h1 := search_skip (Re.cat (Re.cap 1 (Re.cat (Re.plus Re.any) Re.empty))
      (Re.cat Re.wordB Re.empty)) ((pre ++ ':' :: (name ++ tl)).length + 1) (name ++ tl) pre
      hpre none
    have h2 := search_of_run paramRegexp.prog ((pre ++ ':' :: (name ++ tl)).length + 1)
      (endPrev none pre) (':' :: (name ++ tl)) _ others ho
    exact h1.trans h2
  unfold Regexp.firstSubmatch
  rw [hs]
  have hr1 : List.range 1 = [0] := rfl
  have hlen : (':' :: (name ++ tl)).length - tl.length = name.length + 1 := by
    simp only [List.length_cons, List.length_append]
    omega
  have htake : (':' :: (name ++ tl)).take (name.length + 1) = ':' :: name := by
    simp [List.take]
  simp only [hlen, htake]
  simp [paramRegexp, capText, setCap, hr1]

theorem firstSubmatch_colon_noword (pre rest : Str) (hpre : ∀ c ∈ pre, c ≠ ':')
    (hnl : ∀ d ∈ rest, d ≠ '\n') (hw : ∀ d ∈ rest, isWordChar d = false) :
    paramRegexp.firstSubmatch (pre ++ ':' :: rest) = none := by
  have hs : paramRegexp.prog.search ((pre ++ ':' :: rest).length + 1) none (pre ++ ':' :: rest)
      = none := by
    have h1 := search_skip (Re.cat (Re.cap 1 (Re.cat (Re.plus Re.any) Re.empty))
      (Re.cat Re.wordB Re.empty)) ((pre ++ ':' :: rest).length + 1) rest pre hpre none
    refine h1.trans (search_none _ _ _ _ ?_)
    intro p t ht
    cases t with
    | nil => exact run_lit_mismatch _ _ _ _ (by simp)
    | cons d t' =>
      by_cases hd : d = ':'
      · subst hd
        have hsuf : t' <:+ rest := by
          rcases List.suffix_cons_iff.mp ht with h | h
          · simp only [List.cons.injEq, true_and] at h
            exact h ▸ List.suffix_refl _
          · exact (List.suffix_cons _ _).trans h
        exact paramRun_noword _ p t' (fun x hx => hnl x (hsuf.subset hx))
          (fun x hx => hw x (hsuf.subset hx))
          (by have := hsuf.length_le; simp; omega)
      · exact run_lit_mismatch _ _ _ _ (by simpa using hd)
  unfold Regexp.firstSubmatch
  rw [hs]

theorem dropWhile_colon (part : Str) (x : Char) (rest : Str)
    (h : part.dropWhile (fun c => c != ':') = x :: rest) :
    x = ':' ∧ part = part.takeWhile (fun c => c != ':') ++ ':' :: rest
      ∧ ∀ c ∈ part.takeWhile (fun c => c != ':'), c ≠ ':' := by
  have hx : x = ':' := by
    have hh := List.head?_dropWhile_not (fun c => c != ':') part
    rw [h] at hh
    simpa using hh
  refine ⟨hx, ?_, ?_⟩
  · subst hx
    rw [← h]
    exact (List.takeWhile_append_dropWhile _ _).symm
  · intro c hc
    simpa using List.mem_takeWhile_imp hc

theorem paramRegexp_first (part : Str) (hnl : ∀ c ∈ part, c ≠ '\n') :
    paramRegexp.firstSubmatch part = (paramNameOf part).map (fun n => [':' :: n, n]) := by
  unfold paramNameOf afterColon
  cases hd : part.dropWhile (fun c => c != ':') with
  | nil =>
    rw [List.dropWhile_eq_nil_iff] at hd
    rw [paramRegexp_none part (fun c hc => by simpa using hd c hc)]
    rfl
  | cons x rest =>
    obtain ⟨_, hpart, hpre⟩ := dropWhile_colon part x rest hd
    have hrest : ∀ d ∈ rest, d ≠ '\n' := by
      intro d hdm
      apply hnl
      rw [hpart]
      simp [hdm]
    by_cases hw : rest.any isWordChar = true
    · simp only [hw, if_true, Option.map_some']
      obtain ⟨hne, hlast⟩ := cutWord_last rest hw
      have hsplit := cutWord_split rest
      rw [hpart, ← hsplit]
      rw [firstSubmatch_colon_word _ _ _ hpre hne (by rw [hsplit]; exact hrest) hlast
        (cutWord_tail rest)]
      rw [hsplit]
    · simp only [hw, if_false, Option.map_none', Bool.false_eq_true]
      rw [hpart]
      apply firstSubmatch_colon_noword _ _ hpre hrest
      intro d hdm
      have : ¬ (isWordChar d = true) := fun h => hw (List.any_eq_true.mpr ⟨d, hdm, h⟩)
      simpa using this

theorem parsePart_classify (part : Str) (hnl : ∀ c ∈ part, c ≠ '\n') (st : List Str × List Str) :
    parsePart st part
      = (st.1 ++ (paramNameOf part).toList, st.2 ++ (atomOf part).toList) := by
  unfold parsePart atomOf
  rw [paramRegexp_first part hnl]
  cases hn : paramNameOf part with
  | some n => simp
  | none =>
    cases part with
    | nil => simp
    | cons c t => simp

theorem parsePart_fold_classify (parts : List Str) (hnl : ∀ p ∈ parts, ∀ c ∈ p, c ≠ '\n') :
    ∀ st, parts.foldl parsePart st
      = (st.1 ++ parts.filterMap paramNameOf, st.2 ++ parts.filterMap atomOf) := by
  induction parts with
  | nil => intro st; simp
  | cons p ps ih =>
    intro st
    rw [List.foldl_cons, parsePart_classify p (hnl p (List.mem_cons_self _ _)),
      ih (fun q hq => hnl q (List.mem_cons_of_mem _ hq))]
    cases hn : paramNameOf p <;> cases ha : atomOf p <;> simp [List.filterMap_cons, hn, ha]

theorem mem_Split (s : Str) (sep : Char) : ∀ p ∈ Split s sep, ∀ c ∈ p, c ∈ s := by
  induction s with
  | nil => intro p hp c hc; simp [Split] at hp; subst hp; simp at hc
  | cons d t ih =>
    intro p hp c hc
    unfold Split at hp
    by_cases hd : d = sep
    · simp only [hd, if_true, List.mem_cons] at hp
      rcases hp with rfl | hp
      · simp at hc
      · exact List.mem_cons_of_mem _ (ih p hp c hc)
    · simp only [hd, if_false] at hp
      cases hs : Split t sep with
      | nil =>
        rw [hs] at hp
        simp only [List.mem_singleton] at hp
        subst hp
        simp only [List.mem_singleton] at hc
        simp [hc]
      | cons h tl =>
        rw [hs] at hp
        simp only [List.mem_cons] at hp
        rcases hp with rfl | hp
        · simp only [List.mem_cons] at hc
          rcases hc with rfl | hc
          · exact List.mem_cons_self _ _
          · exact List.mem_cons_of_mem _ (ih h (by rw [hs]; simp) c hc)
        · exact List.mem_cons_of_mem _ (ih p (by rw [hs]; simp [hp]) c hc)

theorem cutWord_of_last (n : Str) (h : isWordAt n.getLast? = true) :
    n.any isWordChar = true ∧ cutWord n = n := by
  cases hr : n.reverse with
  | nil =>
    have : n = [] := by simpa using hr
    subst this
    simp [isWordAt] at h
  | cons x xs =>
    have hn : n = (x :: xs).reverse := by rw [← hr, List.reverse_reverse]
    have hx : isWordChar x = true := by
      rw [hn, List.getLast?_reverse] at h
      simpa [isWordAt] using h
    refine ⟨List.any_eq_true.mpr ⟨x, ?_, hx⟩, ?_⟩
    · rw [hn]
      simp
    · unfold cutWord
      rw [hr, List.dropWhile_cons_of_neg (by simp [hx]), ← hr, List.reverse_reverse]

theorem paramNameOf_colon (n : Str) (h : isWordAt n.getLast? = true) :
    paramNameOf (':' :: n) = some n := by
  obtain ⟨h1, h2⟩ := cutWord_of_last n h
  simp [paramNameOf, afterColon, h1, h2]

theorem paramNameOf_no_colon (part : Str) (h : ∀ c ∈ part, c ≠ ':') :
    paramNameOf part = none := by
  have hd : part.dropWhile (fun c => c != ':') = [] := by
    rw [List.dropWhile_eq_nil_iff]
    intro c hc
    simpa using h c hc
  simp [paramNameOf, afterColon, hd]

theorem compile_paramCapture :
    Regexp.compile paramCapture
      = some { src := paramCapture, prog := mkCat [captureRe 1], ncap := 1 } := by
  decide!

/-! ### Grouping by canonical path -/

theorem parsePart_slice (st : List Str × List Str) (part : Str) :
    (parsePart st part).2 = st.2 ++ (sliceOf part).toList := by
  unfold parsePart sliceOf isParamPart
  cases hf : paramRegexp.firstSubmatch part with
  | some m => simp
  | none =>
    cases part with
    | nil => simp
    | cons c t => simp

theorem parsePart_fold_slice (parts : List Str) :
    ∀ st : List Str × List Str,
      (parts.foldl parsePart st).2 = st.2 ++ parts.filterMap sliceOf := by
  induction parts with
  | nil => intro st; simp
  | cons x xs ih =>
    intro st
    rw [List.foldl_cons, ih, parsePart_slice]
    cases hs : sliceOf x <;> simp [List.filterMap_cons, hs]

theorem sliceOf_nil : sliceOf [] = none := by
  have h : paramRegexp.firstSubmatch [] = none := paramRegexp_none [] (by simp)
  simp [sliceOf, isParamPart, h]

theorem filterMap_sliceOf_filter (parts : List Str) :
    parts.filterMap sliceOf = (parts.filter (fun s => !s.isEmpty)).filterMap sliceOf := by
  induction parts with
  | nil => rfl
  | cons x xs ih =>
    cases x with
    | nil => simp [List.filterMap_cons, sliceOf_nil, ih]
    | cons c t => simp [List.filterMap_cons, ih]

theorem filterMap_sliceOf_lits (lits : List Str) (hne : ∀ s ∈ lits, s ≠ [])
    (hl : ∀ s ∈ lits, paramRegexp.firstSubmatch s = none) :
    lits.filterMap sliceOf = lits := by
  induction lits with
  | nil => rfl
  | cons x xs ih =>
    have hx : sliceOf x = some x := by
      simp [sliceOf, isParamPart, hl x (List.mem_cons_self _ _), hne x (List.mem_cons_self _ _)]
    rw [List.filterMap_cons, hx, ih (fun s hs => hne s (List.mem_cons_of_mem _ hs))
      (fun s hs => hl s (List.mem_cons_of_mem _ hs))]

theorem takeWhile_append_stop (p : Char → Bool) (u v : Str) (c : Char) (hc : p c = false) :
    (u ++ c :: v).takeWhile p = u.takeWhile p := by
  induction u with
  | nil => simp [List.takeWhile, hc]
  | cons d u ih =>
    by_cases hd : p d = true
    · simp [List.takeWhile, hd, ih]
    · have hd' : p d = false := by simpa using hd
      simp [List.takeWhile, hd']

theorem Join_append_capture (lits rest : List Str) :
    Join ([] :: (lits ++ paramCapture :: rest)) "/".toList
      = (Join ([] :: lits) "/".toList ++ "/".toList)
          ++ '(' :: ("[[:alnum:]]+)".toList ++ (rest.map (fun x => "/".toList ++ x)).flatten) := by
  rw [Join_cons, Join_cons]
  simp [paramCapture]

theorem canon_of_lits (p cp : Str) (np : List Str) (mp : Regexp)
    (hp : parsePattern p = some (cp, np, mp)) (lits : List Str) (x : Str) (rest : List Str)
    (hparts : (Split p '/').filter (fun s => !s.isEmpty) = lits ++ x :: rest)
    (hl : ∀ s ∈ lits, paramRegexp.firstSubmatch s = none)
    (hx : (paramRegexp.firstSubmatch x).isSome = true) :
    cp = splitFirst (Join ([] :: lits) "/".toList ++ "/".toList) '(' := by
  have hne : ∀ s ∈ lits, s ≠ [] := by
    intro s hs
    have hm : s ∈ (Split p '/').filter (fun s => !s.isEmpty) := by
      rw [hparts]
      exact List.mem_append_left _ hs
    have := (List.mem_filter.mp hm).2
    intro h0
    subst h0
    simp at this
  have hsl : ((Split p '/').foldl parsePart ([], [[]])).2
      = [] :: (lits ++ paramCapture :: rest.filterMap sliceOf) := by
    rw [parsePart_fold_slice, filterMap_sliceOf_filter, hparts, List.filterMap_append,
      filterMap_sliceOf_lits lits hne hl, List.filterMap_cons]
    have hx' : sliceOf x = some paramCapture := by simp [sliceOf, isParamPart, hx]
    rw [hx']
    rfl
  unfold parsePattern at hp
  simp only [hsl, Join_append_capture] at hp
  split at hp
  · simp at hp
  · simp only [Option.some.injEq, Prod.mk.injEq] at hp
    have hcut : splitFirst ((Join ([] :: lits) "/".toList ++ "/".toList)
        ++ '(' :: ("[[:alnum:]]+)".toList
          ++ ((rest.filterMap sliceOf).map (fun x => "/".toList ++ x)).flatten)) '('
        = splitFirst (Join ([] :: lits) "/".toList ++ "/".toList) '(' :=
      takeWhile_append_stop _ _ _ _ (by simp)
    rw [hcut] at hp
    have hnn : splitFirst (Join ([] :: lits) "/".toList ++ "/".toList) '(' ≠ [] := by
      rw [Join_cons]
      cases lits with
      | nil => simp [splitFirst]
      | cons l ls => simp [splitFirst, List.takeWhile]
    rw [if_neg hnn] at hp
    exact hp.1.symm

theorem mem_Join_slash (lits : List Str) :
    ∀ c ∈ Join ([] :: lits) "/".toList, c = '/' ∨ ∃ s ∈ lits, c ∈ s := by
  rw [Join_cons]
  intro c hc
  simp only [List.nil_append, List.mem_flatten, List.mem_map] at hc
  obtain ⟨l, ⟨s, hs, rfl⟩, hcl⟩ := hc
  simp only [String.toList, List.mem_append] at hcl
  rcases hcl with h | h
  · left
    simpa using h
  · exact Or.inr ⟨s, hs, h⟩

theorem splitFirst_lits_plain (lits : List Str) (h : ∀ s ∈ lits, ∀ c ∈ s, c ≠ '(') :
    splitFirst (Join ([] :: lits) "/".toList ++ "/".toList) '('
      = Join ([] :: lits) "/".toList ++ "/".toList := by
  unfold splitFirst
  rw [List.takeWhile_eq_self_iff]
  intro c hc
  rcases List.mem_append.mp hc with hc | hc
  · rcases mem_Join_slash lits c hc with rfl | ⟨s, hs, hcs⟩
    · decide
    · simpa using h s hs c hcs
  · have : c = '/' := by simpa using hc
    subst this
    decide

theorem mapSet_mapSet {β : Type} (m : List (Str × β)) (k : Str) (v w : β) :
    mapSet (mapSet m k v) k w = mapSet m k w := by
  induction m with
  | nil => simp [mapSet]
  | cons e es ih =>
    by_cases he : e.1 = k
    · simp [mapSet, he]
    · simp [mapSet, he, ih]

theorem mapGet_append_some {β : Type} (m m' : List (Str × β)) (k : Str) (v : β)
    (h : mapGet m k = some v) : mapGet (m ++ m') k = some v := by
  induction m with
  | nil => simp [mapGet] at h
  | cons e es ih =>
    by_cases he : e.1 = k
    · simpa [mapGet, he] using h
    · simp only [mapGet, he, if_false] at h
      simp [mapGet, he, ih h]

theorem mapGet_newEntries_isSome (r : route) (method : Str) (n : List Str) (re : Regexp)
    (h : HandlerPtr) :
    (mapGet (r.patternMatchMethods ++ newEntries r method n re h) re.String).isSome = true := by
  unfold newEntries
  cases hg : mapGet r.patternMatchMethods re.String with
  | some vs => simp [hg]
  | none =>
    simp only
    rw [mapGet_append_none _ _ _ hg]
    simp [mapGet]

theorem AppRouter_Add_twice (a : AppRouter) (p q c : Str) (np nq : List Str) (mp mq : Regexp)
    (m1 m2 : Str) (h1 h2 : HandlerPtr)
    (hp : parsePattern p = some (c, np, mp)) (hq : parsePattern q = some (c, nq, mq)) :
    ∃ a1 a2 r1 r2,
      a.Add m1 p h1 = some a1 ∧ a1.Add m2 q h2 = some a2
      ∧ a1.routes = mapSet a.routes c r1 ∧ a2.routes = mapSet a.routes c r2
      ∧ r1.base = (entryAt a c).base ∧ r2.base = (entryAt a c).base
      ∧ r1.patternMatchMethods
          = (entryAt a c).patternMatchMethods ++ newEntries (entryAt a c) m1 np mp h1
      ∧ r2.patternMatchMethods = r1.patternMatchMethods ++ newEntries r1 m2 nq mq h2 := by
  obtain ⟨a1, s1, r1, ha1, he1, hr1⟩ := AppRouter_Add_effect a m1 p h1 c np mp hp
  obtain ⟨s1', r1', hx1, hb1, hpm1, _⟩ := route_Add_effect (entryAt a c) m1 p h1 c np mp hp
  rw [hx1] at he1
  simp only [Option.some.injEq, Prod.mk.injEq] at he1
  obtain ⟨_, rfl⟩ := he1
  obtain ⟨a2, s2, r2, ha2, he2, hr2⟩ := AppRouter_Add_effect a1 m2 q h2 c nq mq hq
  rw [entryAt_mapSet a a1 c r1' hr1] at he2
  obtain ⟨s2', r2', hx2, hb2, hpm2, _⟩ := route_Add_effect r1' m2 q h2 c nq mq hq
  rw [hx2] at he2
  simp only [Option.some.injEq, Prod.mk.injEq] at he2
  obtain ⟨_, rfl⟩ := he2
  refine ⟨a1, a2, r1', r2', ha1, ha2, hr1, ?_, hb1, hb2.trans hb1, hpm1, hpm2⟩
  rw [hr2, hr1, mapSet_mapSet]

theorem ServeHTTP_single (segs : List Seg) (method : Str) (h : HandlerPtr) (c path : Str)
    (log : Bool) (ps : Option Params) :
    route.ServeHTTP { base := c, patternMatchMethods := [(regexOf segs, [variantOf segs method h])],
                      allowMethods := [method] } ⟨method, path, log, ps⟩
      = match (matcherOf segs).firstSubmatch path with
        | some matched =>
          [Event.call h ⟨method, path, log,
            some ((pairParams (matched.drop 1) (paramNames segs)).getD [])⟩]
        | none => [Event.notFound] := by
  simp only [route.ServeHTTP, List.mem_singleton, if_true, route.sortMatchStrings,
    List.map_cons, List.map_nil, sortDesc, List.foldr_cons, List.foldr_nil, insertDesc,
    servePatterns, mapGet, Option.getD_some]
  rw [serveVariants_single segs method h _ rfl]
  cases (matcherOf segs).firstSubmatch path with
  | none => rfl
  | some matched => rfl

/-! ## The claims -/

/-- C1, counterexample: the claim fails for three patterns with a parameter
segment.  The literal segment of `/a+b/:id` is read as an expression, so the
path `/a+b/42` built from the pattern is not matched.  The empty segment of
`/users//:id` is dropped from the matcher, so `/users//42` is not matched.
For `/:id/:id` and the path `/1/2` the mapping returned binds `id` to `2`
alone: the value `1` substituted for the first declared name is lost. -/
theorem c1_counterexample :
    (parsePattern "/a+b/:id".toList).map
        (fun r => (r.2.1, r.2.2.firstSubmatch "/a+b/42".toList)) = some (["id".toList], none)
    ∧ (parsePattern "/users//:id".toList).map
        (fun r => (r.2.1, r.2.2.firstSubmatch "/users//42".toList)) = some (["id".toList], none)
    ∧ (parsePattern "/:id/:id".toList).map
        (fun r => (r.2.1, (r.2.2.firstSubmatch "/1/2".toList).bind
          (fun m => pairParams (m.drop 1) r.2.1)))
        = some (["id".toList, "id".toList], some [("id".toList, "2".toList)]) :=
  ⟨by decide!, by decide!, by decide!⟩

/-- C1, amended: for every pattern `/seg1/.../segn` whose segments are well
formed (literal segments non-empty and free of `/`, `:` and of the characters
special in expressions; parameter segments `:name`) and whose parameter names
are pairwise distinct, and every path built from it by substituting non-empty
alphanumeric values, `parsePattern` returns a matcher and the declared
names, the matcher matches the path with the substituted values as its
submatches, in order, and `pairParams` on those submatches and the names
returns exactly the bindings name-to-value, in declaration order. -/
theorem c1_params_roundtrip (segs : List Seg) (values : List Str)
    (hwf : ∀ s ∈ segs, s.wf = true) (hnd : (paramNames segs).Nodup)
    (hlen : values.length = (paramNames segs).length)
    (hval : ∀ v ∈ values, isValue v = true) :
    ∃ canon m matched, parsePattern (patternOf segs) = some (canon, paramNames segs, m)
      ∧ m.firstSubmatch (instantiate segs values) = some matched
      ∧ matched = instantiate segs values :: values
      ∧ pairParams (matched.drop 1) (paramNames segs)
          = some ((paramNames segs).zip values) := by
  refine ⟨canonOf segs, matcherOf segs, _, parsePattern_patternOf segs hwf, ?_, rfl, ?_⟩
  · simpa using firstSubmatch_instance segs hwf values hval hlen [] (fun c hc => by simp at hc)
  · exact pairParams_nodup values (paramNames segs) hlen hnd

/-- C1, instance: the pattern `/users/:id/posts/:postId` and the path
`/users/42/posts/7`. -/
theorem c1_params_roundtrip_witness :
    (∀ s ∈ [Seg.lit "users".toList, Seg.param "id".toList, Seg.lit "posts".toList,
        Seg.param "postId".toList], s.wf = true)
    ∧ ["id".toList, "postId".toList].Nodup
    ∧ ∃ canon m matched,
      parsePattern "/users/:id/posts/:postId".toList
          = some (canon, ["id".toList, "postId".toList], m)
      ∧ m.firstSubmatch "/users/42/posts/7".toList = some matched
      ∧ matched = ["/users/42/posts/7".toList, "42".toList, "7".toList]
      ∧ pairParams (matched.drop 1) ["id".toList, "postId".toList]
          = some [("id".toList, "42".toList), ("postId".toList, "7".toList)] :=
  ⟨by decide!, by decide!, c1_params_roundtrip
    [Seg.lit "users".toList, Seg.param "id".toList, Seg.lit "posts".toList,
      Seg.param "postId".toList] ["42".toList, "7".toList]
    (by decide!) (by decide!) (by decide!) (by decide!)⟩

/-- C2, counterexample: two extensions of a pattern by a further segment
whose requests reach the handler of the shorter pattern.  The segment `b+c`
of `/a/:x/b+c` is read as an expression: the path `/a/1/b+c` is not matched
by the longer matcher and is served by handler 1 of `/a/:x`.  The empty
segment of `/users/:id/` is dropped: the second registration is refused as
a duplicate and `/users/42/` is served by handler 1. -/
theorem c2_counterexample :
    (((NewRouter.Add GET "/a/:x".toList 1).bind
        (fun a => a.Add GET "/a/:x/b+c".toList 2)).bind
        (fun a => (mapGet a.routes "/a/".toList).map
          (fun r => r.ServeHTTP ⟨GET, "/a/1/b+c".toList, true, none⟩)))
      = some [Event.call 1 ⟨GET, "/a/1/b+c".toList, true, some [("x".toList, "1".toList)]⟩]
    ∧ (((NewRouter.Add GET "/users/:id".toList 1).bind
        (fun a => a.Add GET "/users/:id/".toList 2)).bind
        (fun a => (mapGet a.routes "/users/".toList).map
          (fun r => r.ServeHTTP ⟨GET, "/users/42/".toList, true, none⟩)))
      = some [Event.call 1 ⟨GET, "/users/42/".toList, true,
          some [("id".toList, "42".toList)]⟩] :=
  ⟨by decide!, by decide!⟩

/-- C2, amended: let `P` be a pattern of well-formed segments with at least
one parameter and `P'` its extension by further well-formed segments, both
registered through `AppRouter.Add` under one method, `P` with handler `hA`
and `P'` with `hB`.  The router then holds one entry; a request whose path
instantiates `P` is served by `hA` alone with the parameters of `P`, and a
request whose path instantiates `P'` is served by `hB` alone with the
parameters of `P'`. -/
theorem c2_extension_dispatch (segs ext : List Seg) (vs ws : List Str) (method : Str)
    (hA hB : HandlerPtr) (log : Bool) (ps : Option Params)
    (hwf : ∀ s ∈ segs ++ ext, s.wf = true)
    (hpar : paramNames segs ≠ []) (hext : ext ≠ [])
    (hvlen : vs.length = (paramNames segs).length) (hvs : ∀ v ∈ vs, isValue v = true)
    (hwlen : ws.length = (paramNames (segs ++ ext)).length) (hws : ∀ v ∈ ws, isValue v = true) :
    ∃ a p r,
      (NewRouter.Add method (patternOf segs) hA).bind
          (fun a => a.Add method (patternOf (segs ++ ext)) hB) = some a
      ∧ a.routes = [(p, r)]
      ∧ r.ServeHTTP ⟨method, instantiate segs vs, log, ps⟩
          = [Event.call hA ⟨method, instantiate segs vs, log,
              some ((pairParams vs (paramNames segs)).getD [])⟩]
      ∧ r.ServeHTTP ⟨method, instantiate (segs ++ ext) ws, log, ps⟩
          = [Event.call hB ⟨method, instantiate (segs ++ ext) ws, log,
              some ((pairParams ws (paramNames (segs ++ ext))).getD [])⟩] := by
  have hwf1 : ∀ s ∈ segs, s.wf = true := fun s hs => hwf s (List.mem_append_left _ hs)
  have hne := regexOf_ne_append segs ext hext
  refine ⟨_, canonOf segs, entryOf segs ext method hA hB,
    Add_extension segs ext hwf hpar hext method hA hB, rfl, ?_, ?_⟩
  · have hnone := firstSubmatch_longer_none segs ext hwf hext vs hvs
    have hsome := firstSubmatch_instance segs hwf1 vs hvs hvlen [] (fun c hc => by simp at hc)
    rw [List.append_nil] at hsome
    have hmem : method ∈ (entryOf segs ext method hA hB).allowMethods := by simp [entryOf]
    simp only [route.ServeHTTP, hmem, if_true, sort_extension segs ext hext, servePatterns]
    have hg1 : mapGet (entryOf segs ext method hA hB).patternMatchMethods (regexOf (segs ++ ext))
        = some [variantOf (segs ++ ext) method hB] := by
      simp [entryOf, mapGet, hne]
    have hg2 : mapGet (entryOf segs ext method hA hB).patternMatchMethods (regexOf segs)
        = some [variantOf segs method hA] := by
      simp [entryOf, mapGet]
    rw [hg1, hg2]
    simp only [Option.getD_some]
    rw [serveVariants_single (segs ++ ext) method hB _ rfl,
      serveVariants_single segs method hA _ rfl]
    simp only [hnone, hsome]
    rfl
  · have hsome := firstSubmatch_instance (segs ++ ext) hwf ws hws hwlen []
      (fun c hc => by simp at hc)
    rw [List.append_nil] at hsome
    have hmem : method ∈ (entryOf segs ext method hA hB).allowMethods := by simp [entryOf]
    simp only [route.ServeHTTP, hmem, if_true, sort_extension segs ext hext, servePatterns]
    have hg1 : mapGet (entryOf segs ext method hA hB).patternMatchMethods (regexOf (segs ++ ext))
        = some [variantOf (segs ++ ext) method hB] := by
      simp [entryOf, mapGet, hne]
    rw [hg1]
    simp only [Option.getD_some]
    rw [serveVariants_single (segs ++ ext) method hB _ rfl]
    simp only [hsome]
    rfl

/-- C2, instance: GET `/users/:id` with handler 1 and GET
`/users/:id/posts/:postId` with handler 2; the requests `/users/42` and
`/users/42/posts/7`. -/
theorem c2_extension_dispatch_witness :
    (∀ s ∈ [Seg.lit "users".toList, Seg.param "id".toList]
        ++ [Seg.lit "posts".toList, Seg.param "postId".toList], s.wf = true)
      ∧ ∃ a p r,
        (NewRouter.Add GET "/users/:id".toList 1).bind
            (fun a => a.Add GET "/users/:id/posts/:postId".toList 2) = some a
        ∧ a.routes = [(p, r)]
        ∧ r.ServeHTTP ⟨GET, "/users/42".toList, true, none⟩
            = [Event.call 1 ⟨GET, "/users/42".toList, true, some [("id".toList, "42".toList)]⟩]
        ∧ r.ServeHTTP ⟨GET, "/users/42/posts/7".toList, true, none⟩
            = [Event.call 2 ⟨GET, "/users/42/posts/7".toList, true,
                some [("id".toList, "42".toList), ("postId".toList, "7".toList)]⟩] :=
  ⟨by decide!, c2_extension_dispatch [Seg.lit "users".toList, Seg.param "id".toList]
    [Seg.lit "posts".toList, Seg.param "postId".toList] ["42".toList]
    ["42".toList, "7".toList] GET 1 2 true none (by decide!) (by decide!) (by decide!)
    (by decide!) (by decide!) (by decide!) (by decide!)⟩

/-- C3: when the matcher signature of the pattern is present in the entry and
one of its variants binds the method, `route.Add` returns the empty string for
every handler and leaves the entry as it was, so every request is served
afterwards as it was before. -/
theorem c3_bound_method_rejected (r : route) (method pattern : Str) (h : HandlerPtr)
    (canon : Str) (params : List Str) (m : Regexp) (vs : List matchMethodHandler)
    (hp : parsePattern pattern = some (canon, params, m))
    (hsig : mapGet r.patternMatchMethods m.String = some vs)
    (hbound : ∃ v ∈ vs, (mapGet v.allowed method).isSome = true) :
    r.Add method pattern h = some ([], r)
      ∧ ∀ req, (r.Add method pattern h).map (fun x => x.2.ServeHTTP req)
          = some (r.ServeHTTP req) := by
  have hadd : r.Add method pattern h = some ([], r) := by
    obtain ⟨b, hb⟩ := findBound_of_bound vs method h hbound
    unfold route.Add
    simp only [hp, hsig, hb]
    cases b <;> rfl
  exact ⟨hadd, fun req => by rw [hadd]; rfl⟩

/-- C3, instance: GET `/a` is registered with handler 1, then again with
handler 2. -/
theorem c3_bound_method_rejected_witness :
    NewRoute GET "/a".toList 1 = some ("/a".toList, routeA)
      ∧ (routeA.Add GET "/a".toList 2 = some ([], routeA)
        ∧ ∀ req, (routeA.Add GET "/a".toList 2).map (fun x => x.2.ServeHTTP req)
            = some (routeA.ServeHTTP req)) :=
  ⟨by decide!, c3_bound_method_rejected routeA GET "/a".toList 2 "/a".toList [] variantA.matcher
    [variantA] (by decide!) (by decide!) ⟨variantA, by decide!, by decide!⟩⟩

/-- C4, the code at the failing input: after GET `/a` with handler 1,
`route.Add` for POST `/a` with handler 2 returns the canonical path and
allows POST, but the variants of the signature are unchanged; a POST request
for `/a` then dereferences a nil handler, a GET request is served by
handler 1. -/
theorem c4_second_method_lost :
    (NewRoute GET "/a".toList 1).bind (fun x => x.2.Add POST "/a".toList 2)
        = some ("/a".toList, { routeA with allowMethods := [GET, POST] })
      ∧ route.ServeHTTP { routeA with allowMethods := [GET, POST] } ⟨POST, "/a".toList, true, none⟩
        = [Event.panicked]
      ∧ route.ServeHTTP { routeA with allowMethods := [GET, POST] } ⟨GET, "/a".toList, true, none⟩
        = [Event.call 1 ⟨GET, "/a".toList, true, some []⟩] :=
  ⟨by decide!, by decide!, by decide!⟩

/-- C5, the code at the failing input: with GET `/users/:id` and POST
`/users/:id/posts/:postId` in one entry, a POST request for `/users/42`
matches the first pattern only, which binds no POST handler: the entry
dereferences a nil handler instead of answering 405.  A PUT request, a method
of no variant, is answered 405. -/
theorem c5_other_variant_method_panics :
    (((NewRouter.Add GET "/users/:id".toList 1).bind
        (fun a => a.Add POST "/users/:id/posts/:postId".toList 2)).bind
        (fun a => (mapGet a.routes "/users/".toList).map
          (fun r => (r.allowMethods, r.ServeHTTP ⟨POST, "/users/42".toList, true, none⟩,
            r.ServeHTTP ⟨"PUT".toList, "/users/42".toList, true, none⟩))))
      = some ([GET, POST], [Event.panicked], [Event.status 405]) := by
  decide!

/-- C6: the handler `methodHandler` returns for an entry, served a request as
`AppRouter.ServeHTTP` does, answers 405 whatever the wrapped chain is when the
method is not in the entry's `allowMethods`, and is the wrapped chain applied
once to the request when the method is in the set. -/
theorem c6_method_gate (a : AppRouter) (pattern : Str) (r : route) (chain : Handler)
    (req : Request) (hr : mapGet a.routes pattern = some r) :
    ∃ gate, a.methodHandler pattern chain = some gate
      ∧ (req.method ∉ r.allowMethods → AppRouter.serveWith gate req = [Event.status 405])
      ∧ (req.method ∈ r.allowMethods →
          AppRouter.serveWith gate req = chain { req with hasLog := true }) := by
  refine ⟨gateOf r chain, by simp only [AppRouter.methodHandler, hr]; rfl, ?_, ?_⟩
  · intro h
    simp [AppRouter.serveWith, gateOf, h]
  · intro h
    simp [AppRouter.serveWith, gateOf, h]

/-- C6, instance: the entry of GET `/a` and a POST request. -/
theorem c6_method_gate_witness :
    mapGet (routerA []).routes "/a".toList = some routeA
      ∧ ∃ gate, (routerA []).methodHandler "/a".toList (noteMw "A".toList routeA.ServeHTTP) = some gate
        ∧ (POST ∉ routeA.allowMethods →
            AppRouter.serveWith gate ⟨POST, "/a".toList, false, none⟩ = [Event.status 405])
        ∧ (POST ∈ routeA.allowMethods →
            AppRouter.serveWith gate ⟨POST, "/a".toList, false, none⟩
              = noteMw "A".toList routeA.ServeHTTP ⟨POST, "/a".toList, true, none⟩) :=
  ⟨by decide!, c6_method_gate (routerA []) "/a".toList routeA (noteMw "A".toList routeA.ServeHTTP)
    ⟨POST, "/a".toList, false, none⟩ (by decide!)⟩

/-- C7: after the middleware `ms` is appended in order to a router without
middleware whose entries have distinct keys that the mux reads as plain
paths, `FinishRoutes` returns and installs for the pattern of an entry the
method gate of `methodHandler` around `m0 (m1 (... (m(n-1) entry)))`: the
first middleware appended is the outermost below the gate. -/
theorem c7_middleware_order (a0 : AppRouter) (ms : List Middleware) (pattern : Str) (r : route)
    (hmw : a0.middleware = []) (hmux : a0.mux = some [])
    (hnd : (a0.routes.map Prod.fst).Nodup)
    (hplain : ∀ e ∈ a0.routes, plainPath e.1 = true)
    (hr : mapGet a0.routes pattern = some r) :
    (ms.foldl AppRouter.AddMiddleware a0).middleware = ms
      ∧ ∃ a mux gate, (ms.foldl AppRouter.AddMiddleware a0).FinishRoutes = some a
        ∧ a.mux = some mux
        ∧ mapGet mux pattern = some gate
        ∧ (ms.foldl AppRouter.AddMiddleware a0).methodHandler pattern
            (ms.foldr (fun m inner => m inner) r.ServeHTTP) = some gate
        ∧ ∀ req, req.method ∈ r.allowMethods →
            AppRouter.serveWith gate req
              = ms.foldr (fun m inner => m inner) r.ServeHTTP { req with hasLog := true } := by
  obtain ⟨h1, h2, h3⟩ := middleware_foldl ms a0
  rw [hmw, List.nil_append] at h1
  refine ⟨h1, _, _, gateOf r (chainOf ms r.ServeHTTP),
    FinishRoutes_installs _ (h3.trans hmux) (h2 ▸ hnd) (h2 ▸ hplain), rfl, ?_, ?_, ?_⟩
  · rw [h1, h2]
    unfold installed
    rw [mapGet_map_snd (fun r => gateOf r (chainOf ms r.ServeHTTP)), hr]
    rfl
  · simp only [AppRouter.methodHandler, h2, hr]
    rfl
  · intro req hreq
    simp [AppRouter.serveWith, gateOf, hreq, chainOf]

/-- C7, instance: the middleware `A` then `B` around the entry of GET `/a`; a
GET request passes `A`, then `B`, then the handler, and returns through `B`,
then `A`. -/
theorem c7_middleware_order_witness :
    (mapGet (routerA []).routes "/a".toList = some routeA)
      ∧ (([noteMw "A".toList, noteMw "B".toList].foldl AppRouter.AddMiddleware
            (routerA [])).middleware = [noteMw "A".toList, noteMw "B".toList]
        ∧ ∃ a mux gate,
          ([noteMw "A".toList, noteMw "B".toList].foldl AppRouter.AddMiddleware
            (routerA [])).FinishRoutes = some a
          ∧ a.mux = some mux
          ∧ mapGet mux "/a".toList = some gate
          ∧ ([noteMw "A".toList, noteMw "B".toList].foldl AppRouter.AddMiddleware
              (routerA [])).methodHandler "/a".toList
              (noteMw "A".toList (noteMw "B".toList routeA.ServeHTTP)) = some gate
          ∧ ∀ req, req.method ∈ routeA.allowMethods →
              AppRouter.serveWith gate req
                = noteMw "A".toList (noteMw "B".toList routeA.ServeHTTP)
                    { req with hasLog := true })
      ∧ noteMw "A".toList (noteMw "B".toList routeA.ServeHTTP) ⟨GET, "/a".toList, true, none⟩
        = [Event.note "A<".toList, Event.note "B<".toList,
            Event.call 1 ⟨GET, "/a".toList, true, some []⟩,
            Event.note "B>".toList, Event.note "A>".toList] :=
  ⟨by decide!,
   c7_middleware_order (routerA []) [noteMw "A".toList, noteMw "B".toList] "/a".toList routeA
      rfl rfl (by decide!) (by decide!) (by decide!),
   by decide!⟩

/-- C8: once `App.allowMethods` has returned, a further call returns the same
application: the guard is set, no handler is installed or wrapped again and
the handlers installed, hence the outcome of every request, are unchanged. -/
theorem c8_seal_once (app app1 : App) (h : app.allowMethods = some app1) :
    app1.once = true ∧ app1.allowMethods = some app1 := by
  unfold App.allowMethods at h
  by_cases ho : app.once = true
  · simp only [ho, if_true, Option.some.injEq] at h
    subst h
    exact ⟨ho, by simp [App.allowMethods, ho]⟩
  · have ho' : app.once = false := by simpa using ho
    rw [ho'] at h
    cases hf : app.Route.FinishRoutes with
    | none => simp [hf] at h
    | some r =>
      simp only [hf, Bool.false_eq_true, if_false, Option.some.injEq] at h
      subst h
      exact ⟨rfl, by simp [App.allowMethods]⟩

/-- C8, instance: the application with the entry of GET `/a` and one
middleware is sealed; the second call changes nothing, whereas a second
`FinishRoutes` without the guard would panic on the pattern installed. -/
theorem c8_seal_once_witness :
    appA.allowMethods = some appASealed
      ∧ appASealed.once = true ∧ appASealed.allowMethods = some appASealed
      ∧ appASealed.Route.FinishRoutes = none :=
  ⟨appA_seals, (c8_seal_once appA appASealed appA_seals).1,
    (c8_seal_once appA appASealed appA_seals).2, by rfl⟩

/-- C9, counterexample: the path `/users/42/extra` merely contains a portion
that conforms to `/users/:id`, yet the entry does not answer not-found: the
variant matches and handler 1 is served with `id` bound to `42`. -/
theorem c9_counterexample :
    (NewRoute "GET".toList "/users/:id".toList 1).map
        (fun x => x.2.ServeHTTP ⟨"GET".toList, "/users/42/extra".toList, true, none⟩)
      = some [Event.call 1 ⟨"GET".toList, "/users/42/extra".toList, true,
          some [("id".toList, "42".toList)]⟩] := by
  decide!

/-- C9, amended: the expression compiled for a pattern is not anchored.  For
every pattern of well-formed segments registered by `NewRoute`, the matcher
variant matches a request path exactly when the path contains a portion that
conforms to the pattern, wherever it lies, and the entry answers not-found
to a request with the registered method exactly when the path contains no
such portion.  When the path starts with a conforming portion that ends at
the end of the path or before a character that is not alphanumeric (such as
`/`), the variant matches with the values of that portion as submatches and
the entry serves the registered handler with these parameters. -/
theorem c9_unanchored_match (segs : List Seg) (values : List Str) (rest : Str)
    (method : Str) (h : HandlerPtr) (log : Bool) (ps : Option Params)
    (hwf : ∀ s ∈ segs, s.wf = true)
    (hlen : values.length = (paramNames segs).length)
    (hval : ∀ v ∈ values, isValue v = true)
    (hrest : ∀ c, rest.head? = some c → isAlnum c = false) :
    ∃ canon r, NewRoute method (patternOf segs) h = some (canon, r)
      ∧ (∀ e ∈ r.patternMatchMethods, ∀ v ∈ e.2,
          v.matcher.firstSubmatch (instantiate segs values ++ rest)
            = some (instantiate segs values :: values))
      ∧ r.ServeHTTP ⟨method, instantiate segs values ++ rest, log, ps⟩
          = [Event.call h ⟨method, instantiate segs values ++ rest, log,
              some ((pairParams values (paramNames segs)).getD [])⟩]
      ∧ (∀ path : Str, ∀ e ∈ r.patternMatchMethods, ∀ v ∈ e.2,
          ((v.matcher.firstSubmatch path).isSome = true
            ↔ ∃ pre vs post, vs.length = (paramNames segs).length
                ∧ (∀ v ∈ vs, isValue v = true)
                ∧ path = pre ++ instantiate segs vs ++ post))
      ∧ (∀ path : Str,
          (r.ServeHTTP ⟨method, path, log, ps⟩ = [Event.notFound]
            ↔ ¬ ∃ pre vs post, vs.length = (paramNames segs).length
                ∧ (∀ v ∈ vs, isValue v = true)
                ∧ path = pre ++ instantiate segs vs ++ post)) := by
  have hf := firstSubmatch_instance segs hwf values hval hlen rest hrest
  refine ⟨_, _, NewRoute_patternOf segs hwf method h, ?_, ?_, ?_, ?_⟩
  · intro e he v hv
    simp only [List.mem_singleton] at he
    subst he
    simp only [List.mem_singleton] at hv
    subst hv
    exact hf
  · rw [ServeHTTP_single, hf]
    rfl
  · intro path e he v hv
    simp only [List.mem_singleton] at he
    subst he
    simp only [List.mem_singleton] at hv
    subst hv
    exact firstSubmatch_isSome_iff segs path
  · intro path
    rw [ServeHTTP_single, ← firstSubmatch_isSome_iff segs path]
    cases (matcherOf segs).firstSubmatch path with
    | none => simp
    | some matched => simp

/-- C9, instance: the pattern `/users/:id` and the path `/users/42/extra`,
which starts with the conforming portion `/users/42`. -/
theorem c9_unanchored_match_witness :
    (∀ s ∈ [Seg.lit "users".toList, Seg.param "id".toList], s.wf = true)
      ∧ ∃ canon r, NewRoute GET "/users/:id".toList 1 = some (canon, r)
        ∧ (∀ e ∈ r.patternMatchMethods, ∀ v ∈ e.2,
            v.matcher.firstSubmatch "/users/42/extra".toList
              = some ["/users/42".toList, "42".toList])
        ∧ r.ServeHTTP ⟨GET, "/users/42/extra".toList, true, none⟩
            = [Event.call 1 ⟨GET, "/users/42/extra".toList, true,
                some [("id".toList, "42".toList)]⟩]
        ∧ (∀ path : Str, ∀ e ∈ r.patternMatchMethods, ∀ v ∈ e.2,
            ((v.matcher.firstSubmatch path).isSome = true
              ↔ ∃ pre vs post,
                  vs.length = (paramNames [Seg.lit "users".toList, Seg.param "id".toList]).length
                  ∧ (∀ v ∈ vs, isValue v = true)
                  ∧ path = pre
                      ++ instantiate [Seg.lit "users".toList, Seg.param "id".toList] vs ++ post))
        ∧ (∀ path : Str,
            (r.ServeHTTP ⟨GET, path, true, none⟩ = [Event.notFound]
              ↔ ¬ ∃ pre vs post,
                  vs.length = (paramNames [Seg.lit "users".toList, Seg.param "id".toList]).length
                  ∧ (∀ v ∈ vs, isValue v = true)
                  ∧ path = pre
                      ++ instantiate [Seg.lit "users".toList, Seg.param "id".toList] vs ++ post)) :=
  ⟨by decide!, c9_unanchored_match [Seg.lit "users".toList, Seg.param "id".toList]
    ["42".toList] "/extra".toList GET 1 true none (by decide!) (by decide!) (by decide!)
    (by decide!)⟩

/-- C10, counterexample: the literal segment `a.b` matches the path `/axb`,
which differs from it in a character, and the literal segment `a+b` does not
match the path `/a+b` equal to the pattern's text. -/
theorem c10_counterexample :
    (parsePattern "/a.b".toList).map (fun r => r.2.2.firstSubmatch "/axb".toList)
        = some (some ["/axb".toList])
    ∧ (parsePattern "/a+b".toList).map (fun r => r.2.2.firstSubmatch "/a+b".toList)
        = some none :=
  ⟨by decide!, by decide!⟩

/-- C10, amended: for every pattern of well-formed segments (literal segments
free of the characters special in expressions), the compiled matcher matches
a path exactly when the path contains an instance of the pattern: the literal
segments verbatim and a non-empty alphanumeric value for each parameter.  For
a pattern without parameters it matches exactly the paths that contain the
pattern's text. -/
theorem c10_literal_verbatim (segs : List Seg) (path : Str) (hwf : ∀ s ∈ segs, s.wf = true) :
    ∃ canon m, parsePattern (patternOf segs) = some (canon, paramNames segs, m)
      ∧ ((m.firstSubmatch path).isSome = true
          ↔ ∃ pre vs post, vs.length = (paramNames segs).length
              ∧ (∀ v ∈ vs, isValue v = true) ∧ path = pre ++ instantiate segs vs ++ post)
      ∧ (paramNames segs = [] →
          ((m.firstSubmatch path).isSome = true
            ↔ ∃ pre post, path = pre ++ patternOf segs ++ post)) := by
  refine ⟨canonOf segs, matcherOf segs, parsePattern_patternOf segs hwf,
    firstSubmatch_isSome_iff segs path, ?_⟩
  intro hno
  rw [firstSubmatch_isSome_iff]
  constructor
  · rintro ⟨pre, vs, post, _, _, hp⟩
    exact ⟨pre, post, by rw [hp, instantiate_no_params segs hno]⟩
  · rintro ⟨pre, post, hp⟩
    exact ⟨pre, [], post, by simp [hno], by simp, by rw [hp, instantiate_no_params segs hno]⟩

/-- C10, instance: the pattern `/api/v1` and the path `/api/v2`. -/
theorem c10_literal_verbatim_witness :
    (∀ s ∈ [Seg.lit "api".toList, Seg.lit "v1".toList], s.wf = true)
      ∧ ∃ canon m, parsePattern "/api/v1".toList = some (canon, [], m)
        ∧ ((m.firstSubmatch "/api/v2".toList).isSome = true
            ↔ ∃ pre vs post, vs.length = 0
                ∧ (∀ v ∈ vs, isValue v = true)
                ∧ "/api/v2".toList
                    = pre ++ instantiate [Seg.lit "api".toList, Seg.lit "v1".toList] vs ++ post)
        ∧ (([] : List Str) = [] →
            ((m.firstSubmatch "/api/v2".toList).isSome = true
              ↔ ∃ pre post, "/api/v2".toList = pre ++ "/api/v1".toList ++ post)) :=
  ⟨by decide!, c10_literal_verbatim [Seg.lit "api".toList, Seg.lit "v1".toList]
    "/api/v2".toList (by decide!)⟩

/-- C11.  `parsePattern` drops the empty segments that leading, trailing or
repeated `/` characters produce: two patterns with the same non-empty
segments, in order, return the same canonical path, parameter names and
matcher; and a pattern with no non-empty segment returns the canonical path
`/`, no parameter name and the matcher of the empty expression. -/
theorem c11_empty_segments_dropped (p q : Str)
    (h : (Split p '/').filter (fun s => !s.isEmpty)
        = (Split q '/').filter (fun s => !s.isEmpty)) :
    parsePattern p = parsePattern q
      ∧ ((Split p '/').filter (fun s => !s.isEmpty) = [] →
          parsePattern p
            = some ("/".toList, [], { src := [], prog := Re.empty, ncap := 0 })) := by
  refine ⟨by rw [parsePattern_eq_parseParts, parsePattern_eq_parseParts, h], ?_⟩
  intro h0
  rw [parsePattern_eq_parseParts, h0]
  decide!

/-- C11, instance: `//users///:id/` and `/users/:id` have the same non-empty
segments and parse alike; the empty pattern and `//` have the canonical path
`/`. -/
theorem c11_empty_segments_dropped_witness :
    ((Split "//users///:id/".toList '/').filter (fun s => !s.isEmpty)
        = (Split "/users/:id".toList '/').filter (fun s => !s.isEmpty))
      ∧ (parsePattern "//users///:id/".toList = parsePattern "/users/:id".toList
        ∧ ((Split "//users///:id/".toList '/').filter (fun s => !s.isEmpty) = [] →
          parsePattern "//users///:id/".toList
            = some ("/".toList, [], { src := [], prog := Re.empty, ncap := 0 })))
      ∧ parsePattern "".toList
          = some ("/".toList, [], { src := [], prog := Re.empty, ncap := 0 })
      ∧ parsePattern "//".toList
          = some ("/".toList, [], { src := [], prog := Re.empty, ncap := 0 }) :=
  ⟨by decide!, c11_empty_segments_dropped "//users///:id/".toList "/users/:id".toList
    (by decide!), by decide!, by decide!⟩

/-- C12, counterexample.  The segment `a:id` does not begin with a colon, yet
`parsePattern` treats it as a parameter named `id` and nothing of it stays in
the matcher; the segment `:id-` is recorded under the name `id`, not under
the whole text `id-` after the colon; the segment `:-` is a colon followed by
a non-empty text, yet it is kept as a literal. -/
theorem c12_counterexample :
    parsePart ([], [[]]) "a:id".toList = (["id".toList], [[], paramCapture])
      ∧ (parsePattern "/a:id".toList).map (fun x => (x.1, x.2.1, x.2.2.String))
          = some ("/".toList, ["id".toList], "/([[:alnum:]]+)".toList)
      ∧ parsePart ([], [[]]) ":id-".toList = (["id".toList], [[], paramCapture])
      ∧ parsePart ([], [[]]) ":-".toList = ([], [[], ":-".toList]) :=
  ⟨by decide!, by decide!, by decide!, by decide!⟩

/-- C12, amended.  For every pattern without line feed, `parsePattern` treats
a segment as a parameter exactly when the text after the first colon of the
segment contains a word character (`paramNameOf`): it records that text, cut
after its last word character, as the parameter name and emits the capture
`([[:alnum:]]+)`, which compiles to a group of one or more alphanumeric
characters; every other non-empty segment is kept unchanged as a literal of
the matcher string and an empty segment adds nothing.  The names returned are
those of the parameter segments in order and the matcher is compiled from
the kept texts joined by `/`.  In particular a segment `:name` whose name
ends in a word character is a parameter named `name`, and a non-empty
segment without colon is a literal. -/
theorem c12_segment_classification (pattern : Str) (hnl : ∀ c ∈ pattern, c ≠ '\n') :
    (∀ part ∈ Split pattern '/', ∀ st : List Str × List Str,
        parsePart st part
          = match paramNameOf part with
            | some n => (st.1 ++ [n], st.2 ++ [paramCapture])
            | none => if part = [] then st else (st.1, st.2 ++ [part]))
      ∧ parsePattern pattern
          = (match Regexp.compile
                (Join ([] :: (Split pattern '/').filterMap atomOf) "/".toList) with
            | none => none
            | some re =>
              some (if splitFirst re.String '(' = [] then "/".toList
                    else splitFirst re.String '(',
                (Split pattern '/').filterMap paramNameOf, re))
      ∧ Regexp.compile paramCapture
          = some { src := paramCapture, prog := mkCat [captureRe 1], ncap := 1 }
      ∧ (∀ n : Str, isWordAt n.getLast? = true → paramNameOf (':' :: n) = some n)
      ∧ (∀ part : Str, (∀ c ∈ part, c ≠ ':') → paramNameOf part = none) := by
  have hparts : ∀ p ∈ Split pattern '/', ∀ c ∈ p, c ≠ '\n' :=
    fun p hp c hc => hnl c (mem_Split pattern '/' p hp c hc)
  refine ⟨?_, ?_, compile_paramCapture, paramNameOf_colon, paramNameOf_no_colon⟩
  · intro part hp st
    rw [parsePart_classify part (hparts part hp) st]
    unfold atomOf
    cases hn : paramNameOf part with
    | some n => rfl
    | none =>
      by_cases he : part = []
      · simp [he]
      · simp [he]
  · unfold parsePattern
    simp only [parsePart_fold_classify (Split pattern '/') hparts, List.nil_append,
      List.singleton_append]
    cases hc : Regexp.compile (Join ([] :: (Split pattern '/').filterMap atomOf) "/".toList) with
    | none => rfl
    | some re => simp only [compile_src _ re hc]

/-- C12, instance: a pattern of five segments, the literal `users`, the
parameter `:id`, the segment `x:y` read as a parameter `y`, the segment `:z-`
read as a parameter `z`, and the segment `:-` kept as a literal. -/
theorem c12_segment_classification_witness :
    (∀ c ∈ "/users/:id/x:y/:z-/:-".toList, c ≠ '\n')
      ∧ ((Split "/users/:id/x:y/:z-/:-".toList '/').filterMap paramNameOf
            = ["id".toList, "y".toList, "z".toList]
        ∧ (Split "/users/:id/x:y/:z-/:-".toList '/').filterMap atomOf
            = ["users".toList, paramCapture, paramCapture, paramCapture, ":-".toList])
      ∧ ((∀ part ∈ Split "/users/:id/x:y/:z-/:-".toList '/', ∀ st : List Str × List Str,
          parsePart st part
            = match paramNameOf part with
              | some n => (st.1 ++ [n], st.2 ++ [paramCapture])
              | none => if part = [] then st else (st.1, st.2 ++ [part]))
        ∧ parsePattern "/users/:id/x:y/:z-/:-".toList
            = (match Regexp.compile
                  (Join ([] :: (Split "/users/:id/x:y/:z-/:-".toList '/').filterMap atomOf)
                    "/".toList) with
              | none => none
              | some re =>
                some (if splitFirst re.String '(' = [] then "/".toList
                      else splitFirst re.String '(',
                  (Split "/users/:id/x:y/:z-/:-".toList '/').filterMap paramNameOf, re))
        ∧ Regexp.compile paramCapture
            = some { src := paramCapture, prog := mkCat [captureRe 1], ncap := 1 }
        ∧ (∀ n : Str, isWordAt n.getLast? = true → paramNameOf (':' :: n) = some n)
        ∧ (∀ part : Str, (∀ c ∈ part, c ≠ ':') → paramNameOf part = none)) :=
  ⟨by decide!, ⟨by decide!, by decide!⟩,
    c12_segment_classification "/users/:id/x:y/:z-/:-".toList (by decide!)⟩

/-- C13.  `pairParams` returns an error exactly when the numbers of values
and of keys differ; and when the first variant, in scan order, whose matcher
matches the path of a request with an allowed method has captured a number
of substrings other than its number of parameter names, `route.ServeHTTP`
does not fail the request: its trace is one call of the handler the variant
binds to the method, with an empty parameter mapping in the context. -/
theorem c13_count_mismatch_degrades (values keys : List Str) (r : route) (req : Request)
    (pre post : List matchMethodHandler) (v : matchMethodHandler) (matched : List Str)
    (h : HandlerPtr)
    (hallow : req.method ∈ r.allowMethods)
    (hscan : r.scan = pre ++ v :: post)
    (hpre : ∀ u ∈ pre, u.matcher.firstSubmatch req.path = none)
    (hv : v.matcher.firstSubmatch req.path = some matched)
    (hmis : (matched.drop 1).length ≠ v.params.length)
    (hb : mapGet v.allowed req.method = some h) :
    (pairParams values keys = none ↔ values.length ≠ keys.length)
      ∧ pairParams (matched.drop 1) v.params = none
      ∧ r.ServeHTTP req = [Event.call h { req with parameters := some [] }] := by
  have hp : pairParams (matched.drop 1) v.params = none :=
    (pairParams_none_iff _ _).mpr hmis
  refine ⟨pairParams_none_iff values keys, hp, ?_⟩
  rw [ServeHTTP_scan r req hallow, hscan, serveVariants_first req pre post v matched hpre hv]
  simp only [outcomeOf, hb, hp, Option.getD_none, Option.getD_some]

/-- C13, instance: the entry of the pattern `/(a)/:id`, whose first segment
opens a group of its own: on the path `/a/42` the matcher captures two
substrings for the single name `id`, and the handler is called with an empty
mapping. -/
theorem c13_count_mismatch_degrades_witness :
    GET ∈ (entryFor GET "/(a)/:id".toList 1).allowMethods
      ∧ (entryFor GET "/(a)/:id".toList 1).scan
          = [] ++ (variantsFor GET "/(a)/:id".toList 1).headD variantA :: []
      ∧ ((variantsFor GET "/(a)/:id".toList 1).headD variantA).params = ["id".toList]
      ∧ ((variantsFor GET "/(a)/:id".toList 1).headD variantA).matcher.firstSubmatch
          "/a/42".toList = some ["/a/42".toList, "a".toList, "42".toList]
      ∧ ((pairParams ["1".toList] [] = none ↔ ["1".toList].length ≠ ([] : List Str).length)
        ∧ pairParams (["/a/42".toList, "a".toList, "42".toList].drop 1) ["id".toList] = none
        ∧ (entryFor GET "/(a)/:id".toList 1).ServeHTTP ⟨GET, "/a/42".toList, true, none⟩
            = [Event.call 1 ⟨GET, "/a/42".toList, true, some []⟩]) :=
  ⟨by decide!, by decide!, by decide!, by decide!,
    c13_count_mismatch_degrades ["1".toList] [] (entryFor GET "/(a)/:id".toList 1)
      ⟨GET, "/a/42".toList, true, none⟩ [] []
      ((variantsFor GET "/(a)/:id".toList 1).headD variantA)
      ["/a/42".toList, "a".toList, "42".toList] 1
      (by decide!) (by decide!) (by decide!) (by decide!) (by decide!) (by decide!)⟩

/-- C14.  For an entry whose signatures are distinct (they are the keys of a
map) and whose variants are stored under their matcher string,
`sortMatchStrings` returns every signature exactly once, in strictly
descending order; for a request whose method is allowed, `route.ServeHTTP`
answers not-found when no variant matches the path and otherwise serves a
matching variant whose matcher string is the greatest among the matching
ones; and the trace is the same for every entry that stores the same
signatures in another order. -/
theorem c14_descending_first_match (r : route) (req : Request)
    (hk : (r.patternMatchMethods.map Prod.fst).Nodup)
    (hsig : ∀ e ∈ r.patternMatchMethods, ∀ v ∈ e.2, v.matcher.String = e.1)
    (hallow : req.method ∈ r.allowMethods) :
    r.sortMatchStrings.Perm (r.patternMatchMethods.map Prod.fst)
      ∧ r.sortMatchStrings.Nodup
      ∧ r.sortMatchStrings.Pairwise (fun a b => strLt b a = true)
      ∧ ((∀ e ∈ r.patternMatchMethods, ∀ v ∈ e.2, v.matcher.firstSubmatch req.path = none) →
          r.ServeHTTP req = [Event.notFound])
      ∧ ((∃ e ∈ r.patternMatchMethods, ∃ v ∈ e.2,
            (v.matcher.firstSubmatch req.path).isSome = true) →
          ∃ w matched, (∃ e ∈ r.patternMatchMethods, w ∈ e.2)
            ∧ w.matcher.firstSubmatch req.path = some matched
            ∧ r.ServeHTTP req = outcomeOf req w matched
            ∧ ∀ e ∈ r.patternMatchMethods, ∀ v ∈ e.2,
                (v.matcher.firstSubmatch req.path).isSome = true →
                v.matcher.String = w.matcher.String
                  ∨ strLt v.matcher.String w.matcher.String = true)
      ∧ (∀ r' : route, r'.patternMatchMethods.Perm r.patternMatchMethods →
          (∀ m, m ∈ r'.allowMethods ↔ m ∈ r.allowMethods) →
          r'.ServeHTTP req = r.ServeHTTP req) := by
  refine ⟨sortMatchStrings_perm r, (sortMatchStrings_perm r).nodup_iff.mpr hk,
    sortMatchStrings_desc r hk, ?_, ?_, fun r' hp ha => ServeHTTP_perm r r' hp hk ha req⟩
  · intro hno
    rw [ServeHTTP_scan r req hallow, serveVariants_none]
    · rfl
    · intro u hu
      obtain ⟨e, he, hue⟩ := (mem_scan r hk u).mp hu
      exact hno e he u hue
  · rintro ⟨e, he, v, hv, hvs⟩
    obtain ⟨pre, w, post, matched, hscan, hpre, hw⟩ :=
      exists_first_match req r.scan ⟨v, (mem_scan r hk v).mpr ⟨e, he, hv⟩, hvs⟩
    have hwmem : w ∈ r.scan := by rw [hscan]; simp
    refine ⟨w, matched, (mem_scan r hk w).mp hwmem, hw, ?_, ?_⟩
    · rw [ServeHTTP_scan r req hallow, hscan, serveVariants_first req pre post w matched hpre hw]
      rfl
    · intro e' he' v' hv' hv's
      have hv'mem : v' ∈ r.scan := (mem_scan r hk v').mpr ⟨e', he', hv'⟩
      rw [hscan] at hv'mem
      have hpw := scan_pairwise r hk hsig
      rw [hscan, List.pairwise_append] at hpw
      rcases List.mem_append.mp hv'mem with hin | hin
      · rw [hpre v' hin] at hv's
        simp at hv's
      · rcases List.mem_cons.mp hin with rfl | hin
        · left; rfl
        · exact (List.pairwise_cons.mp hpw.2.1).1 v' hin

/-- C14, instance: the entry of `/users/:id` and `/users/:id/posts/:postId`
registered in that order scans the longer signature first and serves
`/users/42/posts/7` by the second handler. -/
theorem c14_descending_first_match_witness :
    ((entryTwo.patternMatchMethods.map Prod.fst).Nodup
      ∧ (∀ e ∈ entryTwo.patternMatchMethods, ∀ v ∈ e.2, v.matcher.String = e.1)
      ∧ GET ∈ entryTwo.allowMethods)
    ∧ entryTwo.patternMatchMethods.map Prod.fst
        = ["/users/([[:alnum:]]+)".toList, "/users/([[:alnum:]]+)/posts/([[:alnum:]]+)".toList]
    ∧ entryTwo.sortMatchStrings
        = ["/users/([[:alnum:]]+)/posts/([[:alnum:]]+)".toList, "/users/([[:alnum:]]+)".toList]
    ∧ entryTwo.ServeHTTP ⟨GET, "/users/42/posts/7".toList, true, none⟩
        = [Event.call 2 ⟨GET, "/users/42/posts/7".toList, true,
            some [("id".toList, "42".toList), ("postId".toList, "7".toList)]⟩]
    ∧ (entryTwo.sortMatchStrings.Perm (entryTwo.patternMatchMethods.map Prod.fst)
      ∧ entryTwo.sortMatchStrings.Nodup
      ∧ entryTwo.sortMatchStrings.Pairwise (fun a b => strLt b a = true)
      ∧ ((∀ e ∈ entryTwo.patternMatchMethods, ∀ v ∈ e.2,
            v.matcher.firstSubmatch "/users/42/posts/7".toList = none) →
          entryTwo.ServeHTTP ⟨GET, "/users/42/posts/7".toList, true, none⟩ = [Event.notFound])
      ∧ ((∃ e ∈ entryTwo.patternMatchMethods, ∃ v ∈ e.2,
            (v.matcher.firstSubmatch "/users/42/posts/7".toList).isSome = true) →
          ∃ w matched, (∃ e ∈ entryTwo.patternMatchMethods, w ∈ e.2)
            ∧ w.matcher.firstSubmatch "/users/42/posts/7".toList = some matched
            ∧ entryTwo.ServeHTTP ⟨GET, "/users/42/posts/7".toList, true, none⟩
                = outcomeOf ⟨GET, "/users/42/posts/7".toList, true, none⟩ w matched
            ∧ ∀ e ∈ entryTwo.patternMatchMethods, ∀ v ∈ e.2,
                (v.matcher.firstSubmatch "/users/42/posts/7".toList).isSome = true →
                v.matcher.String = w.matcher.String
                  ∨ strLt v.matcher.String w.matcher.String = true)
      ∧ (∀ r' : route, r'.patternMatchMethods.Perm entryTwo.patternMatchMethods →
          (∀ m, m ∈ r'.allowMethods ↔ m ∈ entryTwo.allowMethods) →
          r'.ServeHTTP ⟨GET, "/users/42/posts/7".toList, true, none⟩
            = entryTwo.ServeHTTP ⟨GET, "/users/42/posts/7".toList, true, none⟩)) :=
  ⟨⟨by decide!, by decide!, by decide!⟩, by decide!, by decide!, by decide!,
    c14_descending_first_match entryTwo ⟨GET, "/users/42/posts/7".toList, true, none⟩
      (by decide!) (by decide!) (by decide!)⟩

/-- C15, the code at the failing input.  After `NewRoute` for GET on `/a` and
`route.Add` for POST on `/a`, the allowed methods are GET and POST while the
only stored variant binds GET alone: POST is allowed and bound by no
variant. -/
theorem c15_allowed_method_unbound :
    ((NewRoute GET "/a".toList 1).bind (fun x => x.2.Add POST "/a".toList 2)).map
        (fun x => (x.2.allowMethods, boundMethods x.2))
      = some ([GET, POST], [GET]) := by
  decide!

/-- C16, counterexample.  The pattern `/:id/:id` is accepted at registration
and the variant stored has the parameter names `id`, `id`: the name occurs
twice. -/
theorem c16_counterexample :
    (NewRoute GET "/:id/:id".toList 1).map
        (fun x => x.2.patternMatchMethods.map (fun e => e.2.map (fun v => v.params)))
      = some [[["id".toList, "id".toList]]] := by
  decide!

/-- C16, amended.  For every pattern of well-formed segments, the
parameter-name list `parsePattern` returns, which `NewRoute` stores in the
variant, is the list of the names of the parameter segments as written, in
order, repetitions included; and `pairParams` on as many values returns a
mapping that binds each name to the value at its last occurrence. -/
theorem c16_names_as_written (segs : List Seg) (values : List Str) (method : Str)
    (h : HandlerPtr) (k : Str)
    (hwf : ∀ s ∈ segs, s.wf = true) (hlen : values.length = (paramNames segs).length) :
    (∃ canon m, parsePattern (patternOf segs) = some (canon, paramNames segs, m))
      ∧ (NewRoute method (patternOf segs) h).map
          (fun x => x.2.patternMatchMethods.map (fun e => e.2.map (fun v => v.params)))
          = some [[paramNames segs]]
      ∧ ∃ ps, pairParams values (paramNames segs) = some ps
          ∧ mapGet ps k
              = (((paramNames segs).zip values).reverse.find? (fun e => e.1 == k)).map
                  (fun e => e.2) := by
  refine ⟨⟨_, _, parsePattern_patternOf segs hwf⟩, ?_, pairParams_get values _ hlen k⟩
  rw [NewRoute_patternOf segs hwf]
  rfl

/-- C16, instance: `/:id/to/:id` is stored with the names `id`, `id`, and
the values `1`, `2` are paired to the mapping that sends `id` to `2`. -/
theorem c16_names_as_written_witness :
    (∀ s ∈ [Seg.param "id".toList, Seg.lit "to".toList, Seg.param "id".toList], s.wf = true)
      ∧ ((∃ canon m, parsePattern "/:id/to/:id".toList
            = some (canon, ["id".toList, "id".toList], m))
        ∧ (NewRoute GET "/:id/to/:id".toList 1).map
            (fun x => x.2.patternMatchMethods.map (fun e => e.2.map (fun v => v.params)))
            = some [[["id".toList, "id".toList]]]
        ∧ ∃ ps, pairParams ["1".toList, "2".toList] ["id".toList, "id".toList] = some ps
            ∧ mapGet ps "id".toList = some "2".toList) :=
  ⟨by decide!, c16_names_as_written
    [Seg.param "id".toList, Seg.lit "to".toList, Seg.param "id".toList]
    ["1".toList, "2".toList] GET 1 "id".toList (by decide!) (by decide!)⟩

/-- C17, counterexample.  After `/users/:id` and then `/users/:uid` are
registered under GET, the entry holds one variant, with the name `id`, and
`/users/42` is served by the first handler with its parameter under `id`.
When the second is registered under POST, the entry still holds that one
variant and a POST request for `/users/42` panics. -/
theorem c17_counterexample :
    (((NewRouter.Add GET "/users/:id".toList 1).bind
        (fun a => a.Add GET "/users/:uid".toList 2)).bind
        (fun a => (mapGet a.routes "/users/".toList).map
          (fun r => (r.patternMatchMethods.flatMap (fun e => e.2.map (fun v => v.params)),
            r.ServeHTTP ⟨GET, "/users/42".toList, true, none⟩))))
      = some ([["id".toList]],
          [Event.call 1 ⟨GET, "/users/42".toList, true, some [("id".toList, "42".toList)]⟩])
    ∧ (((NewRouter.Add GET "/users/:id".toList 1).bind
        (fun a => a.Add POST "/users/:uid".toList 2)).bind
        (fun a => (mapGet a.routes "/users/".toList).map
          (fun r => (r.patternMatchMethods.flatMap (fun e => e.2.map (fun v => v.params)),
            r.ServeHTTP ⟨POST, "/users/42".toList, true, none⟩))))
      = some ([["id".toList]], [Event.panicked]) :=
  ⟨by decide!, by decide!⟩

/-- C17, amended.  Two patterns of well-formed segments that differ only in
their parameter names compile to the same canonical path and the same
matcher string; registering both under the same method through
`AppRouter.Add` leaves the entry as the first registration made it: one
variant, with the first pattern's parameter names, and a request whose path
instantiates the second pattern is served by the first handler with its
parameters under the first pattern's names. -/
theorem c17_same_signature_one_variant (segs1 segs2 : List Seg) (values : List Str)
    (method : Str) (h1 h2 : HandlerPtr) (log : Bool) (ps : Option Params)
    (hwf1 : ∀ s ∈ segs1, s.wf = true) (hwf2 : ∀ s ∈ segs2, s.wf = true)
    (hshape : sameShape segs1 segs2 = true)
    (hlen : values.length = (paramNames segs1).length)
    (hval : ∀ v ∈ values, isValue v = true) :
    (∃ canon m1 m2, parsePattern (patternOf segs1) = some (canon, paramNames segs1, m1)
        ∧ parsePattern (patternOf segs2) = some (canon, paramNames segs2, m2)
        ∧ m1.String = m2.String)
      ∧ ∃ a p r,
        (NewRouter.Add method (patternOf segs1) h1).bind
            (fun a => a.Add method (patternOf segs2) h2) = some a
        ∧ a.routes = [(p, r)]
        ∧ NewRoute method (patternOf segs1) h1 = some (p, r)
        ∧ r.patternMatchMethods.flatMap (fun e => e.2.map (fun v => v.params))
            = [paramNames segs1]
        ∧ r.ServeHTTP ⟨method, instantiate segs2 values, log, ps⟩
            = [Event.call h1 ⟨method, instantiate segs2 values, log,
                some ((pairParams values (paramNames segs1)).getD [])⟩] := by
  have hr := regexOf_sameShape segs1 segs2 hshape
  have hc := canonOf_sameShape segs1 segs2 hshape
  refine ⟨⟨canonOf segs1, matcherOf segs1, matcherOf segs2, parsePattern_patternOf segs1 hwf1,
    by rw [hc]; exact parsePattern_patternOf segs2 hwf2, hr⟩,
    _, canonOf segs1, routeOf segs1 method h1,
    Add_sameShape segs1 segs2 hwf1 hwf2 hshape method h1 h2, rfl,
    NewRoute_patternOf segs1 hwf1 method h1, rfl, ?_⟩
  have hf := firstSubmatch_instance segs1 hwf1 values hval hlen [] (fun c hc => by simp at hc)
  rw [List.append_nil] at hf
  rw [← instantiate_sameShape segs1 segs2 values hshape]
  simp only [route.ServeHTTP, routeOf, List.mem_singleton, if_true, route.sortMatchStrings,
    List.map_cons, List.map_nil, sortDesc, List.foldr_cons, List.foldr_nil, insertDesc,
    servePatterns, mapGet, Option.getD_some]
  rw [serveVariants_single segs1 method h1 _ rfl]
  simp only [hf]
  rfl

/-- C17, instance: `/users/:id` and `/users/:uid` under GET, and the request
`/users/42`. -/
theorem c17_same_signature_one_variant_witness :
    (sameShape [Seg.lit "users".toList, Seg.param "id".toList]
        [Seg.lit "users".toList, Seg.param "uid".toList] = true)
      ∧ ((∃ canon m1 m2, parsePattern "/users/:id".toList = some (canon, ["id".toList], m1)
          ∧ parsePattern "/users/:uid".toList = some (canon, ["uid".toList], m2)
          ∧ m1.String = m2.String)
        ∧ ∃ a p r,
          (NewRouter.Add GET "/users/:id".toList 1).bind
              (fun a => a.Add GET "/users/:uid".toList 2) = some a
          ∧ a.routes = [(p, r)]
          ∧ NewRoute GET "/users/:id".toList 1 = some (p, r)
          ∧ r.patternMatchMethods.flatMap (fun e => e.2.map (fun v => v.params))
              = [["id".toList]]
          ∧ r.ServeHTTP ⟨GET, "/users/42".toList, true, none⟩
              = [Event.call 1 ⟨GET, "/users/42".toList, true,
                  some [("id".toList, "42".toList)]⟩]) :=
  ⟨by decide!, c17_same_signature_one_variant [Seg.lit "users".toList, Seg.param "id".toList]
    [Seg.lit "users".toList, Seg.param "uid".toList] ["42".toList] GET 1 2 true none
    (by decide!) (by decide!) (by decide!) (by decide!) (by decide!)⟩

/-- C18.  The canonical path `parsePattern` returns is the matcher string cut
before its first `(`, or `/` when that prefix is empty.  Two patterns with
the same canonical path, registered through `AppRouter.Add` in any router,
are grouped into the one entry stored under that path: the router's other
entries are as before, the entry keeps every signature it had with its
variants, and it holds the matcher strings of both patterns as signatures;
in a router without entries the result is the single entry with exactly the
variants of the two registrations.  And any two patterns whose non-empty
parts begin with the same literal parts followed by a parameter have the
same canonical path, which is `/`-joined literal parts followed by `/` and
cut before the first `(`, whatever follows the first parameter. -/
theorem c18_canonical_path_groups (a : AppRouter) (p q cp cq : Str) (np nq : List Str)
    (mp mq : Regexp) (m1 m2 : Str) (h1 h2 : HandlerPtr)
    (hp : parsePattern p = some (cp, np, mp)) (hq : parsePattern q = some (cq, nq, mq)) :
    cp = (if splitFirst mp.String '(' = [] then "/".toList else splitFirst mp.String '(')
      ∧ (cp = cq →
          ∃ a1 a2 r1 r2,
            a.Add m1 p h1 = some a1 ∧ a1.Add m2 q h2 = some a2
            ∧ a1.routes = mapSet a.routes cp r1 ∧ a2.routes = mapSet a.routes cp r2
            ∧ mapGet a2.routes cp = some r2
            ∧ (∀ k, k ≠ cp → mapGet a2.routes k = mapGet a.routes k)
            ∧ r2.base = (entryAt a cp).base
            ∧ r1.patternMatchMethods
                = (entryAt a cp).patternMatchMethods ++ newEntries (entryAt a cp) m1 np mp h1
            ∧ r2.patternMatchMethods = r1.patternMatchMethods ++ newEntries r1 m2 nq mq h2
            ∧ (∀ k vs, mapGet (entryAt a cp).patternMatchMethods k = some vs →
                mapGet r2.patternMatchMethods k = some vs)
            ∧ (mapGet r2.patternMatchMethods mp.String).isSome = true
            ∧ (mapGet r2.patternMatchMethods mq.String).isSome = true
            ∧ (a.routes = [] →
                a2.routes = [(cp, r2)] ∧ r2.base = cp
                ∧ r2.patternMatchMethods
                    = (mp.String, [NewMatchMethodHandler m1 np mp h1])
                      :: (if mp.String = mq.String then []
                          else [(mq.String, [NewMatchMethodHandler m2 nq mq h2])])))
      ∧ (∀ (lits : List Str) (x x' : Str) (rest rest' : List Str),
          (Split p '/').filter (fun s => !s.isEmpty) = lits ++ x :: rest →
          (Split q '/').filter (fun s => !s.isEmpty) = lits ++ x' :: rest' →
          (∀ s ∈ lits, paramRegexp.firstSubmatch s = none) →
          (paramRegexp.firstSubmatch x).isSome = true →
          (paramRegexp.firstSubmatch x').isSome = true →
          cq = cp
            ∧ cp = splitFirst (Join ([] :: lits) "/".toList ++ "/".toList) '('
            ∧ ((∀ s ∈ lits, ∀ c ∈ s, c ≠ '(') →
                cp = Join ([] :: lits) "/".toList ++ "/".toList)) := by
  refine ⟨parsePattern_canon p cp np mp hp, ?_, ?_⟩
  · intro hc
    subst hc
    obtain ⟨a1, a2, r1, r2, ha1, ha2, hr1, hr2, hb1, hb2, hpm1, hpm2⟩ :=
      AppRouter_Add_twice a p q cp np nq mp mq m1 m2 h1 h2 hp hq
    have hkeep : ∀ k vs, mapGet (entryAt a cp).patternMatchMethods k = some vs →
        mapGet r2.patternMatchMethods k = some vs := by
      intro k vs hk
      rw [hpm2, hpm1]
      exact mapGet_append_some _ _ _ _ (mapGet_append_some _ _ _ _ hk)
    have hs1 : (mapGet r2.patternMatchMethods mp.String).isSome = true := by
      have h1 := mapGet_newEntries_isSome (entryAt a cp) m1 np mp h1
      rw [← hpm1] at h1
      obtain ⟨vs, hvs⟩ := Option.isSome_iff_exists.mp h1
      rw [hpm2, mapGet_append_some _ _ _ _ hvs]
      rfl
    have hs2 : (mapGet r2.patternMatchMethods mq.String).isSome = true := by
      rw [hpm2]
      exact mapGet_newEntries_isSome r1 m2 nq mq h2
    refine ⟨a1, a2, r1, r2, ha1, ha2, hr1, hr2, ?_, ?_, hb2, hpm1, hpm2, hkeep, hs1, hs2, ?_⟩
    · rw [hr2, mapGet_mapSet, if_pos rfl]
    · intro k hk
      rw [hr2, mapGet_mapSet_other _ _ _ _ hk]
    · intro hnil
      have he : entryAt a cp = emptyEntry cp := by simp [entryAt, hnil, mapGet]
      rw [he] at hpm1 hb2
      have hpm1' : r1.patternMatchMethods = [(mp.String, [NewMatchMethodHandler m1 np mp h1])] := by
        rw [hpm1]
        simp [newEntries, emptyEntry, mapGet]
      refine ⟨by rw [hr2, hnil]; rfl, hb2, ?_⟩
      rw [hpm2, hpm1']
      unfold newEntries
      rw [hpm1']
      by_cases hm : mp.String = mq.String
      · simp [mapGet, hm]
      · simp [mapGet, hm]
  · intro lits x x' rest rest' hps hqs hl hx hx'
    have h1 := canon_of_lits p cp np mp hp lits x rest hps hl hx
    have h2 := canon_of_lits q cq nq mq hq lits x' rest' hqs hl hx'
    refine ⟨h2.trans h1.symm, h1, ?_⟩
    intro hplain
    rw [h1, splitFirst_lits_plain lits hplain]

/-- C18, instance: `/users/:id` and `/users/:id/posts/:postId` both have the
canonical path `/users/`; registered in a new router they leave one entry,
stored under `/users/`, that holds the variant of each. -/
theorem c18_canonical_path_groups_witness :
    ∃ np mp nq mq,
      parsePattern "/users/:id".toList = some ("/users/".toList, np, mp)
      ∧ parsePattern "/users/:id/posts/:postId".toList = some ("/users/".toList, nq, mq)
      ∧ mp.String = "/users/([[:alnum:]]+)".toList
      ∧ mq.String = "/users/([[:alnum:]]+)/posts/([[:alnum:]]+)".toList
      ∧ (∃ a1 a2 r2,
          NewRouter.Add GET "/users/:id".toList 1 = some a1
          ∧ a1.Add GET "/users/:id/posts/:postId".toList 2 = some a2
          ∧ a2.routes = [("/users/".toList, r2)]
          ∧ r2.patternMatchMethods
              = (mp.String, [NewMatchMethodHandler GET np mp 1])
                :: (if mp.String = mq.String then []
                    else [(mq.String, [NewMatchMethodHandler GET nq mq 2])]))
      ∧ "/users/".toList = Join ([] :: ["users".toList]) "/".toList ++ "/".toList := by
  have hp := parsePattern_patternOf [Seg.lit "users".toList, Seg.param "id".toList] (by decide!)
  have hq := parsePattern_patternOf [Seg.lit "users".toList, Seg.param "id".toList,
    Seg.lit "posts".toList, Seg.param "postId".toList] (by decide!)
  have h := c18_canonical_path_groups NewRouter "/users/:id".toList
    "/users/:id/posts/:postId".toList "/users/".toList "/users/".toList _ _ _ _ GET GET 1 2 hp hq
  obtain ⟨a1, a2, r1, r2, ha1, ha2, _, _, _, _, _, _, _, _, _, _, hnew⟩ := h.2.1 rfl
  have h3 := h.2.2 ["users".toList] ":id".toList ":id".toList [] ["posts".toList, ":postId".toList]
    (by decide!) (by decide!) (by decide!) (by decide!) (by decide!)
  exact ⟨_, _, _, _, hp, hq, rfl, rfl, ⟨a1, a2, r2, ha1, ha2, (hnew rfl).1, (hnew rfl).2.2⟩,
    h3.2.2 (by decide!)⟩

/-- C19.  Registration of two triples whose patterns have the same canonical
path and different matcher strings commutes: from any router whose entry for
that path has distinct signatures, `AppRouter.Add` returns in both orders,
and the entries left under the path have the same base, the same signatures
with the same variants, and the same allowed methods, hence the same trace of
`route.ServeHTTP` for every request; the entries under other paths are the
same as well. -/
theorem c19_distinct_signatures_commute (a : AppRouter) (m1 p1 : Str) (h1 : HandlerPtr)
    (m2 p2 : Str) (h2 : HandlerPtr) (c : Str) (n1 n2 : List Str) (re1 re2 : Regexp)
    (hp1 : parsePattern p1 = some (c, n1, re1)) (hp2 : parsePattern p2 = some (c, n2, re2))
    (hne : re1.String ≠ re2.String)
    (hinv : ∀ R, mapGet a.routes c = some R → (R.patternMatchMethods.map Prod.fst).Nodup) :
    ∃ a12 a21 r12 r21,
      (a.Add m1 p1 h1).bind (fun x => x.Add m2 p2 h2) = some a12
      ∧ (a.Add m2 p2 h2).bind (fun x => x.Add m1 p1 h1) = some a21
      ∧ mapGet a12.routes c = some r12 ∧ mapGet a21.routes c = some r21
      ∧ (∀ k, k ≠ c → mapGet a12.routes k = mapGet a21.routes k)
      ∧ r12.base = r21.base
      ∧ r12.patternMatchMethods.Perm r21.patternMatchMethods
      ∧ (∀ k, mapGet r12.patternMatchMethods k = mapGet r21.patternMatchMethods k)
      ∧ (∀ m, m ∈ r12.allowMethods ↔ m ∈ r21.allowMethods)
      ∧ ∀ req, r12.ServeHTTP req = r21.ServeHTTP req := by
  obtain ⟨s1, rA, s2, r12, s3, rB, s4, r21, hA, h12, hB, h21, hbase, hperm, hnd, hallow⟩ :=
    route_Add_commute (entryAt a c) (emptyEntry_or_nodup a c hinv) m1 p1 h1 m2 p2 h2 c n1 n2
      re1 re2 hp1 hp2 hne
  obtain ⟨aA, sA, rA', haA, heA, hrA⟩ := AppRouter_Add_effect a m1 p1 h1 c n1 re1 hp1
  rw [hA] at heA
  simp only [Option.some.injEq, Prod.mk.injEq] at heA
  obtain ⟨_, rfl⟩ := heA
  obtain ⟨aB, sB, rB', haB, heB, hrB⟩ := AppRouter_Add_effect a m2 p2 h2 c n2 re2 hp2
  rw [hB] at heB
  simp only [Option.some.injEq, Prod.mk.injEq] at heB
  obtain ⟨_, rfl⟩ := heB
  obtain ⟨a12, s12, r12', ha12, he12, hr12⟩ := AppRouter_Add_effect aA m2 p2 h2 c n2 re2 hp2
  rw [entryAt_mapSet a aA c rA hrA, h12] at he12
  simp only [Option.some.injEq, Prod.mk.injEq] at he12
  obtain ⟨_, rfl⟩ := he12
  obtain ⟨a21, s21, r21', ha21, he21, hr21⟩ := AppRouter_Add_effect aB m1 p1 h1 c n1 re1 hp1
  rw [entryAt_mapSet a aB c rB hrB, h21] at he21
  simp only [Option.some.injEq, Prod.mk.injEq] at he21
  obtain ⟨_, rfl⟩ := he21
  refine ⟨a12, a21, r12, r21, by rw [haA]; exact ha12, by rw [haB]; exact ha21, ?_, ?_, ?_,
    hbase, hperm, fun k => mapGet_perm _ _ hperm hnd k, hallow,
    fun req => ServeHTTP_perm r21 r12 hperm hnd hallow req⟩
  · rw [hr12, mapGet_mapSet, if_pos rfl]
  · rw [hr21, mapGet_mapSet, if_pos rfl]
  · intro k hk
    rw [hr12, hr21, hrA, hrB, mapGet_mapSet_other _ _ _ _ hk, mapGet_mapSet_other _ _ _ _ hk,
      mapGet_mapSet_other _ _ _ _ hk, mapGet_mapSet_other _ _ _ _ hk]

/-- C19, instance: GET on `/users/:id` and POST on
`/users/:id/posts/:postId`, registered in a new router in either order. -/
theorem c19_distinct_signatures_commute_witness :
    (∃ n1 re1 n2 re2,
        parsePattern "/users/:id".toList = some ("/users/".toList, n1, re1)
        ∧ parsePattern "/users/:id/posts/:postId".toList = some ("/users/".toList, n2, re2)
        ∧ re1.String ≠ re2.String)
      ∧ ∃ a12 a21 r12 r21,
        (NewRouter.Add GET "/users/:id".toList 1).bind
            (fun x => x.Add POST "/users/:id/posts/:postId".toList 2) = some a12
        ∧ (NewRouter.Add POST "/users/:id/posts/:postId".toList 2).bind
            (fun x => x.Add GET "/users/:id".toList 1) = some a21
        ∧ mapGet a12.routes "/users/".toList = some r12
        ∧ mapGet a21.routes "/users/".toList = some r21
        ∧ (∀ k, k ≠ "/users/".toList → mapGet a12.routes k = mapGet a21.routes k)
        ∧ r12.base = r21.base
        ∧ r12.patternMatchMethods.Perm r21.patternMatchMethods
        ∧ (∀ k, mapGet r12.patternMatchMethods k = mapGet r21.patternMatchMethods k)
        ∧ (∀ m, m ∈ r12.allowMethods ↔ m ∈ r21.allowMethods)
        ∧ ∀ req, r12.ServeHTTP req = r21.ServeHTTP req :=
  ⟨⟨_, _, _, _,
      parsePattern_patternOf [Seg.lit "users".toList, Seg.param "id".toList] (by decide!),
      parsePattern_patternOf [Seg.lit "users".toList, Seg.param "id".toList,
        Seg.lit "posts".toList, Seg.param "postId".toList] (by decide!),
      by decide!⟩,
    c19_distinct_signatures_commute NewRouter GET "/users/:id".toList 1 POST
      "/users/:id/posts/:postId".toList 2 "/users/".toList _ _ _ _
      (parsePattern_patternOf [Seg.lit "users".toList, Seg.param "id".toList] (by decide!))
      (parsePattern_patternOf [Seg.lit "users".toList, Seg.param "id".toList,
        Seg.lit "posts".toList, Seg.param "postId".toList] (by decide!))
      (by decide!) (fun R hR => by simp [NewRouter, mapGet] at hR)⟩

end Pitcher
